import Mathlib

/-!
Verification development for the AI Pathfinder grid-search program
(`ai_pathfinder.py`).

The program runs six uninformed search algorithms (BFS, DFS, UCS, DLS,
IDDFS, bidirectional BFS) over a 25×25 occupancy grid with six-directional
movement.  This file gives a shallow embedding of the search engine and the
grid model, and proves or refutes the specification claims about it.

Embedding conventions:
* Cells are `Int × Int` pairs `(row, col)`; bounds are checked by
  `is_valid` exactly as in the source (`0 ≤ r < 25`, `0 ≤ c < 25`).
* Python `set` objects are embedded as duplicate-free `List`s with
  membership-guarded insertion (`setAdd`); Python `dict`s as functions
  into `Option`.
* Move costs in the source are the floats `1.0` and `math.sqrt(2)`,
  accumulated by `+` and compared by `<`.  Costs are embedded exactly as
  the pair of coefficients `(o, d)` denoting the real number `o + d·√2`
  (`Cost.toReal`), with the comparison `Cost.ltB` proved equivalent to the
  real-number order, so float arithmetic is idealised to exact real
  arithmetic on the ring ℕ + ℕ·√2 that all reachable cost values live in.
* The GUI statistics dictionary is embedded only in the fields the claims
  mention (`explored`, `frontier`, counters, status tags); drawing,
  `pygame.time.wait`, pausing and threading are visual pacing and are not
  part of the embedded step semantics.
* Algorithm runs are modelled with no successful dynamic-obstacle spawn:
  `spawn_dynamic_obstacle` only mutates state when a 1%-probability random
  draw hits, and a run in which every draw misses leaves the grid static,
  which is the situation the functional-correctness claims quantify over.
  The spawner itself is embedded separately (`spawn_dynamic_obstacle`)
  with its random draws passed in as explicit oracle arguments.
* While loops are embedded as step functions driven by a fuel-indexed
  runner; `none` means the fuel budget was exhausted, `some` is a
  completed run.  Termination with sufficient fuel is proved where a
  claim needs a completed run.
-/

namespace AIPathfinder

/-- GRID_SIZE constant from the source (line 30). -/
def GRID_SIZE : Int := 25

/-- The six movement offsets in their fixed source order (lines 59-66):
Up, Right, Bottom, Bottom-Right, Left, Top-Left.  Top-Right `(-1, 1)` and
Bottom-Left `(1, -1)` are not included. -/
def DIRECTIONS : List (Int × Int) :=
  [(-1, 0), (0, 1), (1, 0), (1, 1), (0, -1), (-1, -1)]

/-- Exact move-cost values: `o + d * √2` with natural coefficients.  Every
cost arising in the program is a sum of `1.0`s and `math.sqrt(2)`s. -/
structure Cost where
  o : Nat
  d : Nat
deriving DecidableEq, Repr

/-- The real number a `Cost` denotes. -/
noncomputable def Cost.toReal (c : Cost) : ℝ := (c.o : ℝ) + (c.d : ℝ) * Real.sqrt 2

/-- Cost addition (float `+` idealised). -/
def Cost.add (a b : Cost) : Cost := ⟨a.o + b.o, a.d + b.d⟩

/-- Decidable strict comparison of `o₁ + d₁√2 < o₂ + d₂√2`, via integer
arithmetic (float `<` idealised to the real order). -/
def Cost.ltB (a b : Cost) : Bool :=
  let x : Int := (a.o : Int) - (b.o : Int)
  let y : Int := (b.d : Int) - (a.d : Int)
  (decide (0 ≤ y) && (decide (x < 0) || decide (x ^ 2 < 2 * y ^ 2))) ||
    (decide (y < 0) && decide (x < 0) && decide (2 * y ^ 2 < x ^ 2))

/-- Non-strict counterpart of `Cost.ltB`. -/
def Cost.leB (a b : Cost) : Bool := !(Cost.ltB b a)

/-- Comparison of an integer against an integer multiple of √2, reduced to
integer arithmetic. -/
theorem int_lt_mul_sqrt2 (x y : Int) :
    (x : ℝ) < (y : ℝ) * Real.sqrt 2 ↔
      (0 ≤ y ∧ (x < 0 ∨ x ^ 2 < 2 * y ^ 2)) ∨ (y < 0 ∧ x < 0 ∧ 2 * y ^ 2 < x ^ 2) := by
  have hs2 : (0:ℝ) < Real.sqrt 2 := Real.sqrt_pos.mpr (by norm_num)
  have hsq : Real.sqrt 2 ^ 2 = 2 := Real.sq_sqrt (by norm_num)
  rcases le_or_lt 0 y with hy | hy
  · rcases lt_or_le x 0 with hx | hx
    · constructor
      · intro _; exact Or.inl ⟨hy, Or.inl hx⟩
      · intro _
        have h1 : (x:ℝ) < 0 := by exact_mod_cast hx
        have h2 : (0:ℝ) ≤ (y:ℝ) * Real.sqrt 2 := by
          have : (0:ℝ) ≤ (y:ℝ) := by exact_mod_cast hy
          positivity
        linarith
    · have hxr : (0:ℝ) ≤ (x:ℝ) := by exact_mod_cast hx
      have hyr : (0:ℝ) ≤ (y:ℝ) := by exact_mod_cast hy
      constructor
      · intro h
        refine Or.inl ⟨hy, Or.inr ?_⟩
        have hsq2 : (x:ℝ) ^ 2 < ((y:ℝ) * Real.sqrt 2) ^ 2 := by
          have := pow_lt_pow_left₀ h hxr (by norm_num : (2:ℕ) ≠ 0)
          exact this
        rw [mul_pow, hsq] at hsq2
        have : (x:ℝ) ^ 2 < 2 * (y:ℝ) ^ 2 := by linarith
        exact_mod_cast this
      · rintro (⟨-, h | h⟩ | ⟨hy', -, -⟩)
        · omega
        · have h2 : (x:ℝ) ^ 2 < 2 * (y:ℝ) ^ 2 := by exact_mod_cast h
          have h3 : (x:ℝ) ^ 2 < ((y:ℝ) * Real.sqrt 2) ^ 2 := by
            rw [mul_pow, hsq]; linarith
          exact lt_of_pow_lt_pow_left₀ 2 (by positivity) h3
        · omega
  · rcases lt_or_le x 0 with hx | hx
    · have hyr : (y:ℝ) < 0 := by exact_mod_cast hy
      have hxr : (x:ℝ) < 0 := by exact_mod_cast hx
      constructor
      · intro h
        refine Or.inr ⟨hy, hx, ?_⟩
        have hpos : (0:ℝ) < -((y:ℝ) * Real.sqrt 2) := by nlinarith
        have h' : -((y:ℝ) * Real.sqrt 2) < -(x:ℝ) := by linarith
        have hsq2 : (-((y:ℝ) * Real.sqrt 2)) ^ 2 < (-(x:ℝ)) ^ 2 :=
          pow_lt_pow_left₀ h' (le_of_lt hpos) (by norm_num : (2:ℕ) ≠ 0)
        have : 2 * (y:ℝ) ^ 2 < (x:ℝ) ^ 2 := by
          have e1 : (-((y:ℝ) * Real.sqrt 2)) ^ 2 = (y:ℝ) ^ 2 * 2 := by
            rw [neg_pow, mul_pow, hsq]; ring
          have e2 : (-(x:ℝ)) ^ 2 = (x:ℝ) ^ 2 := by ring
          rw [e1, e2] at hsq2; linarith
        exact_mod_cast this
      · rintro (⟨hy', -⟩ | ⟨-, -, h⟩)
        · omega
        · have h2 : 2 * (y:ℝ) ^ 2 < (x:ℝ) ^ 2 := by exact_mod_cast h
          have h3 : (-((y:ℝ) * Real.sqrt 2)) ^ 2 < (-(x:ℝ)) ^ 2 := by
            have e1 : (-((y:ℝ) * Real.sqrt 2)) ^ 2 = (y:ℝ) ^ 2 * 2 := by
              rw [neg_pow, mul_pow, hsq]; ring
            have e2 : (-(x:ℝ)) ^ 2 = (x:ℝ) ^ 2 := by ring
            rw [e1, e2]; linarith
          have h4 : -((y:ℝ) * Real.sqrt 2) < -(x:ℝ) :=
            lt_of_pow_lt_pow_left₀ 2 (by linarith) h3
          linarith
    · have hyr : (y:ℝ) < 0 := by exact_mod_cast hy
      have hxr : (0:ℝ) ≤ (x:ℝ) := by exact_mod_cast hx
      constructor
      · intro h
        have : (y:ℝ) * Real.sqrt 2 < 0 := by nlinarith
        linarith
      · rintro (⟨hy', -⟩ | ⟨-, hx', -⟩) <;> omega

/-- `Cost.ltB` decides the real-number order on cost values. -/
theorem Cost.ltB_iff (a b : Cost) : Cost.ltB a b = true ↔ a.toReal < b.toReal := by
  unfold Cost.ltB Cost.toReal
  have key := int_lt_mul_sqrt2 ((a.o : Int) - (b.o : Int)) ((b.d : Int) - (a.d : Int))
  constructor
  · intro h
    simp only [Bool.or_eq_true, Bool.and_eq_true, decide_eq_true_eq] at h
    have h' : (((a.o : Int) - (b.o : Int) : Int) : ℝ) <
        (((b.d : Int) - (a.d : Int) : Int) : ℝ) * Real.sqrt 2 := key.mpr (by tauto)
    push_cast at h'
    linarith
  · intro h
    have h' : (((a.o : Int) - (b.o : Int) : Int) : ℝ) <
        (((b.d : Int) - (a.d : Int) : Int) : ℝ) * Real.sqrt 2 := by
      push_cast
      linarith
    have := key.mp h'
    simp only [Bool.or_eq_true, Bool.and_eq_true, decide_eq_true_eq]
    tauto

/-- `Cost.leB` decides the real-number order on cost values. -/
theorem Cost.leB_iff (a b : Cost) : Cost.leB a b = true ↔ a.toReal ≤ b.toReal := by
  unfold Cost.leB
  rw [Bool.not_eq_true', ← Bool.not_eq_true, Cost.ltB_iff]
  exact not_lt

/-- Cost values are nonnegative reals. -/
theorem Cost.toReal_nonneg (c : Cost) : 0 ≤ c.toReal := by
  unfold Cost.toReal
  have : (0:ℝ) ≤ Real.sqrt 2 := Real.sqrt_nonneg 2
  positivity

/-- Cost addition denotes real addition. -/
theorem Cost.toReal_add (a b : Cost) : (a.add b).toReal = a.toReal + b.toReal := by
  unfold Cost.toReal Cost.add
  push_cast
  ring

/-- Search node (source class `Node`, lines 69-86): a cell, an accumulated
cost, and an optional parent reference. -/
inductive Node where
  | mk (row : Int) (col : Int) (cost : Cost) (parent : Option Node)

/-- Row accessor. -/
def Node.row : Node → Int
  | .mk r _ _ _ => r

/-- Column accessor. -/
def Node.col : Node → Int
  | .mk _ c _ _ => c

/-- The `(row, col)` pair of a node, as the source forms it everywhere. -/
def Node.pos : Node → Int × Int
  | .mk r c _ _ => (r, c)

/-- Cost accessor. -/
def Node.cost : Node → Cost
  | .mk _ _ k _ => k

/-- Parent accessor. -/
def Node.parent : Node → Option Node
  | .mk _ _ _ p => p

/-- Number of nodes on the parent chain from this node back to the root. -/
def Node.chainLen : Node → Nat
  | .mk _ _ _ none => 1
  | .mk _ _ _ (some p) => p.chainLen + 1

/-- The cells visited by the `while current is not None` walk of
`reconstruct_path` (lines 304-308), in node-to-root order. -/
def Node.chainRev : Node → List (Int × Int)
  | .mk r c _ none => [(r, c)]
  | .mk r c _ (some p) => (r, c) :: p.chainRev

/-- Source `reconstruct_path` (lines 302-309): walk parent references
collecting cells, then reverse (`path[::-1]`). -/
def reconstruct_path (n : Node) : List (Int × Int) := n.chainRev.reverse

/-- The root-to-node cell sequence of a parent chain, defined in forward
order (the specification-side description of the ordered path). -/
def Node.rootPath : Node → List (Int × Int)
  | .mk r c _ none => [(r, c)]
  | .mk r c _ (some p) => p.rootPath ++ [(r, c)]

/-- A synthetic parent chain: root cell `c`, then one child node per cell of
`cs`, each linked to the previous node. -/
def chainOfCells (c : Int × Int) (cs : List (Int × Int)) : Node :=
  cs.foldl (fun n x => Node.mk x.1 x.2 n.cost (some n)) (Node.mk c.1 c.2 ⟨0, 0⟩ none)

/-! ## Grid model -/

/-- The mutable program state relevant to the claims: the grid value matrix
(`0` empty, `1` wall, `2` start marker, `3` target marker), the start and
target coordinates, and the three dynamic overlays.  Mirrors the
`PathfinderGUI` fields used by the search engine; rendering fields are
omitted.  `dynamic_obstacles` stores only the keys of the source's
`{position: spawn_time}` dict (spawn times feed the pulse animation only). -/
structure App where
  gridVal : Int × Int → Nat
  start : Int × Int
  target : Int × Int
  dynamic_obstacles : List (Int × Int)
  frontier : List (Int × Int)
  explored : List (Int × Int)
  nodes_explored : Nat
  dynamic_obstacles_spawned : Nat

/-- Python `set.add`: insert if absent. -/
def setAdd (l : List (Int × Int)) (c : Int × Int) : List (Int × Int) :=
  if c ∈ l then l else c :: l

/-- Python `set.remove` under the source's `if x in s: s.remove(x)` guard. -/
def setRemove (l : List (Int × Int)) (c : Int × Int) : List (Int × Int) :=
  l.filter (fun x => x ≠ c)

/-- Mark a cell explored and bump the `nodes_explored` statistic, as every
algorithm does when it pops a node. -/
def exploredAdd (s : App) (c : Int × Int) : App :=
  { s with explored := setAdd s.explored c, nodes_explored := s.nodes_explored + 1 }

/-- Source `is_valid` (lines 261-269): in bounds, not a wall, not a dynamic
obstacle. -/
def is_valid (s : App) (row col : Int) : Bool :=
  if row < 0 || GRID_SIZE ≤ row || col < 0 || GRID_SIZE ≤ col then false
  else if s.gridVal (row, col) == 1 then false
  else if s.dynamic_obstacles.contains (row, col) then false
  else true

/-- Source `get_neighbors` (lines 271-279): for each offset in `DIRECTIONS`
order, keep the moved-to cell if it is valid at generation time, with cost
`√2` for a diagonal offset (`abs dr + abs dc == 2`) and `1` otherwise, and
the current node as parent. -/
def get_neighbors (s : App) (node : Node) : List Node :=
  DIRECTIONS.filterMap fun m =>
    let nr := node.row + m.1
    let nc := node.col + m.2
    if is_valid s nr nc then
      some (Node.mk nr nc (node.cost.add (if m.1.natAbs + m.2.natAbs == 2 then ⟨0, 1⟩ else ⟨1, 0⟩))
        (some node))
    else none

/-- Source `spawn_dynamic_obstacle` retry loop (lines 284-299): up to 10
attempts, each drawing a candidate cell; the first candidate that is far
from both endpoints, on an empty grid value, not already an obstacle, and
neither explored nor frontiered is added, and the call returns.  The random
draws are passed in as the explicit list `draws`. -/
def spawnTry (s : App) : Nat → List (Int × Int) → App × Bool
  | 0, _ => (s, false)
  | _ + 1, [] => (s, false)
  | n + 1, (row, col) :: rest =>
    if 4 < (row - s.start.1).natAbs && 4 < (col - s.start.2).natAbs &&
        4 < (row - s.target.1).natAbs && 4 < (col - s.target.2).natAbs then
      if s.gridVal (row, col) == 0 && !(s.dynamic_obstacles.contains (row, col)) then
        if !(s.explored.contains (row, col)) && !(s.frontier.contains (row, col)) then
          ({ s with
              dynamic_obstacles := (row, col) :: s.dynamic_obstacles,
              dynamic_obstacles_spawned := s.dynamic_obstacles_spawned + 1 }, true)
        else spawnTry s n rest
      else spawnTry s n rest
    else spawnTry s n rest

/-- Source `spawn_dynamic_obstacle` (lines 281-300).  `hit` is the outcome
of the `random.random() < self.dynamic_obstacle_probability` draw; `draws`
are the successive `random.randint` candidate cells. -/
def spawn_dynamic_obstacle (hit : Bool) (draws : List (Int × Int)) (s : App) : App × Bool :=
  if hit then spawnTry s 10 draws else (s, false)

/-- Edit modes of the click-to-paint editor (source `edit_mode` strings). -/
inductive EditMode where
  | place_start
  | place_target
  | place_wall
  | erase
deriving DecidableEq

/-- Pointwise update of the grid value matrix (`self.grid[r][c] = v`). -/
def gridSet (g : Int × Int → Nat) (c : Int × Int) (v : Nat) : Int × Int → Nat :=
  fun x => if x = c then v else g x

/-- Source `handle_grid_click` (lines 795-832), from the point where the
click has been converted to a cell `(row, col)`: the in-bounds check and
the four edit-mode branches.  The pixel-to-cell conversion (lines
797-805) is elided; `row, col` are the already-converted coordinates. -/
def handle_grid_click (s : App) (mode : EditMode) (row col : Int) : App :=
  if 0 ≤ row && row < GRID_SIZE && 0 ≤ col && col < GRID_SIZE then
    match mode with
    | .place_start =>
        { s with
            gridVal := gridSet (gridSet s.gridVal s.start 0) (row, col) 2,
            start := (row, col) }
    | .place_target =>
        { s with
            gridVal := gridSet (gridSet s.gridVal s.target 0) (row, col) 3,
            target := (row, col) }
    | .place_wall =>
        if (row, col) ≠ s.start && (row, col) ≠ s.target then
          { s with
              gridVal := gridSet s.gridVal (row, col)
                (if s.gridVal (row, col) == 0 then 1 else 0) }
        else s
    | .erase =>
        if (row, col) ≠ s.start && (row, col) ≠ s.target then
          { s with gridVal := gridSet s.gridVal (row, col) 0 }
        else s
  else s

/-! ## Algorithms

Each `while` loop of the source becomes a step function plus a fuel-indexed
runner.  A run is modelled with `self.running = True`, `self.paused =
False`, and every `spawn_dynamic_obstacle` random draw missing (so the call
returns without mutating anything, as proved by `spawn_no_hit` below);
`self.draw()` and `pygame.time.wait` are omitted. -/

/-- Terminal outcome of a search loop: the reconstructed path (return
`True`, status `Path Found`), or frontier exhaustion (return `False`,
status `No Path Found`). -/
inductive SearchOutcome where
  | found (path : List (Int × Int))
  | noPath
deriving DecidableEq

/-- Source `clear_path` (lines 248-259): clear the frontier, explored set,
path, dynamic obstacles, and statistics.  `run_algorithm` calls it before
every run. -/
def clear_path (s : App) : App :=
  { s with
      frontier := [], explored := [], dynamic_obstacles := [],
      nodes_explored := 0, dynamic_obstacles_spawned := 0 }

/-- Result of one loop iteration: continue with a new state, or return a
found path. -/
inductive StepRes (σ : Type) where
  | cont (s : σ)
  | found (p : List (Int × Int)) (app : App)

/-- BFS loop state: the FIFO `queue` (head = next to pop), the
discovery-time `visited` set, and the shared `App` state. -/
structure BfsState where
  queue : List Node
  visited : List (Int × Int)
  app : App

/-- The body of the BFS neighbor loop (lines 337-342): enqueue at the tail
and mark visited, unless already visited. -/
def bfsPush (acc : List Node × List (Int × Int) × App) (nb : Node) :
    List Node × List (Int × Int) × App :=
  match acc with
  | (q, v, a) =>
    if nb.pos ∈ v then (q, v, a)
    else (q ++ [nb], nb.pos :: v, { a with frontier := setAdd a.frontier nb.pos })

/-- One iteration of the `bfs` while loop (lines 319-350), for a nonempty
queue: pop the head, mark it explored, test the goal, enqueue unvisited
valid neighbors (marking them visited on discovery), and drop the popped
cell from the frontier overlay. -/
def bfsStep (cur : Node) (rest : List Node) (visited : List (Int × Int)) (app : App) :
    StepRes BfsState :=
  let app := exploredAdd app cur.pos
  if cur.pos = app.target then .found (reconstruct_path cur) app
  else
    let acc := (get_neighbors app cur).foldl bfsPush (rest, visited, app)
    .cont ⟨acc.1, acc.2.1, { acc.2.2 with frontier := setRemove acc.2.2.frontier cur.pos }⟩

/-- The fuelled `bfs` while loop (lines 311-353). -/
def bfsRun : Nat → BfsState → Option (SearchOutcome × App)
  | 0, _ => none
  | _ + 1, ⟨[], _, app⟩ => some (.noPath, app)
  | fuel + 1, ⟨cur :: rest, visited, app⟩ =>
    match bfsStep cur rest visited app with
    | .found p a => some (.found p, a)
    | .cont s' => bfsRun fuel s'

/-- Source `bfs` entry: seed the queue with a parentless start node, seed
`visited = {start}`, after `run_algorithm`'s `clear_path`. -/
def bfs (s : App) (fuel : Nat) : Option (SearchOutcome × App) :=
  let s := clear_path s
  bfsRun fuel ⟨[Node.mk s.start.1 s.start.2 ⟨0, 0⟩ none], [s.start], s⟩

/-- DFS loop state.  The Python stack appends and pops at the list end; the
embedding keeps the stack top at the list head (mirror image). -/
structure DfsState where
  stack : List Node
  visited : List (Int × Int)
  app : App

/-- The body of the DFS neighbor loop (lines 395-400): push on top of the
stack and mark visited, unless already visited. -/
def dfsPush (acc : List Node × List (Int × Int) × App) (nb : Node) :
    List Node × List (Int × Int) × App :=
  match acc with
  | (st, v, a) =>
    if nb.pos ∈ v then (st, v, a)
    else (nb :: st, nb.pos :: v, { a with frontier := setAdd a.frontier nb.pos })

/-- One iteration of the `dfs` while loop (lines 364-404): pop the top,
mark explored, drop from frontier, test goal, then push the not-yet-visited
neighbors in reverse `get_neighbors` order (so the earliest-order one ends
on top), marking each visited at push time. -/
def dfsStep (cur : Node) (rest : List Node) (visited : List (Int × Int)) (app : App) :
    StepRes DfsState :=
  let pos := cur.pos
  let app := exploredAdd app pos
  let app := { app with frontier := setRemove app.frontier pos }
  if pos = app.target then .found (reconstruct_path cur) app
  else
    let acc := (get_neighbors app cur).reverse.foldl dfsPush (rest, visited, app)
    .cont ⟨acc.1, acc.2.1, acc.2.2⟩

/-- The fuelled `dfs` while loop (lines 355-407). -/
def dfsRun : Nat → DfsState → Option (SearchOutcome × App)
  | 0, _ => none
  | _ + 1, ⟨[], _, app⟩ => some (.noPath, app)
  | fuel + 1, ⟨cur :: rest, visited, app⟩ =>
    match dfsStep cur rest visited app with
    | .found p a => some (.found p, a)
    | .cont s' => dfsRun fuel s'

/-- Source `dfs` entry (lines 360-362). -/
def dfs (s : App) (fuel : Nat) : Option (SearchOutcome × App) :=
  let s := clear_path s
  dfsRun fuel ⟨[Node.mk s.start.1 s.start.2 ⟨0, 0⟩ none], [s.start], s⟩

/-- Remove a least-cost node from the list, returning it and the rest.
`heapq.heappop` removes an element of minimal `Node.__lt__` cost; among
equal-cost entries its choice depends on heap layout, determinised here to
the leftmost minimum (the proofs use only minimality). -/
def popMin : List Node → Option (Node × List Node)
  | [] => none
  | n :: ns =>
    match popMin ns with
    | none => some (n, [])
    | some (m, rest) => if Cost.leB n.cost m.cost then some (n, ns) else some (m, n :: rest)

/-- UCS loop state: the priority container (as a bag), the best-pushed-cost
dict `visited`, and the shared `App`. -/
structure UcsState where
  heap : List Node
  visited : (Int × Int) → Option Cost
  app : App

/-- The body of the UCS neighbor loop (lines 440-445): push the neighbor
and record its cost in the dict if the cell is undiscovered or the new
cost beats the recorded one. -/
def ucsPush (acc : List Node × ((Int × Int) → Option Cost) × App) (nb : Node) :
    List Node × ((Int × Int) → Option Cost) × App :=
  match acc with
  | (h, v, a) =>
    let push : Bool :=
      match v nb.pos with
      | none => true
      | some c => Cost.ltB nb.cost c
    let v' : (Int × Int) → Option Cost := fun x => if x = nb.pos then some nb.cost else v x
    if push then (h ++ [nb], v', { a with frontier := setAdd a.frontier nb.pos })
    else (h, v, a)

/-- One iteration of the `ucs` while loop (lines 417-452) after the pop:
skip if the popped cell is already explored (stale entry); otherwise mark
explored, test goal, and push every neighbor that is undiscovered or
cheaper than its recorded best cost, updating the dict. -/
def ucsStep (cur : Node) (rest : List Node) (visited : (Int × Int) → Option Cost) (app : App) :
    StepRes UcsState :=
  let pos := cur.pos
  if pos ∈ app.explored then .cont ⟨rest, visited, app⟩
  else
    let app := exploredAdd app pos
    if pos = app.target then .found (reconstruct_path cur) app
    else
      let acc := (get_neighbors app cur).foldl ucsPush (rest, visited, app)
      .cont ⟨acc.1, acc.2.1, { acc.2.2 with frontier := setRemove acc.2.2.frontier pos }⟩

/-- The fuelled `ucs` while loop (lines 409-455). -/
def ucsRun : Nat → UcsState → Option (SearchOutcome × App)
  | 0, _ => none
  | fuel + 1, ⟨heap, visited, app⟩ =>
    match popMin heap with
    | none => some (.noPath, app)
    | some (cur, rest) =>
      match ucsStep cur rest visited app with
      | .found p a => some (.found p, a)
      | .cont s' => ucsRun fuel s'

/-- Source `ucs` entry (lines 414-415): heap seeded with a zero-cost start
node, `visited = {start: 0}`. -/
def ucs (s : App) (fuel : Nat) : Option (SearchOutcome × App) :=
  let s := clear_path s
  ucsRun fuel
    ⟨[Node.mk s.start.1 s.start.2 ⟨0, 0⟩ none],
      fun c => if c = s.start then some ⟨0, 0⟩ else none, s⟩

/-- The two DLS failure-report shapes in the source: the success status
string `Path Found! (depth=...)` (line 517, carrying `len(self.path)`) and
the single failure status string `No Path (limit=... too small)` (line
520).  These are the only statuses a completed `dls` run sets. -/
inductive DlsStatus where
  | found (depth : Nat)
  | noPath (limit : Nat)
deriving DecidableEq

/-- The `for neighbor in self.get_neighbors(node)` loop of `dls_recursive`
(lines 492-506), with the recursive callee passed in as `recur`: skip
visited neighbors, mark-and-recurse otherwise, propagate a found node, and
un-frontier a neighbor whose subtree failed. -/
def dlsGo
    (recur : Node → Nat → List (Int × Int) → App →
      Option (Option Node × List (Int × Int) × App)) :
    List Node → Nat → List (Int × Int) → App →
      Option (Option Node × List (Int × Int) × App)
  | [], _, visited, app => some (none, visited, app)
  | nb :: rest, depth, visited, app =>
    if nb.pos ∈ visited then dlsGo recur rest depth visited app
    else
      let visited := nb.pos :: visited
      let app := { app with frontier := setAdd app.frontier nb.pos }
      match recur nb (depth + 1) visited app with
      | none => none
      | some (some res, v, a) => some (some res, v, a)
      | some (none, v, a) =>
        dlsGo recur rest depth v { a with frontier := setRemove a.frontier nb.pos }

/-- Source `dls_recursive` (lines 465-508): mark explored if new, test the
goal before the depth cut, cut at `depth >= limit`, else recurse into the
unvisited neighbors in order, threading the shared `visited` set.  `fuel`
bounds the recursion depth; `dls` supplies enough for all completed runs. -/
def dlsRec (limit : Nat) : Nat → Node → Nat → List (Int × Int) → App →
    Option (Option Node × List (Int × Int) × App)
  | 0, _, _, _, _ => none
  | fuel + 1, node, depth, visited, app =>
    let pos := node.pos
    let app := if pos ∈ app.explored then app else exploredAdd app pos
    if pos = app.target then some (some node, visited, app)
    else if limit ≤ depth then some (none, visited, app)
    else dlsGo (dlsRec limit fuel) (get_neighbors app node) depth visited app

/-- Source `dls` (lines 457-521): run `dls_recursive` from a parentless
start node at depth 0 with `visited = {start}`; on success reconstruct the
path and report `found (len path)`, on failure report `noPath limit`.
Recursion nests at most `limit + 1` deep, so fuel `limit + 1` completes
every run (`dls_total` below). -/
def dls (s : App) (limit : Nat) : Option (Bool × DlsStatus × List (Int × Int) × App) :=
  match dlsRec limit (limit + 1) (Node.mk s.start.1 s.start.2 ⟨0, 0⟩ none) 0 [s.start] s with
  | none => none
  | some (some res, _, app) =>
    let p := reconstruct_path res
    some (true, .found p.length, p, app)
  | some (none, _, app) => some (false, .noPath limit, [], app)

/-- Terminal outcome of `iddfs`: success at a depth-limit iteration with
the found path, or exhaustion of all limits. -/
inductive IddfsOutcome where
  | foundAt (depth : Nat) (path : List (Int × Int))
  | noPath
deriving DecidableEq

/-- The `for depth_limit in range(1, max_depth)` loop of `iddfs` (lines
528-538), from limit `k` with `remaining` iterations left: clear the run
overlays, run `dls` at limit `k`, return on success, else try `k + 1`. -/
def iddfsFrom : App → Nat → Nat → Option (IddfsOutcome × App)
  | s, _, 0 => some (.noPath, s)
  | s, k, r + 1 =>
    let s' := clear_path s
    match dls s' k with
    | none => none
    | some (true, _, p, app) => some (.foundAt k p, app)
    | some (false, _, _, app) => iddfsFrom app (k + 1) r

/-- Source `iddfs` (lines 523-541): depth limits `1` to `max_depth - 1`
with `max_depth = GRID_SIZE * 2 = 50`. -/
def iddfs (s : App) : Option (IddfsOutcome × App) := iddfsFrom s 1 49

/-- Bidirectional loop state: the two FIFO queues and the two visited maps
(cell to the node that discovered it), plus the shared `App`. -/
structure BiState where
  forward_queue : List Node
  forward_visited : (Int × Int) → Option Node
  backward_queue : List Node
  backward_visited : (Int × Int) → Option Node
  app : App

/-- Result of one side's expansion inside `bidirectional_search`: a met
path, or the side's updated queue and visited map. -/
inductive PhaseRes where
  | met (p : List (Int × Int)) (app : App)
  | go (q : List Node) (vis : (Int × Int) → Option Node) (app : App)

/-- The body of both bidirectional neighbor-insertion loops (lines 578-583
and 602-607): append to the side's queue and record the discovering node in
the side's visited map, unless the cell is already in that map. -/
def biPush (acc : List Node × ((Int × Int) → Option Node) × App) (nb : Node) :
    List Node × ((Int × Int) → Option Node) × App :=
  match acc with
  | (qq, v, a) =>
    match v nb.pos with
    | some _ => (qq, v, a)
    | none =>
      let v' : (Int × Int) → Option Node := fun x => if x = nb.pos then some nb else v x
      (qq ++ [nb], v', { a with frontier := setAdd a.frontier nb.pos })

/-- The forward (`Expand from start`) block of the bidirectional loop
(lines 562-583): pop, mark explored, test the popped cell against the
backward visited map before inserting anything, and on a meet return
`forward_path + backward_path[::-1][1:]`; otherwise insert undiscovered
neighbors into the forward queue and visited map. -/
def forwardPhase (q : List Node) (fvis bvis : (Int × Int) → Option Node) (app : App) :
    PhaseRes :=
  match q with
  | [] => .go q fvis app
  | cur :: rest =>
    let pos := cur.pos
    let app := exploredAdd app pos
    match bvis pos with
    | some bnode =>
      .met (reconstruct_path cur ++ ((reconstruct_path bnode).reverse).tail) app
    | none =>
      let acc := (get_neighbors app cur).foldl biPush (rest, fvis, app)
      .go acc.1 acc.2.1 acc.2.2

/-- The backward (`Expand from target`) block (lines 586-607), symmetric:
on a meet the joined path is `forward_path + backward_path[::-1][1:]` with
the forward part read from the forward visited map. -/
def backwardPhase (q : List Node) (bvis fvis : (Int × Int) → Option Node) (app : App) :
    PhaseRes :=
  match q with
  | [] => .go q bvis app
  | cur :: rest =>
    let pos := cur.pos
    let app := exploredAdd app pos
    match fvis pos with
    | some fnode =>
      .met (reconstruct_path fnode ++ ((reconstruct_path cur).reverse).tail) app
    | none =>
      let acc := (get_neighbors app cur).foldl biPush (rest, bvis, app)
      .go acc.1 acc.2.1 acc.2.2

/-- The fuelled `bidirectional_search` while loop (lines 554-611): while
both queues are nonempty, run the forward block then the backward block;
the backward meet test sees the forward insertions of the same round. -/
def biRun : Nat → BiState → Option (SearchOutcome × App)
  | 0, _ => none
  | fuel + 1, st =>
    if st.forward_queue.isEmpty || st.backward_queue.isEmpty then some (.noPath, st.app)
    else
      match forwardPhase st.forward_queue st.forward_visited st.backward_visited st.app with
      | .met p app => some (.found p, app)
      | .go fq fvis app =>
        match backwardPhase st.backward_queue st.backward_visited fvis app with
        | .met p app => some (.found p, app)
        | .go bq bvis app =>
          biRun fuel ⟨fq, fvis, bq, bvis, app⟩

/-- Source `bidirectional_search` entry (lines 548-552): each side's queue
holds a parentless node at its root, and its visited map sends the root to
such a node. -/
def bidirectional_search (s : App) (fuel : Nat) : Option (SearchOutcome × App) :=
  let s := clear_path s
  biRun fuel
    ⟨[Node.mk s.start.1 s.start.2 ⟨0, 0⟩ none],
      (fun c => if c = s.start then some (Node.mk s.start.1 s.start.2 ⟨0, 0⟩ none) else none),
      [Node.mk s.target.1 s.target.2 ⟨0, 0⟩ none],
      (fun c => if c = s.target then some (Node.mk s.target.1 s.target.2 ⟨0, 0⟩ none) else none),
      s⟩

/-! ## Node and path-reconstruction lemmas -/

@[simp] theorem Node.row_mk (r c : Int) (k : Cost) (p : Option Node) :
    (Node.mk r c k p).row = r := rfl

@[simp] theorem Node.col_mk (r c : Int) (k : Cost) (p : Option Node) :
    (Node.mk r c k p).col = c := rfl

@[simp] theorem Node.pos_mk (r c : Int) (k : Cost) (p : Option Node) :
    (Node.mk r c k p).pos = (r, c) := rfl

@[simp] theorem Node.cost_mk (r c : Int) (k : Cost) (p : Option Node) :
    (Node.mk r c k p).cost = k := rfl

@[simp] theorem Node.parent_mk (r c : Int) (k : Cost) (p : Option Node) :
    (Node.mk r c k p).parent = p := rfl

@[simp] theorem Node.pos_fst (n : Node) : n.pos.1 = n.row := by
  cases n
  rfl

@[simp] theorem Node.pos_snd (n : Node) : n.pos.2 = n.col := by
  cases n
  rfl

/-- Structural induction over parent chains. -/
theorem Node.indOn {motive : Node → Prop}
    (base : ∀ r c k, motive (Node.mk r c k none))
    (step : ∀ r c k p, motive p → motive (Node.mk r c k (some p))) :
    ∀ n, motive n
  | .mk r c k none => base r c k
  | .mk r c k (some p) => step r c k p (Node.indOn base step p)

/-- Reconstruction walks the chain backwards and reverses, which is the
forward root-to-node order. -/
theorem reconstruct_path_eq_rootPath (n : Node) : reconstruct_path n = n.rootPath := by
  induction n using Node.indOn with
  | base r c k => rfl
  | step r c k p ih =>
    simp only [reconstruct_path, Node.chainRev, Node.rootPath, List.reverse_cons] at *
    rw [ih]

/-- The root-to-node order lists one cell per chain node. -/
theorem rootPath_length (n : Node) : n.rootPath.length = n.chainLen := by
  induction n using Node.indOn with
  | base r c k => rfl
  | step r c k p ih => simp [Node.rootPath, Node.chainLen, ih]

/-- Reconstruction of a node extended by a list of child cells. -/
theorem reconstruct_path_foldl (cs : List (Int × Int)) (n : Node) :
    reconstruct_path (cs.foldl (fun m x => Node.mk x.1 x.2 m.cost (some m)) n) =
      reconstruct_path n ++ cs := by
  induction cs generalizing n with
  | nil => simp
  | cons x cs ih =>
    rw [List.foldl_cons, ih]
    simp only [reconstruct_path, Node.chainRev, List.reverse_cons]
    simp

/-- C9: `reconstruct_path` is a left inverse of parent-chain construction:
it returns the chain's cells in root-to-node order, one cell per node, and
on a synthetic chain built from a root cell and `k - 1` further cells it
returns exactly those `k` cells in construction order. -/
theorem C9_reconstruct_path_left_inverse :
    (∀ n : Node, reconstruct_path n = n.rootPath ∧
      (reconstruct_path n).length = n.chainLen) ∧
    (∀ (c : Int × Int) (cs : List (Int × Int)),
      reconstruct_path (chainOfCells c cs) = c :: cs ∧
      (chainOfCells c cs).chainLen = cs.length + 1) := by
  have hlen : ∀ n : Node, (reconstruct_path n).length = n.chainLen := by
    intro n
    rw [reconstruct_path_eq_rootPath]
    exact rootPath_length n
  constructor
  · intro n
    exact ⟨reconstruct_path_eq_rootPath n, hlen n⟩
  · intro c cs
    have h : reconstruct_path (chainOfCells c cs) = c :: cs := by
      unfold chainOfCells
      rw [reconstruct_path_foldl]
      rfl
    refine ⟨h, ?_⟩
    have := hlen (chainOfCells c cs)
    rw [h] at this
    simpa using this.symm

/-! ## Dynamic-obstacle spawner -/

/-- Full characterisation of one `spawn_dynamic_obstacle` retry loop: it
either leaves the state unchanged and reports `false`, or adds exactly one
cell that passes every guard of lines 290-294 and reports `true`. -/
theorem spawnTry_spec (n : Nat) (draws : List (Int × Int)) (s : App) :
    (spawnTry s n draws = (s, false)) ∨
    ∃ row col,
      spawnTry s n draws =
        ({ s with
            dynamic_obstacles := (row, col) :: s.dynamic_obstacles,
            dynamic_obstacles_spawned := s.dynamic_obstacles_spawned + 1 }, true) ∧
      s.gridVal (row, col) = 0 ∧
      (row, col) ∉ s.dynamic_obstacles ∧
      4 < (row - s.start.1).natAbs ∧ 4 < (col - s.start.2).natAbs ∧
      4 < (row - s.target.1).natAbs ∧ 4 < (col - s.target.2).natAbs ∧
      (row, col) ∉ s.explored ∧ (row, col) ∉ s.frontier := by
  induction n generalizing draws with
  | zero => left; rfl
  | succ n ih =>
    cases draws with
    | nil => left; rfl
    | cons d rest =>
      obtain ⟨row, col⟩ := d
      by_cases hfar : (4 < (row - s.start.1).natAbs && 4 < (col - s.start.2).natAbs &&
          4 < (row - s.target.1).natAbs && 4 < (col - s.target.2).natAbs) = true
      · by_cases hempty : (s.gridVal (row, col) == 0 &&
            !(s.dynamic_obstacles.contains (row, col))) = true
        · by_cases hfresh : (!(s.explored.contains (row, col)) &&
              !(s.frontier.contains (row, col))) = true
          · right
            refine ⟨row, col, ?_, ?_, ?_, ?_, ?_, ?_, ?_, ?_, ?_⟩
            · simp only [spawnTry, hfar, if_true, hempty, hfresh]
            · simp only [Bool.and_eq_true, beq_iff_eq] at hempty
              exact hempty.1
            · simp only [Bool.and_eq_true, Bool.not_eq_true'] at hempty
              simpa [List.contains] using hempty.2
            · simp only [Bool.and_eq_true, decide_eq_true_eq] at hfar
              exact hfar.1.1.1
            · simp only [Bool.and_eq_true, decide_eq_true_eq] at hfar
              exact hfar.1.1.2
            · simp only [Bool.and_eq_true, decide_eq_true_eq] at hfar
              exact hfar.1.2
            · simp only [Bool.and_eq_true, decide_eq_true_eq] at hfar
              exact hfar.2
            · simp only [Bool.and_eq_true, Bool.not_eq_true'] at hfresh
              simpa [List.contains] using hfresh.1
            · simp only [Bool.and_eq_true, Bool.not_eq_true'] at hfresh
              simpa [List.contains] using hfresh.2
          · have : spawnTry s (n + 1) ((row, col) :: rest) = spawnTry s n rest := by
              simp only [spawnTry, hfar, if_true, hempty, hfresh]
              simp
            rw [this]
            exact ih rest
        · have : spawnTry s (n + 1) ((row, col) :: rest) = spawnTry s n rest := by
            simp only [spawnTry, hfar, hempty]
            simp
          rw [this]
          exact ih rest
      · have : spawnTry s (n + 1) ((row, col) :: rest) = spawnTry s n rest := by
          simp only [spawnTry, hfar]
          simp
        rw [this]
        exact ih rest

/-- A missed 1%-probability draw leaves the state unchanged. -/
theorem spawn_no_hit (draws : List (Int × Int)) (s : App) :
    spawn_dynamic_obstacle false draws s = (s, false) := rfl

/-- C10: every `spawn_dynamic_obstacle` call adds at most one obstacle, and
an added cell has empty grid state (so is neither a wall nor the start or
target cell), is not already an obstacle, lies at coordinate distance
greater than 4 from the corresponding start and target coordinates, and is
in neither the explored set nor the frontier set. -/
theorem C10_spawn_dynamic_obstacle_safe (hit : Bool) (draws : List (Int × Int)) (s : App) :
    (spawn_dynamic_obstacle hit draws s = (s, false)) ∨
    ∃ row col,
      spawn_dynamic_obstacle hit draws s =
        ({ s with
            dynamic_obstacles := (row, col) :: s.dynamic_obstacles,
            dynamic_obstacles_spawned := s.dynamic_obstacles_spawned + 1 }, true) ∧
      s.gridVal (row, col) = 0 ∧
      (row, col) ≠ s.start ∧ (row, col) ≠ s.target ∧
      (row, col) ∉ s.dynamic_obstacles ∧
      4 < (row - s.start.1).natAbs ∧ 4 < (col - s.start.2).natAbs ∧
      4 < (row - s.target.1).natAbs ∧ 4 < (col - s.target.2).natAbs ∧
      (row, col) ∉ s.explored ∧ (row, col) ∉ s.frontier := by
  cases hit with
  | false => left; rfl
  | true =>
    have h := spawnTry_spec 10 draws s
    rcases h with h | ⟨row, col, heq, h0, hobs, h1, h2, h3, h4, h5, h6⟩
    · left
      simpa [spawn_dynamic_obstacle] using h
    · right
      refine ⟨row, col, ?_, h0, ?_, ?_, hobs, h1, h2, h3, h4, h5, h6⟩
      · simpa [spawn_dynamic_obstacle] using heq
      · intro he
        have : s.start.1 = row := by rw [← he]
        omega
      · intro he
        have : s.target.1 = row := by rw [← he]
        omega

/-! ## Neighbor-generation lemmas -/

/-- A guarded `filterMap` is a filter followed by a map. -/
theorem filterMap_guard {α β : Type} (l : List α) (p : α → Bool) (f : α → β) :
    l.filterMap (fun x => if p x then some (f x) else none) = (l.filter p).map f := by
  induction l with
  | nil => rfl
  | cons x t ih =>
    rw [List.filterMap_cons, List.filter_cons]
    by_cases h : p x = true
    · simp [h, ih]
    · simp only [h]
      simpa [Bool.false_eq_true] using ih

/-- `get_neighbors` in filter-then-map form. -/
theorem get_neighbors_eq (s : App) (n : Node) :
    get_neighbors s n =
      ((DIRECTIONS.filter fun m => is_valid s (n.row + m.1) (n.col + m.2)).map
        (fun m => Node.mk (n.row + m.1) (n.col + m.2)
          (n.cost.add (if m.1.natAbs + m.2.natAbs == 2 then ⟨0, 1⟩ else ⟨1, 0⟩))
          (some n))) := by
  unfold get_neighbors
  exact filterMap_guard DIRECTIONS _ _

/-- The generated cells are exactly the valid offset cells, in `DIRECTIONS`
order. -/
theorem get_neighbors_pos (s : App) (n : Node) :
    (get_neighbors s n).map Node.pos =
      ((DIRECTIONS.filter fun m => is_valid s (n.row + m.1) (n.col + m.2)).map
        (fun m => (n.row + m.1, n.col + m.2))) := by
  rw [get_neighbors_eq, List.map_map]
  rfl

/-- Membership characterisation of `get_neighbors`. -/
theorem mem_get_neighbors (s : App) (n nb : Node) :
    nb ∈ get_neighbors s n ↔
      ∃ m ∈ DIRECTIONS, is_valid s (n.row + m.1) (n.col + m.2) = true ∧
        nb = Node.mk (n.row + m.1) (n.col + m.2)
          (n.cost.add (if m.1.natAbs + m.2.natAbs == 2 then ⟨0, 1⟩ else ⟨1, 0⟩))
          (some n) := by
  rw [get_neighbors_eq]
  simp only [List.mem_map, List.mem_filter]
  constructor
  · rintro ⟨m, ⟨hm, hv⟩, rfl⟩
    exact ⟨m, hm, hv, rfl⟩
  · rintro ⟨m, hm, hv, rfl⟩
    exact ⟨m, ⟨hm, hv⟩, rfl⟩

/-- Every generated neighbor is valid at generation time, carries the
current node as parent, sits one `DIRECTIONS` offset away, and costs the
parent's cost plus `√2` for a diagonal offset and `1` for an orthogonal
one. -/
theorem get_neighbors_sound (s : App) (n nb : Node) (h : nb ∈ get_neighbors s n) :
    is_valid s nb.row nb.col = true ∧ nb.parent = some n ∧
      (nb.row - n.row, nb.col - n.col) ∈ DIRECTIONS ∧
      ((nb.row - n.row).natAbs + (nb.col - n.col).natAbs = 2 →
        nb.cost.toReal = n.cost.toReal + Real.sqrt 2) ∧
      ((nb.row - n.row).natAbs + (nb.col - n.col).natAbs ≠ 2 →
        nb.cost.toReal = n.cost.toReal + 1) := by
  rw [mem_get_neighbors] at h
  obtain ⟨m, hm, hv, rfl⟩ := h
  simp only [Node.row_mk, Node.col_mk, Node.cost_mk, Node.parent_mk]
  have hr : n.row + m.1 - n.row = m.1 := by ring
  have hc : n.col + m.2 - n.col = m.2 := by ring
  rw [hr, hc]
  refine ⟨hv, trivial, hm, ?_, ?_⟩
  · intro hd
    have hb : (m.1.natAbs + m.2.natAbs == 2) = true := by
      simpa using hd
    rw [hb, if_pos rfl, Cost.toReal_add]
    simp [Cost.toReal]
  · intro hd
    have hb : (m.1.natAbs + m.2.natAbs == 2) = false := by
      simpa using hd
    rw [hb]
    simp only [Bool.false_eq_true, if_false]
    rw [Cost.toReal_add]
    simp [Cost.toReal]

/-- The excluded Top-Right and Bottom-Left diagonals are never generated. -/
theorem get_neighbors_no_excluded (s : App) (n nb : Node) (h : nb ∈ get_neighbors s n) :
    nb.pos ≠ (n.row - 1, n.col + 1) ∧ nb.pos ≠ (n.row + 1, n.col - 1) := by
  rw [mem_get_neighbors] at h
  obtain ⟨m, hm, -, rfl⟩ := h
  simp only [DIRECTIONS, List.mem_cons, List.not_mem_nil, or_false] at hm
  simp only [Node.pos_mk]
  rcases hm with rfl | rfl | rfl | rfl | rfl | rfl <;>
    refine ⟨fun he => ?_, fun he => ?_⟩ <;>
    · rw [Prod.mk.injEq] at he
      omega

/-- Generated neighbor cells are pairwise distinct. -/
theorem get_neighbors_pos_nodup (s : App) (n : Node) :
    ((get_neighbors s n).map Node.pos).Nodup := by
  rw [get_neighbors_pos]
  apply List.Nodup.map_on
  · intro a _ b _ hab
    simp only [Prod.mk.injEq] at hab
    have h1 : a.1 = b.1 := by omega
    have h2 : a.2 = b.2 := by omega
    exact Prod.ext h1 h2
  · apply List.Nodup.filter
    decide

/-- `get_neighbors` reads only the grid fields, not the run overlays. -/
theorem get_neighbors_exploredAdd (s : App) (c : Int × Int) (n : Node) :
    get_neighbors (exploredAdd s c) n = get_neighbors s n := rfl

/-- `get_neighbors` ignores the frontier overlay. -/
theorem get_neighbors_frontier (s : App) (f : List (Int × Int)) (n : Node) :
    get_neighbors { s with frontier := f } n = get_neighbors s n := rfl

/-! ## Neighbor-loop fold characterisations -/

/-- Sequential `bfsPush` over neighbors with pairwise-distinct cells:
appends the not-yet-visited ones to the queue in order, marks exactly them
visited, and touches no `App` field except the frontier. -/
theorem bfs_fold_char (ns : List Node) (rest : List Node) (v : List (Int × Int)) (a : App)
    (h : (ns.map Node.pos).Nodup) :
    (ns.foldl bfsPush (rest, v, a)).1 =
        rest ++ ns.filter (fun nb => decide (nb.pos ∉ v)) ∧
    (ns.foldl bfsPush (rest, v, a)).2.1 =
        ((ns.filter (fun nb => decide (nb.pos ∉ v))).map Node.pos).reverse ++ v ∧
    (ns.foldl bfsPush (rest, v, a)).2.2.gridVal = a.gridVal ∧
    (ns.foldl bfsPush (rest, v, a)).2.2.start = a.start ∧
    (ns.foldl bfsPush (rest, v, a)).2.2.target = a.target ∧
    (ns.foldl bfsPush (rest, v, a)).2.2.dynamic_obstacles = a.dynamic_obstacles ∧
    (ns.foldl bfsPush (rest, v, a)).2.2.explored = a.explored ∧
    (ns.foldl bfsPush (rest, v, a)).2.2.nodes_explored = a.nodes_explored := by
  induction ns generalizing rest v a with
  | nil => simp
  | cons nb t ih =>
    simp only [List.map_cons, List.nodup_cons, List.mem_map] at h
    obtain ⟨hhead, htail⟩ := h
    by_cases hmem : nb.pos ∈ v
    · have hstep : bfsPush (rest, v, a) nb = (rest, v, a) := by
        simp [bfsPush, hmem]
      have hfilter : (nb :: t).filter (fun x => decide (x.pos ∉ v)) =
          t.filter (fun x => decide (x.pos ∉ v)) := by
        simp [List.filter_cons, hmem]
      rw [List.foldl_cons, hstep, hfilter]
      exact ih rest v a htail
    · have hstep : bfsPush (rest, v, a) nb =
          (rest ++ [nb], nb.pos :: v, { a with frontier := setAdd a.frontier nb.pos }) := by
        simp [bfsPush, hmem]
      have hfilter : (nb :: t).filter (fun x => decide (x.pos ∉ v)) =
          nb :: t.filter (fun x => decide (x.pos ∉ v)) := by
        simp [List.filter_cons, hmem]
      have hcong : t.filter (fun x => decide (x.pos ∉ nb.pos :: v)) =
          t.filter (fun x => decide (x.pos ∉ v)) := by
        apply List.filter_congr
        intro x hx
        have hne : x.pos ≠ nb.pos := by
          intro he
          exact hhead ⟨x, hx, he⟩
        simp [List.mem_cons, hne]
      obtain ⟨h1, h2, h3, h4, h5, h6, h7, h8⟩ :=
        ih (rest ++ [nb]) (nb.pos :: v) { a with frontier := setAdd a.frontier nb.pos } htail
      rw [List.foldl_cons, hstep, hfilter]
      rw [hcong] at h1 h2
      refine ⟨?_, ?_, h3, h4, h5, h6, h7, h8⟩
      · rw [h1]
        simp
      · rw [h2]
        simp

/-- Sequential `dfsPush` over a list of nodes with pairwise-distinct cells:
conses the not-yet-visited ones onto the stack (so they end up reversed),
marks exactly them visited, and touches no `App` field except the
frontier. -/
theorem dfs_fold_gen (l : List Node) (rest : List Node) (v : List (Int × Int)) (a : App)
    (h : (l.map Node.pos).Nodup) :
    (l.foldl dfsPush (rest, v, a)).1 =
        (l.filter (fun nb => decide (nb.pos ∉ v))).reverse ++ rest ∧
    (l.foldl dfsPush (rest, v, a)).2.1 =
        ((l.filter (fun nb => decide (nb.pos ∉ v))).map Node.pos).reverse ++ v ∧
    (l.foldl dfsPush (rest, v, a)).2.2.gridVal = a.gridVal ∧
    (l.foldl dfsPush (rest, v, a)).2.2.start = a.start ∧
    (l.foldl dfsPush (rest, v, a)).2.2.target = a.target ∧
    (l.foldl dfsPush (rest, v, a)).2.2.dynamic_obstacles = a.dynamic_obstacles ∧
    (l.foldl dfsPush (rest, v, a)).2.2.explored = a.explored ∧
    (l.foldl dfsPush (rest, v, a)).2.2.nodes_explored = a.nodes_explored := by
  induction l generalizing rest v a with
  | nil => simp
  | cons nb t ih =>
    simp only [List.map_cons, List.nodup_cons, List.mem_map] at h
    obtain ⟨hhead, htail⟩ := h
    by_cases hmem : nb.pos ∈ v
    · have hstep : dfsPush (rest, v, a) nb = (rest, v, a) := by
        simp [dfsPush, hmem]
      have hfilter : (nb :: t).filter (fun x => decide (x.pos ∉ v)) =
          t.filter (fun x => decide (x.pos ∉ v)) := by
        simp [List.filter_cons, hmem]
      rw [List.foldl_cons, hstep, hfilter]
      exact ih rest v a htail
    · have hstep : dfsPush (rest, v, a) nb =
          (nb :: rest, nb.pos :: v, { a with frontier := setAdd a.frontier nb.pos }) := by
        simp [dfsPush, hmem]
      have hfilter : (nb :: t).filter (fun x => decide (x.pos ∉ v)) =
          nb :: t.filter (fun x => decide (x.pos ∉ v)) := by
        simp [List.filter_cons, hmem]
      have hcong : t.filter (fun x => decide (x.pos ∉ nb.pos :: v)) =
          t.filter (fun x => decide (x.pos ∉ v)) := by
        apply List.filter_congr
        intro x hx
        have hne : x.pos ≠ nb.pos := by
          intro he
          exact hhead ⟨x, hx, he⟩
        simp [List.mem_cons, hne]
      obtain ⟨h1, h2, h3, h4, h5, h6, h7, h8⟩ :=
        ih (nb :: rest) (nb.pos :: v) { a with frontier := setAdd a.frontier nb.pos } htail
      rw [List.foldl_cons, hstep, hfilter]
      rw [hcong] at h1 h2
      refine ⟨?_, ?_, h3, h4, h5, h6, h7, h8⟩
      · rw [h1]
        simp
      · rw [h2]
        simp

/-- The DFS push loop runs over `reversed(neighbors)`, so the stack gains
the unvisited neighbors in forward order, earliest on top. -/
theorem dfs_fold_reverse (ns : List Node) (rest : List Node) (v : List (Int × Int)) (a : App)
    (h : (ns.map Node.pos).Nodup) :
    (ns.reverse.foldl dfsPush (rest, v, a)).1 =
      ns.filter (fun nb => decide (nb.pos ∉ v)) ++ rest := by
  have h' : (ns.reverse.map Node.pos).Nodup := by
    rw [List.map_reverse]
    exact List.nodup_reverse.mpr h
  have := (dfs_fold_gen ns.reverse rest v a h').1
  rw [this, List.filter_reverse, List.reverse_reverse]

/-- Membership in a `setAdd` result. -/
theorem mem_setAdd (l : List (Int × Int)) (c x : Int × Int) :
    x ∈ setAdd l c ↔ x = c ∨ x ∈ l := by
  unfold setAdd
  by_cases h : c ∈ l
  · simp only [h, if_true]
    constructor
    · exact Or.inr
    · rintro (rfl | hx)
      · exact h
      · exact hx
  · simp [h, List.mem_cons]

/-- `setAdd` contains the added element. -/
theorem self_mem_setAdd (l : List (Int × Int)) (c : Int × Int) : c ∈ setAdd l c :=
  (mem_setAdd l c c).mpr (Or.inl rfl)

@[simp] theorem exploredAdd_gridVal (s : App) (c : Int × Int) :
    (exploredAdd s c).gridVal = s.gridVal := rfl

@[simp] theorem exploredAdd_start (s : App) (c : Int × Int) :
    (exploredAdd s c).start = s.start := rfl

@[simp] theorem exploredAdd_target (s : App) (c : Int × Int) :
    (exploredAdd s c).target = s.target := rfl

@[simp] theorem exploredAdd_dynamic_obstacles (s : App) (c : Int × Int) :
    (exploredAdd s c).dynamic_obstacles = s.dynamic_obstacles := rfl

@[simp] theorem exploredAdd_frontier (s : App) (c : Int × Int) :
    (exploredAdd s c).frontier = s.frontier := rfl

@[simp] theorem exploredAdd_explored (s : App) (c : Int × Int) :
    (exploredAdd s c).explored = setAdd s.explored c := rfl

@[simp] theorem exploredAdd_nodes_explored (s : App) (c : Int × Int) :
    (exploredAdd s c).nodes_explored = s.nodes_explored + 1 := rfl

/-- `get_neighbors` depends only on the grid fields. -/
theorem get_neighbors_congr (s t : App) (h1 : s.gridVal = t.gridVal)
    (h2 : s.dynamic_obstacles = t.dynamic_obstacles) (n : Node) :
    get_neighbors s n = get_neighbors t n := by
  unfold get_neighbors is_valid
  rw [h1, h2]

/-! ## Claim C7: neighbor order, costs, and the DFS stack -/

/-- Concrete state for the DFS next-pop counterexample: the cells `(0,0)`,
`(0,1)`, `(1,0)` are open, everything else is a wall. -/
def exApp7 : App :=
  { gridVal := fun c => if c = (0, 0) ∨ c = (0, 1) ∨ c = (1, 0) then 0 else 1,
    start := (0, 0), target := (9, 9),
    dynamic_obstacles := [], frontier := [], explored := [],
    nodes_explored := 0, dynamic_obstacles_spawned := 0 }

/-- C7 counterexample: at `(0,0)` the earliest-order traversable neighbor
is `(0,1)` (Right; Up is out of bounds), but when `(0,1)` is already
visited the DFS step pushes only `(1,0)`, so the next node popped is
`(1,0)`, not the earliest-order traversable neighbor — the claim's final
clause omits the visited filter. -/
theorem C7_counterexample_next_pop :
    ((get_neighbors exApp7 (Node.mk 0 0 ⟨0, 0⟩ none)).map Node.pos).head? = some (0, 1) ∧
    is_valid exApp7 0 1 = true ∧
    (match dfsStep (Node.mk 0 0 ⟨0, 0⟩ none) [] [(0, 0), (0, 1)] exApp7 with
      | .cont st => (st.stack.map Node.pos).head?
      | .found _ _ => none) = some (1, 0) ∧
    some ((1 : Int), (0 : Int)) ≠ some ((0 : Int), (1 : Int)) := by
  refine ⟨by decide, by decide, by decide, by decide⟩

/-- C7 amended: `get_neighbors` yields exactly the traversable adjacent
cells in the fixed offset order Up, Right, Down, Down-Right, Left, Up-Left
(never the Top-Right or Bottom-Left diagonal), with cost `1` per orthogonal
and `√2` per diagonal move; the DFS step pushes the **not-yet-visited**
ones of these neighbors in reverse order, so the next node popped is the
earliest-order traversable neighbor *among those not yet visited*, when
one exists. -/
theorem C7_neighbors_order_costs_dfs_push :
    (∀ (s : App) (n : Node),
      (get_neighbors s n).map Node.pos =
        (DIRECTIONS.filter fun m => is_valid s (n.row + m.1) (n.col + m.2)).map
          (fun m => (n.row + m.1, n.col + m.2))) ∧
    (∀ (s : App) (n nb : Node), nb ∈ get_neighbors s n →
      is_valid s nb.row nb.col = true ∧ nb.parent = some n ∧
      (nb.row - n.row, nb.col - n.col) ∈ DIRECTIONS ∧
      ((nb.row - n.row).natAbs + (nb.col - n.col).natAbs = 2 →
        nb.cost.toReal = n.cost.toReal + Real.sqrt 2) ∧
      ((nb.row - n.row).natAbs + (nb.col - n.col).natAbs ≠ 2 →
        nb.cost.toReal = n.cost.toReal + 1) ∧
      nb.pos ≠ (n.row - 1, n.col + 1) ∧ nb.pos ≠ (n.row + 1, n.col - 1)) ∧
    (∀ (cur : Node) (rest : List Node) (visited : List (Int × Int)) (app : App),
      cur.pos ≠ app.target →
      (∃ st : DfsState, dfsStep cur rest visited app = .cont st) ∧
      (∀ st : DfsState, dfsStep cur rest visited app = .cont st →
        st.stack =
          (get_neighbors app cur).filter (fun nb => decide (nb.pos ∉ visited)) ++ rest ∧
        ∀ nb l,
          (get_neighbors app cur).filter (fun nb => decide (nb.pos ∉ visited)) = nb :: l →
          st.stack.head? = some nb)) := by
  refine ⟨get_neighbors_pos, ?_, ?_⟩
  · intro s n nb h
    obtain ⟨h1, h2, h3, h4, h5⟩ := get_neighbors_sound s n nb h
    obtain ⟨h6, h7⟩ := get_neighbors_no_excluded s n nb h
    exact ⟨h1, h2, h3, h4, h5, h6, h7⟩
  · intro cur rest visited app htgt
    have hng : get_neighbors
        { exploredAdd app cur.pos with
            frontier := setRemove (exploredAdd app cur.pos).frontier cur.pos } cur =
        get_neighbors app cur := rfl
    have hnodup : ((get_neighbors app cur).map Node.pos).Nodup :=
      get_neighbors_pos_nodup app cur
    have hstack := dfs_fold_reverse (get_neighbors app cur) rest visited
      { exploredAdd app cur.pos with
          frontier := setRemove (exploredAdd app cur.pos).frontier cur.pos } hnodup
    have hstep : dfsStep cur rest visited app =
        .cont ⟨((get_neighbors app cur).reverse.foldl dfsPush (rest, visited,
            { exploredAdd app cur.pos with
                frontier := setRemove (exploredAdd app cur.pos).frontier cur.pos })).1,
          ((get_neighbors app cur).reverse.foldl dfsPush (rest, visited,
            { exploredAdd app cur.pos with
                frontier := setRemove (exploredAdd app cur.pos).frontier cur.pos })).2.1,
          ((get_neighbors app cur).reverse.foldl dfsPush (rest, visited,
            { exploredAdd app cur.pos with
                frontier := setRemove (exploredAdd app cur.pos).frontier cur.pos })).2.2⟩ := by
      show (if cur.pos = app.target then _ else _) = _
      rw [if_neg htgt, hng]
    constructor
    · exact ⟨_, hstep⟩
    · intro st hst
      rw [hstep] at hst
      cases hst
      exact ⟨hstack, fun nb l hl => by rw [hstack, hl]; rfl⟩

/-- Witness for the amended C7 theorem: the DFS-step clause applied at the
counterexample state pushes exactly the unvisited neighbors. -/
theorem C7_neighbors_order_costs_dfs_push_witness :
    (∃ st : DfsState,
      dfsStep (Node.mk 0 0 ⟨0, 0⟩ none) [] [(0, 0), (0, 1)] exApp7 = .cont st) ∧
    (∀ st : DfsState,
      dfsStep (Node.mk 0 0 ⟨0, 0⟩ none) [] [(0, 0), (0, 1)] exApp7 = .cont st →
      st.stack = (get_neighbors exApp7 (Node.mk 0 0 ⟨0, 0⟩ none)).filter
        (fun nb => decide (nb.pos ∉ ([(0, 0), (0, 1)] : List (Int × Int)))) ++ [] ∧
      ∀ nb l, (get_neighbors exApp7 (Node.mk 0 0 ⟨0, 0⟩ none)).filter
          (fun nb => decide (nb.pos ∉ ([(0, 0), (0, 1)] : List (Int × Int)))) = nb :: l →
        st.stack.head? = some nb) :=
  C7_neighbors_order_costs_dfs_push.2.2 (Node.mk 0 0 ⟨0, 0⟩ none) [] [(0, 0), (0, 1)] exApp7
    (by decide)

/-! ## Claim C3: stale validity at expansion time -/

/-- Concrete mid-run state for the stale-expansion counterexample: the
queued frontier cell `(0,1)` has become a dynamic obstacle (injected after
it was enqueued), as the claim's premise describes. -/
def exApp3 : App :=
  { gridVal := fun c => if c = (0, 0) ∨ c = (0, 1) then 0 else 1,
    start := (0, 0), target := (0, 9),
    dynamic_obstacles := [(0, 1)], frontier := [(0, 1)], explored := [(0, 0)],
    nodes_explored := 1, dynamic_obstacles_spawned := 0 }

/-- C3 counterexample: the popped cell `(0,1)` is no longer traversable
(`is_valid` is false on it), yet the BFS expansion step expands it anyway —
it is marked explored and counted in `nodes_explored` — because no
algorithm re-checks `is_valid` on the cell it pops. -/
theorem C3_counterexample_stale_cell_expanded :
    is_valid exApp3 0 1 = false ∧
    (match bfsStep (Node.mk 0 1 ⟨1, 0⟩ none) [] [(0, 0), (0, 1)] exApp3 with
      | .cont st => decide ((0, 1) ∈ st.app.explored) && decide (st.app.nodes_explored = 2)
      | .found _ _ => false) = true := by
  constructor
  · decide
  · decide

/-- The source's push condition (line 442): undiscovered cell, or cheaper
than the recorded best pushed cost. -/
def ucsPushB (v : (Int × Int) → Option Cost) (nb : Node) : Bool :=
  match v nb.pos with
  | none => true
  | some k => Cost.ltB nb.cost k

/-- `ucsPush` as a conditional on the push condition. -/
theorem ucsPush_eq (h : List Node) (v : (Int × Int) → Option Cost) (a : App) (nb : Node) :
    ucsPush (h, v, a) nb =
      if ucsPushB v nb = true
      then (h ++ [nb], fun x => if x = nb.pos then some nb.cost else v x,
        { a with frontier := setAdd a.frontier nb.pos })
      else (h, v, a) := rfl

/-- The DFS neighbor fold never touches the explored list or the expansion
counter. -/
theorem dfsPush_app_fields : ∀ (ns : List Node)
    (acc : List Node × List (Int × Int) × App),
    (ns.foldl dfsPush acc).2.2.explored = acc.2.2.explored ∧
    (ns.foldl dfsPush acc).2.2.nodes_explored = acc.2.2.nodes_explored := by
  intro ns
  induction ns with
  | nil => intro acc; exact ⟨rfl, rfl⟩
  | cons nb t ih =>
    intro acc
    obtain ⟨st, v, a⟩ := acc
    rw [List.foldl_cons]
    obtain ⟨h1, h2⟩ := ih (dfsPush (st, v, a) nb)
    have hone : (dfsPush (st, v, a) nb).2.2.explored = a.explored ∧
        (dfsPush (st, v, a) nb).2.2.nodes_explored = a.nodes_explored := by
      by_cases hm : nb.pos ∈ v
      · have hstep : dfsPush (st, v, a) nb = (st, v, a) := by
          simp [dfsPush, hm]
        rw [hstep]
        exact ⟨rfl, rfl⟩
      · have hstep : dfsPush (st, v, a) nb =
            (nb :: st, nb.pos :: v, { a with frontier := setAdd a.frontier nb.pos }) := by
          simp [dfsPush, hm]
        rw [hstep]
        exact ⟨rfl, rfl⟩
    exact ⟨h1.trans hone.1, h2.trans hone.2⟩

/-- The UCS neighbor fold never touches the explored list or the expansion
counter. -/
theorem ucsPush_app_fields : ∀ (ns : List Node)
    (acc : List Node × ((Int × Int) → Option Cost) × App),
    (ns.foldl ucsPush acc).2.2.explored = acc.2.2.explored ∧
    (ns.foldl ucsPush acc).2.2.nodes_explored = acc.2.2.nodes_explored := by
  intro ns
  induction ns with
  | nil => intro acc; exact ⟨rfl, rfl⟩
  | cons nb t ih =>
    intro acc
    obtain ⟨hq, v, a⟩ := acc
    rw [List.foldl_cons]
    obtain ⟨h1, h2⟩ := ih (ucsPush (hq, v, a) nb)
    have hone : (ucsPush (hq, v, a) nb).2.2.explored = a.explored ∧
        (ucsPush (hq, v, a) nb).2.2.nodes_explored = a.nodes_explored := by
      rw [ucsPush_eq]
      by_cases hpb : ucsPushB v nb = true
      · rw [if_pos hpb]
        exact ⟨rfl, rfl⟩
      · rw [if_neg hpb]
        exact ⟨rfl, rfl⟩
    exact ⟨h1.trans hone.1, h2.trans hone.2⟩

/-- The bidirectional neighbor fold never touches the explored list or the
expansion counter. -/
theorem biPush_app_fields : ∀ (ns : List Node)
    (acc : List Node × ((Int × Int) → Option Node) × App),
    (ns.foldl biPush acc).2.2.explored = acc.2.2.explored ∧
    (ns.foldl biPush acc).2.2.nodes_explored = acc.2.2.nodes_explored := by
  intro ns
  induction ns with
  | nil => intro acc; exact ⟨rfl, rfl⟩
  | cons nb t ih =>
    intro acc
    obtain ⟨q, v, a⟩ := acc
    rw [List.foldl_cons]
    obtain ⟨h1, h2⟩ := ih (biPush (q, v, a) nb)
    have hone : (biPush (q, v, a) nb).2.2.explored = a.explored ∧
        (biPush (q, v, a) nb).2.2.nodes_explored = a.nodes_explored := by
      cases hv : v nb.pos with
      | some m =>
        have hstep : biPush (q, v, a) nb = (q, v, a) := by
          simp only [biPush, hv]
        rw [hstep]
        exact ⟨rfl, rfl⟩
      | none =>
        have hstep : biPush (q, v, a) nb =
            (q ++ [nb], fun x => if x = nb.pos then some nb else v x,
              { a with frontier := setAdd a.frontier nb.pos }) := by
          simp only [biPush, hv]
        rw [hstep]
        exact ⟨rfl, rfl⟩
    exact ⟨h1.trans hone.1, h2.trans hone.2⟩

/-- The DLS neighbor loop only grows the explored list, for any recursive
callee that only grows it. -/
theorem dlsGo_explored_mono
    (recur : Node → Nat → List (Int × Int) → App →
      Option (Option Node × List (Int × Int) × App))
    (hrec : ∀ (node : Node) (depth : Nat) (visited : List (Int × Int)) (app : App)
        (r : Option Node) (v : List (Int × Int)) (a : App),
      recur node depth visited app = some (r, v, a) →
      ∀ c ∈ app.explored, c ∈ a.explored) :
    ∀ (l : List Node) (depth : Nat) (visited : List (Int × Int)) (app : App)
      (r : Option Node) (v : List (Int × Int)) (a : App),
      dlsGo recur l depth visited app = some (r, v, a) →
      ∀ c ∈ app.explored, c ∈ a.explored := by
  intro l
  induction l with
  | nil =>
    intro depth visited app r v a heq
    simp only [dlsGo, Option.some.injEq, Prod.mk.injEq] at heq
    obtain ⟨-, -, h3⟩ := heq
    subst h3
    exact fun c hc => hc
  | cons nb rest ihl =>
    intro depth visited app r v a heq
    simp only [dlsGo] at heq
    by_cases hv : nb.pos ∈ visited
    · rw [if_pos hv] at heq
      exact ihl depth visited app r v a heq
    · rw [if_neg hv] at heq
      rcases hrc : recur nb (depth + 1) (nb.pos :: visited)
          { app with frontier := setAdd app.frontier nb.pos } with - | ⟨res1, v1, a1⟩
      · rw [hrc] at heq
        simp at heq
      · rw [hrc] at heq
        have hmono := hrec nb (depth + 1) (nb.pos :: visited)
          { app with frontier := setAdd app.frontier nb.pos } res1 v1 a1 hrc
        cases res1 with
        | some rr =>
          simp only [Option.some.injEq, Prod.mk.injEq] at heq
          obtain ⟨-, -, h3⟩ := heq
          subst h3
          exact fun c hc => hmono c hc
        | none =>
          intro c hc
          exact ihl depth v1 { a1 with frontier := setRemove a1.frontier nb.pos } r v a
            heq c (hmono c hc)

/-- Every completed `dls_recursive` call leaves the processed node's cell
in the explored list and keeps every previously explored cell: the node is
processed unconditionally, with no `is_valid` re-check. -/
theorem dlsRec_explored (limit : Nat) : ∀ (fuel : Nat) (node : Node) (depth : Nat)
    (visited : List (Int × Int)) (app : App) (r : Option Node)
    (v : List (Int × Int)) (a : App),
    dlsRec limit fuel node depth visited app = some (r, v, a) →
    node.pos ∈ a.explored ∧ ∀ c ∈ app.explored, c ∈ a.explored := by
  intro fuel
  induction fuel with
  | zero =>
    intro node depth visited app r v a heq
    simp [dlsRec] at heq
  | succ n ih =>
    intro node depth visited app r v a heq
    simp only [dlsRec] at heq
    have hkey : node.pos ∈ (if node.pos ∈ app.explored then app
        else exploredAdd app node.pos).explored ∧
        ∀ c ∈ app.explored, c ∈ (if node.pos ∈ app.explored then app
          else exploredAdd app node.pos).explored := by
      split
      · rename_i hmem
        exact ⟨hmem, fun c hc => hc⟩
      · exact ⟨self_mem_setAdd _ _, fun c hc => (mem_setAdd _ _ _).mpr (Or.inr hc)⟩
    generalize hA : (if node.pos ∈ app.explored then app
        else exploredAdd app node.pos) = app1 at heq hkey
    by_cases ht : node.pos = app1.target
    · rw [if_pos ht] at heq
      simp only [Option.some.injEq, Prod.mk.injEq] at heq
      obtain ⟨-, -, h3⟩ := heq
      subst h3
      exact hkey
    · rw [if_neg ht] at heq
      by_cases hd : limit ≤ depth
      · rw [if_pos hd] at heq
        simp only [Option.some.injEq, Prod.mk.injEq] at heq
        obtain ⟨-, -, h3⟩ := heq
        subst h3
        exact hkey
      · rw [if_neg hd] at heq
        have hmono := dlsGo_explored_mono (dlsRec limit n)
          (fun nd d vis ap r' v' a' hq => (ih nd d vis ap r' v' a' hq).2)
          (get_neighbors app1 node) depth visited app1 r v a heq
        exact ⟨hmono node.pos hkey.1, fun c hc => hmono c (hkey.2 c hc)⟩

/-- C3 amended: no algorithm re-checks `is_valid` on the cell it pops —
for every state, traversable or not, the BFS and DFS steps, the UCS step
on a not-yet-explored cell (its explored-skip is a deduplication test, not
a traversability test), and both bidirectional phases mark the popped cell
explored and count the expansion, and every completed `dls_recursive` call
leaves the processed node's cell explored; traversability is consulted
only at neighbor-generation time against the grid state current at that
expansion; and the program's own mid-run mutation,
`spawn_dynamic_obstacle`, never adds an obstacle on a frontiered or
explored cell, so its injections can never invalidate an
already-frontiered cell. -/
theorem C3_no_revalidation_on_expansion :
    (∀ (cur : Node) (rest : List Node) (visited : List (Int × Int)) (app : App),
      cur.pos ≠ app.target →
      (∃ st : BfsState, bfsStep cur rest visited app = .cont st) ∧
      (∀ st : BfsState, bfsStep cur rest visited app = .cont st →
        cur.pos ∈ st.app.explored ∧
        st.app.nodes_explored = app.nodes_explored + 1)) ∧
    (∀ (cur : Node) (rest : List Node) (visited : List (Int × Int)) (app : App),
      cur.pos ≠ app.target →
      (∃ st : DfsState, dfsStep cur rest visited app = .cont st) ∧
      (∀ st : DfsState, dfsStep cur rest visited app = .cont st →
        cur.pos ∈ st.app.explored ∧
        st.app.nodes_explored = app.nodes_explored + 1)) ∧
    (∀ (cur : Node) (rest : List Node) (v : (Int × Int) → Option Cost) (app : App),
      cur.pos ∉ app.explored → cur.pos ≠ app.target →
      (∃ st : UcsState, ucsStep cur rest v app = .cont st) ∧
      (∀ st : UcsState, ucsStep cur rest v app = .cont st →
        cur.pos ∈ st.app.explored ∧
        st.app.nodes_explored = app.nodes_explored + 1)) ∧
    (∀ (limit fuel : Nat) (node : Node) (depth : Nat) (visited : List (Int × Int))
      (app : App) (r : Option Node) (v : List (Int × Int)) (a : App),
      dlsRec limit fuel node depth visited app = some (r, v, a) →
      node.pos ∈ a.explored) ∧
    (∀ (cur : Node) (rest : List Node) (fvis bvis : (Int × Int) → Option Node)
      (app : App),
      (∀ p app', forwardPhase (cur :: rest) fvis bvis app = .met p app' →
        cur.pos ∈ app'.explored ∧ app'.nodes_explored = app.nodes_explored + 1) ∧
      (∀ fq fvis' app', forwardPhase (cur :: rest) fvis bvis app = .go fq fvis' app' →
        cur.pos ∈ app'.explored ∧ app'.nodes_explored = app.nodes_explored + 1)) ∧
    (∀ (cur : Node) (rest : List Node) (bvis fvis : (Int × Int) → Option Node)
      (app : App),
      (∀ p app', backwardPhase (cur :: rest) bvis fvis app = .met p app' →
        cur.pos ∈ app'.explored ∧ app'.nodes_explored = app.nodes_explored + 1) ∧
      (∀ bq bvis' app', backwardPhase (cur :: rest) bvis fvis app = .go bq bvis' app' →
        cur.pos ∈ app'.explored ∧ app'.nodes_explored = app.nodes_explored + 1)) ∧
    (∀ (s : App) (n nb : Node), nb ∈ get_neighbors s n → is_valid s nb.row nb.col = true) ∧
    (∀ (hit : Bool) (draws : List (Int × Int)) (s : App) (c : Int × Int),
      c ∈ s.frontier ∨ c ∈ s.explored →
      (c ∈ (spawn_dynamic_obstacle hit draws s).1.dynamic_obstacles ↔
        c ∈ s.dynamic_obstacles)) := by
  refine ⟨?_, ?dfs, ?ucs, ?dls, ?fwd, ?bwd, ?_, ?_⟩
  case dfs =>
    intro cur rest visited app htgt
    have hstep : dfsStep cur rest visited app =
        .cont ⟨((get_neighbors { exploredAdd app cur.pos with
              frontier := setRemove (exploredAdd app cur.pos).frontier cur.pos } cur).reverse.foldl
            dfsPush (rest, visited, { exploredAdd app cur.pos with
              frontier := setRemove (exploredAdd app cur.pos).frontier cur.pos })).1,
          ((get_neighbors { exploredAdd app cur.pos with
              frontier := setRemove (exploredAdd app cur.pos).frontier cur.pos } cur).reverse.foldl
            dfsPush (rest, visited, { exploredAdd app cur.pos with
              frontier := setRemove (exploredAdd app cur.pos).frontier cur.pos })).2.1,
          ((get_neighbors { exploredAdd app cur.pos with
              frontier := setRemove (exploredAdd app cur.pos).frontier cur.pos } cur).reverse.foldl
            dfsPush (rest, visited, { exploredAdd app cur.pos with
              frontier := setRemove (exploredAdd app cur.pos).frontier cur.pos })).2.2⟩ := by
      show (if cur.pos = app.target then _ else _) = _
      rw [if_neg htgt]
    constructor
    · exact ⟨_, hstep⟩
    · intro st hst
      rw [hstep] at hst
      cases hst
      obtain ⟨h1, h2⟩ := dfsPush_app_fields
        ((get_neighbors { exploredAdd app cur.pos with
            frontier := setRemove (exploredAdd app cur.pos).frontier cur.pos } cur).reverse)
        (rest, visited, { exploredAdd app cur.pos with
          frontier := setRemove (exploredAdd app cur.pos).frontier cur.pos })
      constructor
      · rw [h1]
        exact self_mem_setAdd app.explored cur.pos
      · rw [h2]
        rfl
  case ucs =>
    intro cur rest v app hE htgt
    have htgt' : ¬ cur.pos = (exploredAdd app cur.pos).target := htgt
    have hstep : ucsStep cur rest v app =
        .cont ⟨((get_neighbors (exploredAdd app cur.pos) cur).foldl ucsPush
            (rest, v, exploredAdd app cur.pos)).1,
          ((get_neighbors (exploredAdd app cur.pos) cur).foldl ucsPush
            (rest, v, exploredAdd app cur.pos)).2.1,
          { ((get_neighbors (exploredAdd app cur.pos) cur).foldl ucsPush
              (rest, v, exploredAdd app cur.pos)).2.2 with
            frontier := setRemove ((get_neighbors (exploredAdd app cur.pos) cur).foldl ucsPush
              (rest, v, exploredAdd app cur.pos)).2.2.frontier cur.pos }⟩ := by
      unfold ucsStep
      rw [if_neg hE, if_neg htgt']
    constructor
    · exact ⟨_, hstep⟩
    · intro st hst
      rw [hstep] at hst
      cases hst
      obtain ⟨h1, h2⟩ := ucsPush_app_fields
        (get_neighbors (exploredAdd app cur.pos) cur) (rest, v, exploredAdd app cur.pos)
      constructor
      · show cur.pos ∈ ((get_neighbors (exploredAdd app cur.pos) cur).foldl ucsPush
          (rest, v, exploredAdd app cur.pos)).2.2.explored
        rw [h1]
        exact self_mem_setAdd app.explored cur.pos
      · show ((get_neighbors (exploredAdd app cur.pos) cur).foldl ucsPush
          (rest, v, exploredAdd app cur.pos)).2.2.nodes_explored = app.nodes_explored + 1
        rw [h2]
        rfl
  case dls =>
    intro limit fuel node depth visited app r v a heq
    exact (dlsRec_explored limit fuel node depth visited app r v a heq).1
  case fwd =>
    intro cur rest fvis bvis app
    constructor
    · intro p app' h
      simp only [forwardPhase] at h
      cases hbv : bvis cur.pos with
      | none =>
        rw [hbv] at h
        injection h
      | some bnode =>
        rw [hbv] at h
        injection h with h1 h2
        subst h2
        exact ⟨self_mem_setAdd app.explored cur.pos, rfl⟩
    · intro fq fvis' app' h
      simp only [forwardPhase] at h
      cases hbv : bvis cur.pos with
      | some bnode =>
        rw [hbv] at h
        injection h
      | none =>
        rw [hbv] at h
        injection h with h1 h2 h3
        subst h3
        obtain ⟨h1e, h2e⟩ := biPush_app_fields
          (get_neighbors (exploredAdd app cur.pos) cur) (rest, fvis, exploredAdd app cur.pos)
        constructor
        · rw [h1e]
          exact self_mem_setAdd app.explored cur.pos
        · rw [h2e]
          rfl
  case bwd =>
    intro cur rest bvis fvis app
    constructor
    · intro p app' h
      simp only [backwardPhase] at h
      cases hfv : fvis cur.pos with
      | none =>
        rw [hfv] at h
        injection h
      | some fnode =>
        rw [hfv] at h
        injection h with h1 h2
        subst h2
        exact ⟨self_mem_setAdd app.explored cur.pos, rfl⟩
    · intro bq bvis' app' h
      simp only [backwardPhase] at h
      cases hfv : fvis cur.pos with
      | some fnode =>
        rw [hfv] at h
        injection h
      | none =>
        rw [hfv] at h
        injection h with h1 h2 h3
        subst h3
        obtain ⟨h1e, h2e⟩ := biPush_app_fields
          (get_neighbors (exploredAdd app cur.pos) cur) (rest, bvis, exploredAdd app cur.pos)
        constructor
        · rw [h1e]
          exact self_mem_setAdd app.explored cur.pos
        · rw [h2e]
          rfl
  · intro cur rest visited app htgt
    have hnodup : ((get_neighbors (exploredAdd app cur.pos) cur).map Node.pos).Nodup :=
      get_neighbors_pos_nodup _ cur
    have hfold := bfs_fold_char (get_neighbors (exploredAdd app cur.pos) cur) rest visited
      (exploredAdd app cur.pos) hnodup
    have hstep : bfsStep cur rest visited app =
        .cont ⟨((get_neighbors (exploredAdd app cur.pos) cur).foldl bfsPush
            (rest, visited, exploredAdd app cur.pos)).1,
          ((get_neighbors (exploredAdd app cur.pos) cur).foldl bfsPush
            (rest, visited, exploredAdd app cur.pos)).2.1,
          { ((get_neighbors (exploredAdd app cur.pos) cur).foldl bfsPush
              (rest, visited, exploredAdd app cur.pos)).2.2 with
            frontier := setRemove ((get_neighbors (exploredAdd app cur.pos) cur).foldl bfsPush
              (rest, visited, exploredAdd app cur.pos)).2.2.frontier cur.pos }⟩ := by
      show (if cur.pos = app.target then _ else _) = _
      rw [if_neg htgt]
    constructor
    · exact ⟨_, hstep⟩
    · intro st hst
      rw [hstep] at hst
      cases hst
      constructor
      · show cur.pos ∈ ((get_neighbors (exploredAdd app cur.pos) cur).foldl bfsPush
          (rest, visited, exploredAdd app cur.pos)).2.2.explored
        rw [hfold.2.2.2.2.2.2.1]
        exact self_mem_setAdd app.explored cur.pos
      · show ((get_neighbors (exploredAdd app cur.pos) cur).foldl bfsPush
          (rest, visited, exploredAdd app cur.pos)).2.2.nodes_explored = app.nodes_explored + 1
        rw [hfold.2.2.2.2.2.2.2]
        rfl
  · intro s n nb h
    exact (get_neighbors_sound s n nb h).1
  · intro hit draws s c hc
    cases hit with
    | false => rw [spawn_no_hit]
    | true =>
      have hsp : spawn_dynamic_obstacle true draws s = spawnTry s 10 draws := rfl
      rw [hsp]
      rcases spawnTry_spec 10 draws s with h | ⟨row, col, heq, -, -, -, -, -, -, h5, h6⟩
      · rw [h]
      · rw [heq]
        show c ∈ (row, col) :: s.dynamic_obstacles ↔ c ∈ s.dynamic_obstacles
        constructor
        · intro hmem
          rcases List.mem_cons.mp hmem with rfl | hmem
          · rcases hc with hc | hc
            · exact absurd hc h6
            · exact absurd hc h5
          · exact hmem
        · exact List.mem_cons_of_mem _

/-- Witness for the amended C3 theorem: the expansion clauses of every
algorithm applied at the counterexample state, whose popped cell is
non-traversable. -/
theorem C3_no_revalidation_on_expansion_witness :
    ((∃ st : BfsState,
        bfsStep (Node.mk 0 1 ⟨1, 0⟩ none) [] [(0, 0), (0, 1)] exApp3 = .cont st) ∧
      (∀ st : BfsState,
        bfsStep (Node.mk 0 1 ⟨1, 0⟩ none) [] [(0, 0), (0, 1)] exApp3 = .cont st →
        (Node.mk 0 1 ⟨1, 0⟩ none).pos ∈ st.app.explored ∧
        st.app.nodes_explored = exApp3.nodes_explored + 1)) ∧
    ((∃ st : DfsState,
        dfsStep (Node.mk 0 1 ⟨1, 0⟩ none) [] [(0, 0), (0, 1)] exApp3 = .cont st) ∧
      (∀ st : DfsState,
        dfsStep (Node.mk 0 1 ⟨1, 0⟩ none) [] [(0, 0), (0, 1)] exApp3 = .cont st →
        (Node.mk 0 1 ⟨1, 0⟩ none).pos ∈ st.app.explored ∧
        st.app.nodes_explored = exApp3.nodes_explored + 1)) ∧
    ((∃ st : UcsState,
        ucsStep (Node.mk 0 1 ⟨1, 0⟩ none) [] (fun _ => none) exApp3 = .cont st) ∧
      (∀ st : UcsState,
        ucsStep (Node.mk 0 1 ⟨1, 0⟩ none) [] (fun _ => none) exApp3 = .cont st →
        (Node.mk 0 1 ⟨1, 0⟩ none).pos ∈ st.app.explored ∧
        st.app.nodes_explored = exApp3.nodes_explored + 1)) ∧
    (Node.mk 0 1 ⟨1, 0⟩ none).pos ∈ (exploredAdd exApp3 (0, 1)).explored ∧
    ((∀ p app', forwardPhase [Node.mk 0 1 ⟨1, 0⟩ none] (fun _ => none) (fun _ => none)
          exApp3 = .met p app' →
        (Node.mk 0 1 ⟨1, 0⟩ none).pos ∈ app'.explored ∧
        app'.nodes_explored = exApp3.nodes_explored + 1) ∧
      (∀ fq fvis' app', forwardPhase [Node.mk 0 1 ⟨1, 0⟩ none] (fun _ => none)
          (fun _ => none) exApp3 = .go fq fvis' app' →
        (Node.mk 0 1 ⟨1, 0⟩ none).pos ∈ app'.explored ∧
        app'.nodes_explored = exApp3.nodes_explored + 1)) :=
  ⟨C3_no_revalidation_on_expansion.1 (Node.mk 0 1 ⟨1, 0⟩ none) [] [(0, 0), (0, 1)] exApp3
      (by decide),
   C3_no_revalidation_on_expansion.2.1 (Node.mk 0 1 ⟨1, 0⟩ none) [] [(0, 0), (0, 1)] exApp3
      (by decide),
   C3_no_revalidation_on_expansion.2.2.1 (Node.mk 0 1 ⟨1, 0⟩ none) [] (fun _ => none) exApp3
      (by decide) (by decide),
   C3_no_revalidation_on_expansion.2.2.2.1 0 1 (Node.mk 0 1 ⟨1, 0⟩ none) 0 [(0, 1)] exApp3
      none [(0, 1)] (exploredAdd exApp3 (0, 1)) (by rfl),
   C3_no_revalidation_on_expansion.2.2.2.2.1 (Node.mk 0 1 ⟨1, 0⟩ none) [] (fun _ => none)
      (fun _ => none) exApp3⟩

/-! ## Claim C8: grid-edit invariant -/

@[simp] theorem gridSet_self (g : Int × Int → Nat) (c : Int × Int) (v : Nat) :
    gridSet g c v c = v := by
  simp [gridSet]

theorem gridSet_ne (g : Int × Int → Nat) (c : Int × Int) (v : Nat) (x : Int × Int)
    (h : x ≠ c) : gridSet g c v x = g x := by
  simp [gridSet, h]

/-- The claimed editor invariant: the recorded start and target cells
differ, they carry the start marker `2` and target marker `3` respectively
(hence neither is a wall), and no other cell carries either marker. -/
def StartTargetInv (s : App) : Prop :=
  s.start ≠ s.target ∧
  s.gridVal s.start = 2 ∧ s.gridVal s.target = 3 ∧
  (∀ c, s.gridVal c = 2 → c = s.start) ∧
  (∀ c, s.gridVal c = 3 → c = s.target)

/-- Concrete editor state satisfying the invariant: start `(0,0)`, target
`(1,1)`, all other cells empty. -/
def exApp8 : App :=
  { gridVal := fun c => if c = (0, 0) then 2 else if c = (1, 1) then 3 else 0,
    start := (0, 0), target := (1, 1),
    dynamic_obstacles := [], frontier := [], explored := [],
    nodes_explored := 0, dynamic_obstacles_spawned := 0 }

/-- The concrete state satisfies the invariant. -/
theorem exApp8_inv : StartTargetInv exApp8 := by
  refine ⟨by decide, by decide, by decide, ?_, ?_⟩
  · intro c h
    show c = (0, 0)
    by_cases h0 : c = (0, 0)
    · exact h0
    · exfalso
      by_cases h1 : c = (1, 1)
      all_goals
        have h' : (if c = ((0 : Int), (0 : Int)) then 2
            else if c = ((1 : Int), (1 : Int)) then 3 else 0) = 2 := h
        rw [if_neg h0] at h'
      · rw [if_pos h1] at h'
        omega
      · rw [if_neg h1] at h'
        omega
  · intro c h
    show c = (1, 1)
    by_cases h1 : c = (1, 1)
    · exact h1
    · exfalso
      by_cases h0 : c = (0, 0)
      all_goals
        have h' : (if c = ((0 : Int), (0 : Int)) then 2
            else if c = ((1 : Int), (1 : Int)) then 3 else 0) = 3 := h
      · rw [if_pos h0] at h'
        omega
      · rw [if_neg h0, if_neg h1] at h'
        omega

/-- C8 counterexample: clicking `place_start` on the current target cell is
not rejected: the edit goes through, the new start equals the target, the
target marker is destroyed (no cell carries the value `3` any more), and
the invariant is broken.  No `InvalidPlacement` failure exists anywhere in
`handle_grid_click`. -/
theorem C8_counterexample_place_start_on_target :
    StartTargetInv exApp8 ∧
    (handle_grid_click exApp8 .place_start 1 1).start =
      (handle_grid_click exApp8 .place_start 1 1).target ∧
    (handle_grid_click exApp8 .place_start 1 1).gridVal (1, 1) = 2 ∧
    (∀ c, (handle_grid_click exApp8 .place_start 1 1).gridVal c ≠ 3) ∧
    ¬ StartTargetInv (handle_grid_click exApp8 .place_start 1 1) := by
  refine ⟨exApp8_inv, by decide, by decide, ?_, ?_⟩
  · intro c
    show gridSet (gridSet exApp8.gridVal (0, 0) 0) (1, 1) 2 c ≠ 3
    by_cases h1 : c = (1, 1)
    · subst h1
      rw [gridSet_self]
      omega
    · rw [gridSet_ne _ _ _ _ h1]
      by_cases h0 : c = (0, 0)
      · subst h0
        rw [gridSet_self]
        omega
      · rw [gridSet_ne _ _ _ _ h0]
        show (if c = ((0 : Int), (0 : Int)) then 2
            else if c = ((1 : Int), (1 : Int)) then 3 else 0) ≠ 3
        rw [if_neg h0, if_neg h1]
        omega
  · intro hinv
    have h1 : (handle_grid_click exApp8 .place_start 1 1).start ≠
        (handle_grid_click exApp8 .place_start 1 1).target := hinv.1
    exact h1 (by decide)

/-- C8 amended: the `place_wall` and `erase` commands preserve the
invariant (they refuse to touch the start or target cell), and
`place_start`/`place_target` preserve it when the clicked cell is not the
other endpoint; but clicking `place_start` on the current target cell (or
`place_target` on the current start cell) is not rejected — it succeeds,
collapsing start and target onto the same cell and erasing the other
marker.  There is no `InvalidPlacement` failure path. -/
theorem C8_edit_invariant_except_collapse :
    (∀ (s : App) (row col : Int), StartTargetInv s →
      StartTargetInv (handle_grid_click s .place_wall row col)) ∧
    (∀ (s : App) (row col : Int), StartTargetInv s →
      StartTargetInv (handle_grid_click s .erase row col)) ∧
    (∀ (s : App) (row col : Int), StartTargetInv s → (row, col) ≠ s.target →
      StartTargetInv (handle_grid_click s .place_start row col)) ∧
    (∀ (s : App) (row col : Int), StartTargetInv s → (row, col) ≠ s.start →
      StartTargetInv (handle_grid_click s .place_target row col)) ∧
    (∀ s : App, StartTargetInv s →
      (0 ≤ s.target.1 && s.target.1 < GRID_SIZE &&
        0 ≤ s.target.2 && s.target.2 < GRID_SIZE) = true →
      (handle_grid_click s .place_start s.target.1 s.target.2).start =
        (handle_grid_click s .place_start s.target.1 s.target.2).target ∧
      ∀ c, (handle_grid_click s .place_start s.target.1 s.target.2).gridVal c ≠ 3) := by
  have hwall_erase : ∀ (s : App) (row col : Int) (v : Nat), v ≠ 2 → v ≠ 3 →
      StartTargetInv s → (row, col) ≠ s.start → (row, col) ≠ s.target →
      StartTargetInv { s with gridVal := gridSet s.gridVal (row, col) v } := by
    intro s row col v hv2 hv3 ⟨hne, hs, ht, hu2, hu3⟩ hns hnt
    refine ⟨hne, ?_, ?_, ?_, ?_⟩
    · show gridSet s.gridVal (row, col) v s.start = 2
      rw [gridSet_ne _ _ _ _ (Ne.symm hns)]
      exact hs
    · show gridSet s.gridVal (row, col) v s.target = 3
      rw [gridSet_ne _ _ _ _ (Ne.symm hnt)]
      exact ht
    · intro c hc
      have hc' : gridSet s.gridVal (row, col) v c = 2 := hc
      by_cases h : c = (row, col)
      · subst h
        rw [gridSet_self] at hc'
        exact absurd hc' hv2
      · rw [gridSet_ne _ _ _ _ h] at hc'
        exact hu2 c hc'
    · intro c hc
      have hc' : gridSet s.gridVal (row, col) v c = 3 := hc
      by_cases h : c = (row, col)
      · subst h
        rw [gridSet_self] at hc'
        exact absurd hc' hv3
      · rw [gridSet_ne _ _ _ _ h] at hc'
        exact hu3 c hc'
  refine ⟨?_, ?_, ?_, ?_, ?_⟩
  · intro s row col hinv
    by_cases hb : (0 ≤ row && row < GRID_SIZE && 0 ≤ col && col < GRID_SIZE) = true
    · have hres : handle_grid_click s .place_wall row col =
          if (decide ((row, col) ≠ s.start) && decide ((row, col) ≠ s.target)) = true then
            { s with gridVal :=
                (gridSet s.gridVal (row, col)
                  (if (s.gridVal (row, col) == 0) = true then 1 else 0)) }
          else s := by
        unfold handle_grid_click
        rw [if_pos hb]
      rw [hres]
      by_cases hp : (decide ((row, col) ≠ s.start) && decide ((row, col) ≠ s.target)) = true
      · rw [if_pos hp]
        simp only [Bool.and_eq_true, decide_eq_true_eq] at hp
        exact hwall_erase s row col _ (by split <;> omega) (by split <;> omega)
          hinv hp.1 hp.2
      · rw [if_neg hp]
        exact hinv
    · have hres : handle_grid_click s .place_wall row col = s := by
        unfold handle_grid_click
        rw [if_neg hb]
      rw [hres]
      exact hinv
  · intro s row col hinv
    by_cases hb : (0 ≤ row && row < GRID_SIZE && 0 ≤ col && col < GRID_SIZE) = true
    · have hres : handle_grid_click s .erase row col =
          if (decide ((row, col) ≠ s.start) && decide ((row, col) ≠ s.target)) = true then
            { s with gridVal := gridSet s.gridVal (row, col) 0 }
          else s := by
        unfold handle_grid_click
        rw [if_pos hb]
      rw [hres]
      by_cases hp : (decide ((row, col) ≠ s.start) && decide ((row, col) ≠ s.target)) = true
      · rw [if_pos hp]
        simp only [Bool.and_eq_true, decide_eq_true_eq] at hp
        exact hwall_erase s row col 0 (by omega) (by omega) hinv hp.1 hp.2
      · rw [if_neg hp]
        exact hinv
    · have hres : handle_grid_click s .erase row col = s := by
        unfold handle_grid_click
        rw [if_neg hb]
      rw [hres]
      exact hinv
  · intro s row col hinv hnt
    obtain ⟨hne, hs, ht, hu2, hu3⟩ := hinv
    by_cases hb : (0 ≤ row && row < GRID_SIZE && 0 ≤ col && col < GRID_SIZE) = true
    · have hres : handle_grid_click s .place_start row col =
          { s with
              gridVal := gridSet (gridSet s.gridVal s.start 0) (row, col) 2,
              start := (row, col) } := by
        unfold handle_grid_click
        rw [if_pos hb]
      rw [hres]
      refine ⟨hnt, ?_, ?_, ?_, ?_⟩
      · show gridSet (gridSet s.gridVal s.start 0) (row, col) 2 (row, col) = 2
        rw [gridSet_self]
      · show gridSet (gridSet s.gridVal s.start 0) (row, col) 2 s.target = 3
        rw [gridSet_ne _ _ _ _ (Ne.symm hnt), gridSet_ne _ _ _ _ (Ne.symm hne)]
        exact ht
      · intro c hc
        show c = (row, col)
        by_cases h : c = (row, col)
        · exact h
        · exfalso
          have hc' : gridSet (gridSet s.gridVal s.start 0) (row, col) 2 c = 2 := hc
          rw [gridSet_ne _ _ _ _ h] at hc'
          by_cases h0 : c = s.start
          · subst h0
            rw [gridSet_self] at hc'
            omega
          · rw [gridSet_ne _ _ _ _ h0] at hc'
            exact h0 (hu2 c hc')
      · intro c hc
        show c = s.target
        have hc' : gridSet (gridSet s.gridVal s.start 0) (row, col) 2 c = 3 := hc
        by_cases h : c = (row, col)
        · subst h
          rw [gridSet_self] at hc'
          omega
        · rw [gridSet_ne _ _ _ _ h] at hc'
          by_cases h0 : c = s.start
          · subst h0
            rw [gridSet_self] at hc'
            omega
          · rw [gridSet_ne _ _ _ _ h0] at hc'
            exact hu3 c hc'
    · have hres : handle_grid_click s .place_start row col = s := by
        unfold handle_grid_click
        rw [if_neg hb]
      rw [hres]
      exact ⟨hne, hs, ht, hu2, hu3⟩
  · intro s row col hinv hns
    obtain ⟨hne, hs, ht, hu2, hu3⟩ := hinv
    by_cases hb : (0 ≤ row && row < GRID_SIZE && 0 ≤ col && col < GRID_SIZE) = true
    · have hres : handle_grid_click s .place_target row col =
          { s with
              gridVal := gridSet (gridSet s.gridVal s.target 0) (row, col) 3,
              target := (row, col) } := by
        unfold handle_grid_click
        rw [if_pos hb]
      rw [hres]
      refine ⟨fun h => hns h.symm, ?_, ?_, ?_, ?_⟩
      · show gridSet (gridSet s.gridVal s.target 0) (row, col) 3 s.start = 2
        rw [gridSet_ne _ _ _ _ (Ne.symm hns), gridSet_ne _ _ _ _ hne]
        exact hs
      · show gridSet (gridSet s.gridVal s.target 0) (row, col) 3 (row, col) = 3
        rw [gridSet_self]
      · intro c hc
        show c = s.start
        have hc' : gridSet (gridSet s.gridVal s.target 0) (row, col) 3 c = 2 := hc
        by_cases h : c = (row, col)
        · subst h
          rw [gridSet_self] at hc'
          omega
        · rw [gridSet_ne _ _ _ _ h] at hc'
          by_cases h0 : c = s.target
          · subst h0
            rw [gridSet_self] at hc'
            omega
          · rw [gridSet_ne _ _ _ _ h0] at hc'
            exact hu2 c hc'
      · intro c hc
        show c = (row, col)
        by_cases h : c = (row, col)
        · exact h
        · exfalso
          have hc' : gridSet (gridSet s.gridVal s.target 0) (row, col) 3 c = 3 := hc
          rw [gridSet_ne _ _ _ _ h] at hc'
          by_cases h0 : c = s.target
          · subst h0
            rw [gridSet_self] at hc'
            omega
          · rw [gridSet_ne _ _ _ _ h0] at hc'
            exact h0 (hu3 c hc')
    · have hres : handle_grid_click s .place_target row col = s := by
        unfold handle_grid_click
        rw [if_neg hb]
      rw [hres]
      exact ⟨hne, hs, ht, hu2, hu3⟩
  · intro s hinv hb
    obtain ⟨hne, hs, ht, hu2, hu3⟩ := hinv
    have hres : handle_grid_click s .place_start s.target.1 s.target.2 =
        { s with
            gridVal := gridSet (gridSet s.gridVal s.start 0) (s.target.1, s.target.2) 2,
            start := (s.target.1, s.target.2) } := by
      unfold handle_grid_click
      rw [if_pos hb]
    constructor
    · rw [hres]
    · intro c
      rw [hres]
      show gridSet (gridSet s.gridVal s.start 0) (s.target.1, s.target.2) 2 c ≠ 3
      by_cases h : c = (s.target.1, s.target.2)
      · subst h
        rw [gridSet_self]
        omega
      · rw [gridSet_ne _ _ _ _ h]
        by_cases h0 : c = s.start
        · subst h0
          rw [gridSet_self]
          omega
        · rw [gridSet_ne _ _ _ _ h0]
          intro hc
          apply h
          rw [hu3 c hc]

/-- Witness for the amended C8 theorem: at the concrete invariant-holding
state, placing the start on the target collapses the two endpoints and
erases the target marker. -/
theorem C8_edit_invariant_except_collapse_witness :
    (handle_grid_click exApp8 .place_start exApp8.target.1 exApp8.target.2).start =
      (handle_grid_click exApp8 .place_start exApp8.target.1 exApp8.target.2).target ∧
    ∀ c, (handle_grid_click exApp8 .place_start exApp8.target.1 exApp8.target.2).gridVal c ≠ 3 :=
  C8_edit_invariant_except_collapse.2.2.2.2 exApp8 exApp8_inv (by decide)

/-! ## Traversable paths -/

/-- One legal move of the movement relation: the offset is one of the six
`DIRECTIONS` and the moved-to cell is traversable.  (The source never
validity-checks the cell a move leaves, only the cell it enters, so a path
is a chain of entered-cell checks.) -/
def AdjStep (s : App) (c c' : Int × Int) : Prop :=
  (c'.1 - c.1, c'.2 - c.2) ∈ DIRECTIONS ∧ is_valid s c'.1 c'.2 = true

instance AdjStep.instDec (s : App) (c c' : Int × Int) : Decidable (AdjStep s c c') :=
  inferInstanceAs (Decidable (_ ∈ _ ∧ _ = _))

/-- A traversable path from the start to the target: nonempty, begins at
`start`, ends at `target`, and every consecutive pair is a legal move. -/
def GridPath (s : App) (p : List (Int × Int)) : Prop :=
  p.head? = some s.start ∧ p.getLast? = some s.target ∧ p.Chain' (AdjStep s)

instance chainAdjDec (s : App) : ∀ l : List (Int × Int), Decidable (List.Chain' (AdjStep s) l)
  | [] => isTrue List.chain'_nil
  | [a] => isTrue (List.chain'_singleton a)
  | a :: b :: t =>
    haveI : Decidable (List.Chain' (AdjStep s) (b :: t)) := chainAdjDec s (b :: t)
    decidable_of_iff (AdjStep s a b ∧ List.Chain' (AdjStep s) (b :: t)) List.chain'_cons.symm

instance GridPath.instDec (s : App) (p : List (Int × Int)) : Decidable (GridPath s p) :=
  inferInstanceAs (Decidable (_ = _ ∧ _ = _ ∧ List.Chain' _ _))

/-- A legal move changes each coordinate by at most one. -/
theorem AdjStep.coord_bound {s : App} {c c' : Int × Int} (h : AdjStep s c c') :
    (c'.1 - c.1).natAbs ≤ 1 ∧ (c'.2 - c.2).natAbs ≤ 1 := by
  obtain ⟨hm, -⟩ := h
  simp only [DIRECTIONS, List.mem_cons, List.not_mem_nil, or_false] at hm
  rcases hm with hm | hm | hm | hm | hm | hm <;>
    · rw [Prod.mk.injEq] at hm
      omega

/-- Along a chain of legal moves, the column coordinate moves at most one
per hop. -/
theorem chain_col_bound {s : App} :
    ∀ (p : List (Int × Int)) (c0 cl : Int × Int), p.Chain' (AdjStep s) →
      p.head? = some c0 → p.getLast? = some cl →
      (cl.2 - c0.2).natAbs ≤ p.length - 1 := by
  intro p
  induction p with
  | nil => intro c0 cl _ h; simp at h
  | cons c t ih =>
    intro c0 cl hchain hhead hlast
    simp only [List.head?_cons, Option.some.injEq] at hhead
    subst hhead
    cases t with
    | nil =>
      simp only [List.getLast?_singleton, Option.some.injEq] at hlast
      subst hlast
      simp
    | cons c1 t1 =>
      rw [List.chain'_cons] at hchain
      have hstep := AdjStep.coord_bound hchain.1
      have hlast' : (c1 :: t1).getLast? = some cl := by
        rw [List.getLast?_cons_cons] at hlast
        exact hlast
      have := ih c1 cl hchain.2 (by simp) hlast'
      simp only [List.length_cons] at *
      omega

/-! ## Claim C4: the DLS failure report -/

/-- Recursion-depth budget `limit + 1 - depth` always completes a
`dls_recursive` call: the source recursion nests at most `limit + 1`
levels because the depth cut fires at `depth >= limit`. -/
theorem dls_total_aux (limit : Nat) : ∀ fuel : Nat,
    (∀ (node : Node) (depth : Nat) (visited : List (Int × Int)) (app : App),
      depth ≤ limit → limit + 1 - depth ≤ fuel →
      (dlsRec limit fuel node depth visited app).isSome = true) ∧
    (∀ (l : List Node) (depth : Nat) (visited : List (Int × Int)) (app : App),
      depth < limit → limit - depth ≤ fuel →
      (dlsGo (dlsRec limit fuel) l depth visited app).isSome = true) := by
  intro fuel
  induction fuel with
  | zero =>
    constructor
    · intro node depth visited app h1 h2
      omega
    · intro l depth visited app h1 h2
      omega
  | succ n ih =>
    have hrec : ∀ (node : Node) (depth : Nat) (visited : List (Int × Int)) (app : App),
        depth ≤ limit → limit + 1 - depth ≤ n + 1 →
        (dlsRec limit (n + 1) node depth visited app).isSome = true := by
      intro node depth visited app h1 h2
      simp only [dlsRec]
      by_cases ht : node.pos =
          (if node.pos ∈ app.explored then app else exploredAdd app node.pos).target
      · rw [if_pos ht]
        rfl
      · rw [if_neg ht]
        by_cases hd : limit ≤ depth
        · rw [if_pos hd]
          rfl
        · rw [if_neg hd]
          exact ih.2 _ _ _ _ (by omega) (by omega)
    refine ⟨hrec, ?_⟩
    intro l
    induction l with
    | nil =>
      intro depth visited app h1 h2
      simp [dlsGo]
    | cons nb rest ihl =>
      intro depth visited app h1 h2
      simp only [dlsGo]
      by_cases hv : nb.pos ∈ visited
      · rw [if_pos hv]
        exact ihl depth visited app h1 h2
      · rw [if_neg hv]
        have hsome := hrec nb (depth + 1) (nb.pos :: visited)
          { app with frontier := setAdd app.frontier nb.pos } (by omega) (by omega)
        obtain ⟨r, hopt⟩ := Option.isSome_iff_exists.mp hsome
        obtain ⟨res, v, a⟩ := r
        rw [hopt]
        cases res with
        | some r => rfl
        | none =>
          show (dlsGo (dlsRec limit (n + 1)) rest depth v
            { a with frontier := setRemove a.frontier nb.pos }).isSome = true
          exact ihl depth v _ h1 h2

/-- Every `dls` call completes within the fuel the definition supplies. -/
theorem dls_isSome (s : App) (limit : Nat) : (dls s limit).isSome = true := by
  unfold dls
  have h := (dls_total_aux limit (limit + 1)).1 (Node.mk s.start.1 s.start.2 ⟨0, 0⟩ none)
    0 [s.start] s (by omega) (by omega)
  obtain ⟨r, hopt⟩ := Option.isSome_iff_exists.mp h
  obtain ⟨res, v, a⟩ := r
  rw [hopt]
  cases res with
  | some r => rfl
  | none => rfl

/-- Concrete corridor grid: open cells `(0,0)` to `(0,3)`, start `(0,0)`,
target `(0,3)`; the true shortest distance is 3 hops. -/
def exApp4a : App :=
  { gridVal := fun c => if c = (0, 0) then 2 else if c = (0, 3) then 3
      else if c = (0, 1) ∨ c = (0, 2) then 0 else 1,
    start := (0, 0), target := (0, 3),
    dynamic_obstacles := [], frontier := [], explored := [],
    nodes_explored := 0, dynamic_obstacles_spawned := 0 }

/-- Concrete unreachable grid: only `(0,0)` and `(0,3)` are not walls, and
they are not adjacent, so no traversable path exists at all. -/
def exApp4b : App :=
  { gridVal := fun c => if c = (0, 0) then 2 else if c = (0, 3) then 3 else 1,
    start := (0, 0), target := (0, 3),
    dynamic_obstacles := [], frontier := [], explored := [],
    nodes_explored := 0, dynamic_obstacles_spawned := 0 }

/-- C4 counterexample: `dls` with limit 1 produces the identical failure
report — return `False`, status `No Path (limit=1 too small)` — on a grid
whose true shortest distance is 3 (failure caused by the limit) and on a
grid with no traversable path at all.  The code has no `DepthExceeded`
report distinct from `NoPath`, so a caller cannot tell retry-with-larger-
limit apart from genuine unreachability. -/
theorem C4_counterexample_same_failure_report :
    (dls exApp4a 1).map (fun r => (r.1, r.2.1)) = some (false, DlsStatus.noPath 1) ∧
    (dls exApp4b 1).map (fun r => (r.1, r.2.1)) = some (false, DlsStatus.noPath 1) ∧
    GridPath exApp4a [(0, 0), (0, 1), (0, 2), (0, 3)] ∧
    (∀ q, GridPath exApp4a q → 4 ≤ q.length) ∧
    ¬ (∃ q, GridPath exApp4b q) := by
  refine ⟨by decide, by decide, by decide, ?_, ?_⟩
  · intro q hq
    obtain ⟨hh, hl, hc⟩ := hq
    have hb := chain_col_bound q exApp4a.start exApp4a.target hc hh hl
    have hq1 : q.length ≠ 0 := by
      intro h0
      rw [List.length_eq_zero] at h0
      subst h0
      simp at hh
    have : (3 : Int).natAbs ≤ q.length - 1 := hb
    omega
  · rintro ⟨q, hh, hl, hc⟩
    cases q with
    | nil => simp at hh
    | cons c0 t =>
      simp only [List.head?_cons, Option.some.injEq] at hh
      subst hh
      cases t with
      | nil =>
        simp only [List.getLast?_singleton, Option.some.injEq] at hl
        revert hl
        decide
      | cons c1 t1 =>
        rw [List.chain'_cons] at hc
        obtain ⟨⟨hm, hv⟩, -⟩ := hc
        simp only [DIRECTIONS, List.mem_cons, List.not_mem_nil, or_false] at hm
        have hs : exApp4b.start = (0, 0) := rfl
        rcases hm with hm | hm | hm | hm | hm | hm <;>
        · rw [Prod.mk.injEq] at hm
          have h1 : c1.1 = (0 : Int) + (c1.1 - exApp4b.start.1) := by
            rw [hs]
            omega
          have h2 : c1.2 = (0 : Int) + (c1.2 - exApp4b.start.2) := by
            rw [hs]
            omega
          rw [h1, h2, hm.1, hm.2] at hv
          revert hv
          decide

/-- C4 amended: every completed `dls` run reports exactly one of two
shapes: success `(True, found (len path))`, or the single failure
`(False, noPath limit, [])` — produced identically whether the depth limit
or genuine unreachability stopped the search.  No `DepthExceeded` report
distinct from `NoPath` exists. -/
theorem C4_single_failure_report :
    (∀ (s : App) (limit : Nat), (dls s limit).isSome = true) ∧
    (∀ (s : App) (limit : Nat),
      (dls s limit).map (fun r => r.1) = some false →
      (dls s limit).map (fun r => (r.2.1, r.2.2.1)) = some (DlsStatus.noPath limit, [])) ∧
    (∀ (s : App) (limit : Nat),
      (dls s limit).map (fun r => r.1) = some true →
      ∃ p : List (Int × Int),
        (dls s limit).map (fun r => (r.2.1, r.2.2.1)) = some (DlsStatus.found p.length, p)) := by
  refine ⟨dls_isSome, ?_, ?_⟩
  · intro s limit h
    have hs := (dls_total_aux limit (limit + 1)).1 (Node.mk s.start.1 s.start.2 ⟨0, 0⟩ none)
      0 [s.start] s (by omega) (by omega)
    obtain ⟨r, hopt⟩ := Option.isSome_iff_exists.mp hs
    obtain ⟨res, v, a⟩ := r
    unfold dls at h ⊢
    rw [hopt] at h ⊢
    cases res with
    | some r => simp at h
    | none => rfl
  · intro s limit h
    have hs := (dls_total_aux limit (limit + 1)).1 (Node.mk s.start.1 s.start.2 ⟨0, 0⟩ none)
      0 [s.start] s (by omega) (by omega)
    obtain ⟨r, hopt⟩ := Option.isSome_iff_exists.mp hs
    obtain ⟨res, v, a⟩ := r
    unfold dls at h ⊢
    rw [hopt] at h ⊢
    cases res with
    | some r => exact ⟨reconstruct_path r, rfl⟩
    | none => simp at h

/-- Witness for the amended C4 theorem: the failure-report clause applied
to the corridor grid with limit 1. -/
theorem C4_single_failure_report_witness :
    (dls exApp4a 1).map (fun r => (r.2.1, r.2.2.1)) = some (DlsStatus.noPath 1, []) :=
  C4_single_failure_report.2.1 exApp4a 1 (by decide)

/-! ## Grid-equality and parent-chain infrastructure -/

/-- Two states agree on the fields the movement relation reads (the run
overlays `frontier`, `explored` and the statistics may differ). -/
def GridEq (s t : App) : Prop :=
  t.gridVal = s.gridVal ∧ t.start = s.start ∧ t.target = s.target ∧
  t.dynamic_obstacles = s.dynamic_obstacles

theorem gridEq_refl (s : App) : GridEq s s := ⟨Eq.refl _, Eq.refl _, Eq.refl _, Eq.refl _⟩

/-- `is_valid` only reads the grid fields. -/
theorem is_valid_congr {s t : App} (h : GridEq s t) (row col : Int) :
    is_valid t row col = is_valid s row col := by
  unfold is_valid
  rw [h.1, h.2.2.2]

/-- `get_neighbors` is the same on grid-equal states. -/
theorem get_neighbors_gridEq {s t : App} (h : GridEq s t) (n : Node) :
    get_neighbors t n = get_neighbors s n :=
  get_neighbors_congr t s h.1 h.2.2.2 n

theorem GridEq.exploredAdd {s t : App} (h : GridEq s t) (c : Int × Int) :
    GridEq s (AIPathfinder.exploredAdd t c) := h

theorem GridEq.setFrontier {s t : App} (h : GridEq s t) (f : List (Int × Int)) :
    GridEq s { t with frontier := f } := h

/-- A parent chain of legal moves (w.r.t. the grid fields of `s`) rooted at
the cell `root`. -/
def ChainFrom (s : App) (root : Int × Int) : Node → Prop
  | .mk r c _ none => (r, c) = root
  | .mk r c _ (some p) => AdjStep s p.pos (r, c) ∧ ChainFrom s root p

/-- The root-to-node cell list is never empty. -/
theorem rootPath_ne_nil (n : Node) : n.rootPath ≠ [] := by
  induction n using Node.indOn with
  | base r c k => simp [Node.rootPath]
  | step r c k p ih => simp [Node.rootPath]

/-- The root-to-node cell list ends at the node's own cell. -/
theorem rootPath_getLast (n : Node) : n.rootPath.getLast? = some n.pos := by
  induction n using Node.indOn with
  | base r c k => rfl
  | step r c k p ih =>
    show (p.rootPath ++ [(r, c)]).getLast? = some (r, c)
    rw [List.getLast?_append]
    rfl

/-- The root-to-node cell list of a rooted chain begins at the root. -/
theorem rootPath_head {s : App} {root : Int × Int} :
    ∀ n : Node, ChainFrom s root n → n.rootPath.head? = some root := by
  intro n
  induction n using Node.indOn with
  | base r c k =>
    intro h
    have h' : (r, c) = root := h
    show some (r, c) = some root
    rw [h']
  | step r c k p ih =>
    intro h
    have h' : AdjStep s p.pos (r, c) ∧ ChainFrom s root p := h
    show (p.rootPath ++ [(r, c)]).head? = some root
    rw [List.head?_append_of_ne_nil _ (rootPath_ne_nil p)]
    exact ih h'.2

/-- The root-to-node cell list of a chain is a chain of legal moves. -/
theorem rootPath_chain {s : App} {root : Int × Int} :
    ∀ n : Node, ChainFrom s root n → n.rootPath.Chain' (AdjStep s) := by
  intro n
  induction n using Node.indOn with
  | base r c k => intro _; exact List.chain'_singleton _
  | step r c k p ih =>
    intro h
    have h' : AdjStep s p.pos (r, c) ∧ ChainFrom s root p := h
    show (p.rootPath ++ [(r, c)]).Chain' (AdjStep s)
    rw [List.chain'_append]
    refine ⟨ih h'.2, List.chain'_singleton _, ?_⟩
    intro x hx y hy
    rw [rootPath_getLast p] at hx
    simp only [Option.mem_def, Option.some.injEq] at hx
    simp only [List.head?_cons, Option.mem_def, Option.some.injEq] at hy
    subst hx
    subst hy
    exact h'.1

/-- A chain from the start whose node sits on the target reconstructs to a
traversable start-target path. -/
theorem chain_reconstruct_gridPath {s : App} {n : Node}
    (hc : ChainFrom s s.start n) (ht : n.pos = s.target) :
    GridPath s (reconstruct_path n) := by
  rw [reconstruct_path_eq_rootPath]
  refine ⟨rootPath_head n hc, ?_, rootPath_chain n hc⟩
  rw [rootPath_getLast n, ht]

/-- Extending a chain by a generated neighbor keeps it a chain. -/
theorem ChainFrom.neighbor {s t : App} {root : Int × Int} {n nb : Node}
    (hg : GridEq s t) (hc : ChainFrom s root n) (hnb : nb ∈ get_neighbors t n) :
    ChainFrom s root nb := by
  rw [mem_get_neighbors] at hnb
  obtain ⟨m, hm, hv, rfl⟩ := hnb
  refine ⟨⟨?_, ?_⟩, hc⟩
  · show (n.row + m.1 - n.pos.1, n.col + m.2 - n.pos.2) ∈ DIRECTIONS
    have e1 : n.row + m.1 - n.pos.1 = m.1 := by
      rw [Node.pos_fst]
      ring
    have e2 : n.col + m.2 - n.pos.2 = m.2 := by
      rw [Node.pos_snd]
      ring
    rw [e1, e2]
    exact hm
  · rw [← is_valid_congr hg]
    exact hv

/-- Any start-rooted path has at least two cells when start and target
differ. -/
theorem gridPath_two_le {s : App} {p : List (Int × Int)} (h : GridPath s p)
    (hne : s.start ≠ s.target) : 2 ≤ p.length := by
  obtain ⟨hh, hl, -⟩ := h
  cases p with
  | nil => simp at hh
  | cons c t =>
    cases t with
    | nil =>
      simp only [List.head?_cons, Option.some.injEq] at hh
      simp only [List.getLast?_singleton, Option.some.injEq] at hl
      exact absurd (hh ▸ hl ▸ rfl) hne
    | cons c1 t1 => simp

/-! ## Claim C5: IDDFS -/

/-- Invariant of the neighbor loop of `dls_recursive`, for any recursive
callee that preserves the grid fields and returns only start-rooted
on-target found nodes. -/
theorem dlsGo_spec (s : App)
    (recur : Node → Nat → List (Int × Int) → App →
      Option (Option Node × List (Int × Int) × App))
    (hrec : ∀ (node : Node) (depth : Nat) (visited : List (Int × Int)) (app : App)
        (r : Option Node) (v : List (Int × Int)) (a : App),
      GridEq s app → ChainFrom s s.start node →
      recur node depth visited app = some (r, v, a) →
      GridEq s a ∧ ∀ res, r = some res → ChainFrom s s.start res ∧ res.pos = s.target) :
    ∀ (l : List Node) (depth : Nat) (visited : List (Int × Int)) (app : App)
      (r : Option Node) (v : List (Int × Int)) (a : App),
      GridEq s app → (∀ nb ∈ l, ChainFrom s s.start nb) →
      dlsGo recur l depth visited app = some (r, v, a) →
      GridEq s a ∧ ∀ res, r = some res → ChainFrom s s.start res ∧ res.pos = s.target := by
  intro l
  induction l with
  | nil =>
    intro depth visited app r v a hg hcs heq
    simp only [dlsGo, Option.some.injEq, Prod.mk.injEq] at heq
    obtain ⟨h1, -, h3⟩ := heq
    subst h3
    refine ⟨hg, ?_⟩
    intro res hres
    rw [← h1] at hres
    cases hres
  | cons nb rest ihl =>
    intro depth visited app r v a hg hcs heq
    simp only [dlsGo] at heq
    by_cases hv : nb.pos ∈ visited
    · rw [if_pos hv] at heq
      exact ihl depth visited app r v a hg (fun x hx => hcs x (List.mem_cons_of_mem _ hx)) heq
    · rw [if_neg hv] at heq
      rcases hrc : recur nb (depth + 1) (nb.pos :: visited)
          { app with frontier := setAdd app.frontier nb.pos } with - | ⟨res1, v1, a1⟩
      · rw [hrc] at heq
        simp at heq
      · rw [hrc] at heq
        have hspec := hrec nb (depth + 1) (nb.pos :: visited)
          { app with frontier := setAdd app.frontier nb.pos } res1 v1 a1
          (hg.setFrontier _) (hcs nb (List.mem_cons_self _ _)) hrc
        cases res1 with
        | some rr =>
          simp only [Option.some.injEq, Prod.mk.injEq] at heq
          obtain ⟨h1, -, h3⟩ := heq
          subst h3
          refine ⟨hspec.1, ?_⟩
          intro res hres
          rw [← h1] at hres
          cases hres
          exact hspec.2 rr rfl
        | none =>
          exact ihl depth v1 { a1 with frontier := setRemove a1.frontier nb.pos } r v a
            (hspec.1.setFrontier _) (fun x hx => hcs x (List.mem_cons_of_mem _ hx)) heq

/-- Invariant of `dls_recursive`: grid fields preserved, found nodes are
start-rooted chains sitting on the target. -/
theorem dlsRec_spec (s : App) (limit : Nat) : ∀ (fuel : Nat) (node : Node) (depth : Nat)
    (visited : List (Int × Int)) (app : App) (r : Option Node) (v : List (Int × Int))
    (a : App),
    GridEq s app → ChainFrom s s.start node →
    dlsRec limit fuel node depth visited app = some (r, v, a) →
    GridEq s a ∧ ∀ res, r = some res → ChainFrom s s.start res ∧ res.pos = s.target := by
  intro fuel
  induction fuel with
  | zero =>
    intro node depth visited app r v a hg hc heq
    simp [dlsRec] at heq
  | succ n ih =>
    intro node depth visited app r v a hg hc heq
    simp only [dlsRec] at heq
    have hg1 : GridEq s (if node.pos ∈ app.explored then app
        else exploredAdd app node.pos) := by
      split
      · exact hg
      · exact hg.exploredAdd _
    generalize hA : (if node.pos ∈ app.explored then app
        else exploredAdd app node.pos) = app1 at heq hg1
    by_cases ht : node.pos = app1.target
    · rw [if_pos ht] at heq
      simp only [Option.some.injEq, Prod.mk.injEq] at heq
      obtain ⟨h1, -, h3⟩ := heq
      subst h3
      refine ⟨hg1, ?_⟩
      intro res hres
      rw [← h1] at hres
      cases hres
      refine ⟨hc, ?_⟩
      rw [ht, hg1.2.2.1]
    · rw [if_neg ht] at heq
      by_cases hd : limit ≤ depth
      · rw [if_pos hd] at heq
        simp only [Option.some.injEq, Prod.mk.injEq] at heq
        obtain ⟨h1, -, h3⟩ := heq
        subst h3
        refine ⟨hg1, ?_⟩
        intro res hres
        rw [← h1] at hres
        cases hres
      · rw [if_neg hd] at heq
        exact dlsGo_spec s (dlsRec limit n) ih (get_neighbors app1 node) depth visited app1
          r v a hg1 (fun nb hnb => ChainFrom.neighbor hg1 hc hnb) heq

/-- The start seed node is a chain from the start. -/
theorem chainFrom_seed (s : App) (k : Cost) :
    ChainFrom s s.start (Node.mk s.start.1 s.start.2 k none) := by
  show (s.start.1, s.start.2) = s.start
  rfl

/-- A completed `dls` run preserves the grid fields, and a successful one
returns a traversable start-target path. -/
theorem dls_gridEq_and_path (s : App) (limit : Nat) :
    ∀ r, dls s limit = some r →
      GridEq s r.2.2.2 ∧ (r.1 = true → GridPath s r.2.2.1) := by
  intro r heq
  unfold dls at heq
  rcases hrc : dlsRec limit (limit + 1) (Node.mk s.start.1 s.start.2 ⟨0, 0⟩ none)
      0 [s.start] s with - | ⟨res, v, a⟩
  · rw [hrc] at heq
    simp at heq
  · rw [hrc] at heq
    have hspec := dlsRec_spec s limit (limit + 1) _ 0 [s.start] s res v a
      (gridEq_refl s) (chainFrom_seed s ⟨0, 0⟩) hrc
    cases res with
    | some rr =>
      obtain ⟨hcr, hpos⟩ := hspec.2 rr rfl
      simp only [Option.some.injEq] at heq
      rw [← heq]
      exact ⟨hspec.1, fun _ => chain_reconstruct_gridPath hcr hpos⟩
    | none =>
      simp only [Option.some.injEq] at heq
      rw [← heq]
      refine ⟨hspec.1, ?_⟩
      intro hfalse
      cases hfalse

/-- `clear_path` depends only on the grid fields. -/
theorem clear_path_congr {s t : App} (h : GridEq s t) : clear_path t = clear_path s := by
  unfold clear_path
  rw [h.1, h.2.1, h.2.2.1]

/-- The IDDFS driver loop always completes. -/
theorem iddfsFrom_isSome : ∀ (remaining k : Nat) (s : App),
    (iddfsFrom s k remaining).isSome = true := by
  intro remaining
  induction remaining with
  | zero =>
    intro k s
    rfl
  | succ n ih =>
    intro k s
    simp only [iddfsFrom]
    obtain ⟨rr, hdls⟩ := Option.isSome_iff_exists.mp (dls_isSome (clear_path s) k)
    rw [hdls]
    obtain ⟨ok, st, p, a⟩ := rr
    cases ok
    · exact ih (k + 1) a
    · rfl

/-- Specification of the IDDFS driver loop from limit `k`: a success at
depth `K` means the inner DLS pass succeeded at `K` with that path and
failed at every earlier limit tried. -/
theorem iddfsFrom_spec (s0 : App) : ∀ (remaining k : Nat) (scur : App) (K : Nat)
    (p : List (Int × Int)) (a : App),
    clear_path scur = clear_path s0 →
    iddfsFrom scur k remaining = some (.foundAt K p, a) →
    k ≤ K ∧ K < k + remaining ∧
    (dls (clear_path s0) K).map (fun r => (r.1, r.2.2.1)) = some (true, p) ∧
    (∀ j, k ≤ j → j < K → (dls (clear_path s0) j).map (fun r => r.1) = some false) := by
  intro remaining
  induction remaining with
  | zero =>
    intro k scur K p a hcp heq
    simp [iddfsFrom] at heq
  | succ n ih =>
    intro k scur K p a hcp heq
    simp only [iddfsFrom] at heq
    rw [hcp] at heq
    obtain ⟨rr, hdls⟩ := Option.isSome_iff_exists.mp (dls_isSome (clear_path s0) k)
    rw [hdls] at heq
    obtain ⟨ok, st, pp, aa⟩ := rr
    cases ok with
    | true =>
      simp only [Option.some.injEq, Prod.mk.injEq, IddfsOutcome.foundAt.injEq] at heq
      obtain ⟨⟨hK, hp⟩, -⟩ := heq
      subst hK
      subst hp
      refine ⟨le_refl k, by omega, ?_, ?_⟩
      · rw [hdls]
        rfl
      · intro j hj1 hj2
        omega
    | false =>
      have hga := (dls_gridEq_and_path (clear_path s0) k (false, st, pp, aa) hdls).1
      have hcp2 : clear_path aa = clear_path s0 := by
        rw [clear_path_congr hga]
        rfl
      obtain ⟨h1, h2, h3, h4⟩ := ih (k + 1) aa K p a hcp2 heq
      refine ⟨by omega, by omega, h3, ?_⟩
      intro j hj1 hj2
      by_cases hjk : j = k
      · subst hjk
        rw [hdls]
        rfl
      · exact h4 j (by omega) hj2

/-- Concrete grid for the C5 counterexample: target adjacent to start,
everything else a wall.  The true shortest path is `[(0,0), (0,1)]` — path
length 2 (as the source counts path length, in cells). -/
def exApp5 : App :=
  { gridVal := fun c => if c = (0, 0) then 2 else if c = (0, 1) then 3 else 1,
    start := (0, 0), target := (0, 1),
    dynamic_obstacles := [], frontier := [], explored := [],
    nodes_explored := 0, dynamic_obstacles_spawned := 0 }

/-- C5 counterexample: on a grid whose true shortest path length is `d = 2`
(two cells, one hop), a completed IDDFS run terminates at depth-limit
iteration `1`, not at iteration `d = 2`: the winning depth-limit iteration
is the hop count of the found path, not its length in cells, so the claim's
`terminates at exactly depth-limit iteration d` is false as stated. -/
theorem C5_counterexample_iteration_ne_length :
    GridPath exApp5 [(0, 0), (0, 1)] ∧
    (∀ q, GridPath exApp5 q → 2 ≤ q.length) ∧
    (iddfs exApp5).map (fun r => r.1) = some (.foundAt 1 [(0, 0), (0, 1)]) ∧
    (1 : Nat) ≠ 2 := by
  refine ⟨by decide, ?_, by decide, by decide⟩
  intro q hq
  exact gridPath_two_le hq (by decide)

/-- C5 amended: a completed IDDFS run terminates at the **first** depth
limit at which the inner DLS pass succeeds and reports that winning depth
together with the found path; the depth-limit iteration number need not
equal the true shortest path length.  The found path is a traversable
start-target path of the (cleared) grid the run started from, so IDDFS
never returns a path shorter than the true shortest path. -/
theorem C5_iddfs_first_success :
    (∀ s : App, (iddfs s).isSome = true) ∧
    (∀ (s : App) (K : Nat) (p : List (Int × Int)) (a : App),
      iddfs s = some (.foundAt K p, a) →
      1 ≤ K ∧ K < 50 ∧
      (dls (clear_path s) K).map (fun r => (r.1, r.2.2.1)) = some (true, p) ∧
      (∀ j, 1 ≤ j → j < K → (dls (clear_path s) j).map (fun r => r.1) = some false) ∧
      GridPath (clear_path s) p ∧
      (∀ q, GridPath (clear_path s) q →
        (∀ q', GridPath (clear_path s) q' → q.length ≤ q'.length) →
        q.length ≤ p.length)) := by
  constructor
  · intro s
    exact iddfsFrom_isSome 49 1 s
  · intro s K p a heq
    obtain ⟨h1, h2, h3, h4⟩ := iddfsFrom_spec s 49 1 s K p a rfl heq
    have hpath : GridPath (clear_path s) p := by
      obtain ⟨rr, hdls⟩ := Option.isSome_iff_exists.mp (dls_isSome (clear_path s) K)
      rw [hdls] at h3
      simp only [Option.map_some', Option.some.injEq, Prod.mk.injEq] at h3
      have := (dls_gridEq_and_path (clear_path s) K rr hdls).2 h3.1
      rw [h3.2] at this
      exact this
    refine ⟨h1, by omega, h3, h4, hpath, ?_⟩
    intro q hq hmin
    exact hmin p hpath

/-- Witness for the amended C5 theorem: applied to the adjacent-target
grid, where IDDFS wins at depth-limit 1 with the 2-cell path. -/
theorem C5_iddfs_first_success_witness :
    1 ≤ 1 ∧ (1 : Nat) < 50 ∧
    (dls (clear_path exApp5) 1).map (fun r => (r.1, r.2.2.1)) =
      some (true, [(0, 0), (0, 1)]) ∧
    (∀ j, 1 ≤ j → j < 1 →
      (dls (clear_path exApp5) j).map (fun r => r.1) = some false) ∧
    GridPath (clear_path exApp5) [(0, 0), (0, 1)] ∧
    (∀ q, GridPath (clear_path exApp5) q →
      (∀ q', GridPath (clear_path exApp5) q' → q.length ≤ q'.length) →
      q.length ≤ ([(0, 0), (0, 1)] : List (Int × Int)).length) :=
  C5_iddfs_first_success.2 exApp5 1 [(0, 0), (0, 1)]
    { exApp5 with explored := [(0, 1), (0, 0)], frontier := [(0, 1)], nodes_explored := 2 }
    (by rfl)

/-! ## Claim C6: bidirectional search -/

/-- A well-formed discovered node of one search side: its parent chain is a
chain of legal moves rooted at the side's root, visits pairwise-distinct
cells, and every cell of the chain is a key of the side's visited map. -/
def SideNodeOK (s : App) (root : Int × Int) (vis : (Int × Int) → Option Node) (n : Node) :
    Prop :=
  ChainFrom s root n ∧ n.rootPath.Nodup ∧ ∀ c ∈ n.rootPath, vis c ≠ none

/-- Invariant of one side of the bidirectional search. -/
def SideInv (s : App) (root : Int × Int) (q : List Node)
    (vis : (Int × Int) → Option Node) : Prop :=
  (∀ n ∈ q, SideNodeOK s root vis n) ∧
  (∀ c n, vis c = some n → n.pos = c ∧ SideNodeOK s root vis n)

/-- A `SideNodeOK` node stays well-formed when the visited map gains
keys. -/
theorem SideNodeOK.mono {s : App} {root : Int × Int}
    {vis vis' : (Int × Int) → Option Node} {n : Node}
    (h : SideNodeOK s root vis n) (hext : ∀ c, vis c ≠ none → vis' c ≠ none) :
    SideNodeOK s root vis' n :=
  ⟨h.1, h.2.1, fun c hc => hext c (h.2.2 c hc)⟩

/-- The bidirectional neighbor-insertion fold preserves the side invariant,
only adds keys to the visited map, and touches no `App` field but the
frontier. -/
theorem biPush_fold (s : App) (root : Int × Int) (cur : Node) :
    ∀ (ns : List Node) (q : List Node) (vis : (Int × Int) → Option Node) (app : App),
      (∀ nb ∈ ns, ChainFrom s root nb ∧ nb.rootPath = cur.rootPath ++ [nb.pos]) →
      cur.rootPath.Nodup →
      (∀ c ∈ cur.rootPath, vis c ≠ none) →
      SideInv s root q vis →
      SideInv s root (ns.foldl biPush (q, vis, app)).1 (ns.foldl biPush (q, vis, app)).2.1 ∧
      (∀ c, vis c ≠ none → (ns.foldl biPush (q, vis, app)).2.1 c = vis c) ∧
      (ns.foldl biPush (q, vis, app)).2.2.gridVal = app.gridVal ∧
      (ns.foldl biPush (q, vis, app)).2.2.start = app.start ∧
      (ns.foldl biPush (q, vis, app)).2.2.target = app.target ∧
      (ns.foldl biPush (q, vis, app)).2.2.dynamic_obstacles = app.dynamic_obstacles ∧
      (ns.foldl biPush (q, vis, app)).2.2.explored = app.explored := by
  intro ns
  induction ns with
  | nil =>
    intro q vis app hns hnd hkeys hinv
    exact ⟨hinv, fun c _ => rfl, rfl, rfl, rfl, rfl, rfl⟩
  | cons nb t ih =>
    intro q vis app hns hnd hkeys hinv
    rcases hv : vis nb.pos with - | vn
    · have hstep : biPush (q, vis, app) nb =
          (q ++ [nb], fun x => if x = nb.pos then some nb else vis x,
            { app with frontier := setAdd app.frontier nb.pos }) := by
        simp only [biPush, hv]
      rw [List.foldl_cons, hstep]
      have hext : ∀ c, vis c ≠ none →
          (fun x => if x = nb.pos then some nb else vis x) c ≠ none := by
        intro c hc
        by_cases hce : c = nb.pos
        · simp [hce]
        · simpa [hce] using hc
      have hvis1 : ∀ c, vis c ≠ none →
          (fun x => if x = nb.pos then some nb else vis x) c = vis c := by
        intro c hc
        by_cases hce : c = nb.pos
        · rw [hce] at hc
          exact absurd hv hc
        · simp [hce]
      have hnbOK : SideNodeOK s root (fun x => if x = nb.pos then some nb else vis x) nb := by
        obtain ⟨hcf, hrp⟩ := hns nb (List.mem_cons_self _ _)
        refine ⟨hcf, ?_, ?_⟩
        · rw [hrp, List.nodup_append]
          refine ⟨hnd, List.nodup_singleton _, ?_⟩
          intro x hx hx'
          simp only [List.mem_singleton] at hx'
          subst hx'
          exact hkeys _ hx hv
        · intro c hc
          rw [hrp, List.mem_append] at hc
          rcases hc with hc | hc
          · exact hext c (hkeys c hc)
          · simp only [List.mem_singleton] at hc
            subst hc
            simp
      have hinv1 : SideInv s root (q ++ [nb])
          (fun x => if x = nb.pos then some nb else vis x) := by
        constructor
        · intro n hn
          rw [List.mem_append] at hn
          rcases hn with hn | hn
          · exact (hinv.1 n hn).mono hext
          · simp only [List.mem_singleton] at hn
            subst hn
            exact hnbOK
        · intro c n hc
          by_cases hce : c = nb.pos
          · subst hce
            have hc' : some nb = some n := by simpa using hc
            obtain rfl := Option.some.inj hc'
            exact ⟨rfl, hnbOK⟩
          · simp only [hce, if_false] at hc
            obtain ⟨h1, h2⟩ := hinv.2 c n hc
            exact ⟨h1, h2.mono hext⟩
      obtain ⟨ih1, ih2, ih3⟩ := ih (q ++ [nb]) (fun x => if x = nb.pos then some nb else vis x)
        { app with frontier := setAdd app.frontier nb.pos }
        (fun x hx => hns x (List.mem_cons_of_mem _ hx)) hnd
        (fun c hc => hext c (hkeys c hc)) hinv1
      refine ⟨ih1, ?_, ih3⟩
      intro c hc
      rw [ih2 c (hext c hc)]
      exact hvis1 c hc
    · have hstep : biPush (q, vis, app) nb = (q, vis, app) := by
        simp only [biPush, hv]
      rw [List.foldl_cons, hstep]
      exact ih q vis app (fun x hx => hns x (List.mem_cons_of_mem _ hx)) hnd hkeys hinv

/-- The forward expansion block, when it does not meet, preserves the
forward side invariant, the grid fields, and the existing visited keys. -/
theorem forwardPhase_go {s0 : App} {root : Int × Int} {q : List Node}
    {fvis bvis : (Int × Int) → Option Node} {app : App} {fq : List Node}
    {fvis' : (Int × Int) → Option Node} {app' : App}
    (hg : GridEq s0 app) (hinv : SideInv s0 root q fvis)
    (h : forwardPhase q fvis bvis app = .go fq fvis' app') :
    SideInv s0 root fq fvis' ∧ GridEq s0 app' ∧
      ∀ c, fvis c ≠ none → fvis' c = fvis c := by
  cases q with
  | nil =>
    injection h with h1 h2 h3
    subst h1; subst h2; subst h3
    exact ⟨hinv, hg, fun c _ => rfl⟩
  | cons cur rest =>
    simp only [forwardPhase] at h
    cases hbv : bvis cur.pos with
    | some bnode =>
      rw [hbv] at h
      injection h
    | none =>
      rw [hbv] at h
      injection h with h1 h2 h3
      subst h1; subst h2; subst h3
      have hcur : SideNodeOK s0 root fvis cur := hinv.1 cur (List.mem_cons_self _ _)
      have hrest : SideInv s0 root rest fvis :=
        ⟨fun n hn => hinv.1 n (List.mem_cons_of_mem _ hn), hinv.2⟩
      have hns : ∀ nb ∈ get_neighbors (exploredAdd app cur.pos) cur,
          ChainFrom s0 root nb ∧ nb.rootPath = cur.rootPath ++ [nb.pos] := by
        intro nb hnb
        refine ⟨ChainFrom.neighbor (GridEq.exploredAdd hg cur.pos) hcur.1 hnb, ?_⟩
        rw [mem_get_neighbors] at hnb
        obtain ⟨m, hm, hv, rfl⟩ := hnb
        rfl
      have hfold := biPush_fold s0 root cur (get_neighbors (exploredAdd app cur.pos) cur)
        rest fvis (exploredAdd app cur.pos) hns hcur.2.1 hcur.2.2 hrest
      exact ⟨hfold.1,
        ⟨hfold.2.2.1.trans hg.1, hfold.2.2.2.1.trans hg.2.1,
          hfold.2.2.2.2.1.trans hg.2.2.1, hfold.2.2.2.2.2.1.trans hg.2.2.2⟩,
        hfold.2.1⟩

/-- The backward expansion block, when it does not meet, preserves the
backward side invariant, the grid fields, and the existing visited keys. -/
theorem backwardPhase_go {s0 : App} {root : Int × Int} {q : List Node}
    {bvis fvis : (Int × Int) → Option Node} {app : App} {bq : List Node}
    {bvis' : (Int × Int) → Option Node} {app' : App}
    (hg : GridEq s0 app) (hinv : SideInv s0 root q bvis)
    (h : backwardPhase q bvis fvis app = .go bq bvis' app') :
    SideInv s0 root bq bvis' ∧ GridEq s0 app' ∧
      ∀ c, bvis c ≠ none → bvis' c = bvis c := by
  cases q with
  | nil =>
    injection h with h1 h2 h3
    subst h1; subst h2; subst h3
    exact ⟨hinv, hg, fun c _ => rfl⟩
  | cons cur rest =>
    simp only [backwardPhase] at h
    cases hfv : fvis cur.pos with
    | some fnode =>
      rw [hfv] at h
      injection h
    | none =>
      rw [hfv] at h
      injection h with h1 h2 h3
      subst h1; subst h2; subst h3
      have hcur : SideNodeOK s0 root bvis cur := hinv.1 cur (List.mem_cons_self _ _)
      have hrest : SideInv s0 root rest bvis :=
        ⟨fun n hn => hinv.1 n (List.mem_cons_of_mem _ hn), hinv.2⟩
      have hns : ∀ nb ∈ get_neighbors (exploredAdd app cur.pos) cur,
          ChainFrom s0 root nb ∧ nb.rootPath = cur.rootPath ++ [nb.pos] := by
        intro nb hnb
        refine ⟨ChainFrom.neighbor (GridEq.exploredAdd hg cur.pos) hcur.1 hnb, ?_⟩
        rw [mem_get_neighbors] at hnb
        obtain ⟨m, hm, hv, rfl⟩ := hnb
        rfl
      have hfold := biPush_fold s0 root cur (get_neighbors (exploredAdd app cur.pos) cur)
        rest bvis (exploredAdd app cur.pos) hns hcur.2.1 hcur.2.2 hrest
      exact ⟨hfold.1,
        ⟨hfold.2.2.1.trans hg.1, hfold.2.2.2.1.trans hg.2.1,
          hfold.2.2.2.2.1.trans hg.2.2.1, hfold.2.2.2.2.2.1.trans hg.2.2.2⟩,
        hfold.2.1⟩

/-- When the forward block meets, the popped node and the matching node of
the backward visited map are well-formed chains from their roots meeting at
the same cell, and the returned path is the forward root path followed by
the backward root path reversed without its first cell. -/
theorem forwardPhase_met {s0 : App} {rootF rootB : Int × Int} {q : List Node}
    {fvis bvis : (Int × Int) → Option Node} {app : App} {p : List (Int × Int)}
    {app' : App}
    (hinvF : SideInv s0 rootF q fvis)
    (hinvB : ∀ c n, bvis c = some n → n.pos = c ∧ SideNodeOK s0 rootB bvis n)
    (h : forwardPhase q fvis bvis app = .met p app') :
    ∃ f b : Node, ChainFrom s0 rootF f ∧ f.rootPath.Nodup ∧
      ChainFrom s0 rootB b ∧ b.rootPath.Nodup ∧ b.pos = f.pos ∧
      p = f.rootPath ++ b.rootPath.reverse.tail := by
  cases q with
  | nil => injection h
  | cons cur rest =>
    simp only [forwardPhase] at h
    cases hbv : bvis cur.pos with
    | none =>
      rw [hbv] at h
      injection h
    | some bnode =>
      rw [hbv] at h
      injection h with hp happ
      obtain ⟨hbpos, hbOK⟩ := hinvB _ _ hbv
      have hcur : SideNodeOK s0 rootF fvis cur := hinvF.1 cur (List.mem_cons_self _ _)
      refine ⟨cur, bnode, hcur.1, hcur.2.1, hbOK.1, hbOK.2.1, hbpos, ?_⟩
      rw [← hp, reconstruct_path_eq_rootPath, reconstruct_path_eq_rootPath]

/-- When the backward block meets, the matching node of the forward visited
map and the popped node are well-formed chains from their roots meeting at
the same cell, and the returned path has the same forward-then-reversed
shape. -/
theorem backwardPhase_met {s0 : App} {rootF rootB : Int × Int} {q : List Node}
    {bvis fvis : (Int × Int) → Option Node} {app : App} {p : List (Int × Int)}
    {app' : App}
    (hinvB : SideInv s0 rootB q bvis)
    (hinvF : ∀ c n, fvis c = some n → n.pos = c ∧ SideNodeOK s0 rootF fvis n)
    (h : backwardPhase q bvis fvis app = .met p app') :
    ∃ f b : Node, ChainFrom s0 rootF f ∧ f.rootPath.Nodup ∧
      ChainFrom s0 rootB b ∧ b.rootPath.Nodup ∧ b.pos = f.pos ∧
      p = f.rootPath ++ b.rootPath.reverse.tail := by
  cases q with
  | nil => injection h
  | cons cur rest =>
    simp only [backwardPhase] at h
    cases hfv : fvis cur.pos with
    | none =>
      rw [hfv] at h
      injection h
    | some fnode =>
      rw [hfv] at h
      injection h with hp happ
      obtain ⟨hfpos, hfOK⟩ := hinvF _ _ hfv
      have hcur : SideNodeOK s0 rootB bvis cur := hinvB.1 cur (List.mem_cons_self _ _)
      refine ⟨fnode, cur, hfOK.1, hfOK.2.1, hcur.1, hcur.2.1, hfpos.symm, ?_⟩
      rw [← hp, reconstruct_path_eq_rootPath, reconstruct_path_eq_rootPath]

/-- In a duplicate-free list, a member is counted exactly once. -/
theorem count_one_of_nodup_mem {α : Type} [BEq α] [LawfulBEq α] {a : α} :
    ∀ {l : List α}, l.Nodup → a ∈ l → l.count a = 1 := by
  intro l
  induction l with
  | nil => intro _ hm; exact absurd hm (List.not_mem_nil a)
  | cons x t ih =>
    intro hnd hm
    rw [List.nodup_cons] at hnd
    rw [List.count_cons]
    rcases List.mem_cons.mp hm with hax | hat
    · subst hax
      rw [List.count_eq_zero.mpr hnd.1, if_pos (beq_self_eq_true a)]
    · have hxa : (x == a) = false := by
        rw [beq_eq_false_iff_ne]
        intro hxa
        subst hxa
        exact hnd.1 hat
      rw [ih hnd.2 hat, hxa]
      rfl

/-- Shape of a met path: joining a forward chain to a reversed backward
chain that meets it yields a path starting at the forward root, ending at
the backward root, split at the meeting cell, which appears exactly once. -/
theorem met_path_shape {s0 : App} {rootF rootB : Int × Int} {f b : Node}
    (hcf : ChainFrom s0 rootF f) (hndf : f.rootPath.Nodup)
    (hcb : ChainFrom s0 rootB b) (hndb : b.rootPath.Nodup)
    (hpos : b.pos = f.pos) :
    ∃ m fpart bpart,
      f.rootPath ++ b.rootPath.reverse.tail = fpart ++ bpart ∧
      fpart.head? = some rootF ∧ fpart.getLast? = some m ∧ m ∉ bpart ∧
      (f.rootPath ++ b.rootPath.reverse.tail).count m = 1 ∧
      (f.rootPath ++ b.rootPath.reverse.tail).getLast? = some rootB := by
  have hmem : f.pos ∈ f.rootPath := List.mem_of_mem_getLast? (rootPath_getLast f)
  have hnotin : f.pos ∉ b.rootPath.reverse.tail := by
    cases b with
    | mk r c k pr =>
      cases pr with
      | none =>
        intro hx
        have hx' : f.pos ∈ (([(r, c)] : List (Int × Int)).reverse).tail := hx
        simp at hx'
      | some pp =>
        intro hx
        have hx' : f.pos ∈ ((pp.rootPath ++ [(r, c)]).reverse).tail := hx
        rw [List.reverse_append] at hx'
        have hx'' : f.pos ∈ pp.rootPath.reverse := hx'
        rw [List.mem_reverse] at hx''
        have hfp : f.pos = (r, c) := by rw [← hpos]; rfl
        have hnd' : (pp.rootPath ++ [(r, c)]).Nodup := hndb
        rw [List.nodup_append] at hnd'
        rw [hfp] at hx''
        exact hnd'.2.2 hx'' (by simp)
  refine ⟨f.pos, f.rootPath, b.rootPath.reverse.tail, rfl, rootPath_head f hcf,
    rootPath_getLast f, hnotin, ?_, ?_⟩
  · rw [List.count_append, count_one_of_nodup_mem hndf hmem,
      List.count_eq_zero.mpr hnotin]
  · cases b with
    | mk r c k pr =>
      cases pr with
      | none =>
        have ht : ((Node.mk r c k none).rootPath.reverse).tail = [] := rfl
        rw [ht, List.append_nil, rootPath_getLast]
        have hfp : f.pos = (r, c) := by rw [← hpos]; rfl
        have hr : (r, c) = rootB := hcb
        rw [hfp, hr]
      | some pp =>
        have hcb' : AdjStep s0 pp.pos (r, c) ∧ ChainFrom s0 rootB pp := hcb
        have ht : ((Node.mk r c k (some pp)).rootPath.reverse).tail =
            pp.rootPath.reverse := by
          show ((pp.rootPath ++ [(r, c)]).reverse).tail = pp.rootPath.reverse
          rw [List.reverse_append]
          rfl
        rw [ht, List.getLast?_append_of_ne_nil _ (by simpa using rootPath_ne_nil pp),
          List.getLast?_reverse]
        exact rootPath_head pp hcb'.2

/-- Invariant carried across rounds of the bidirectional loop: the working
state agrees with the reference grid and each side's queue and visited map
hold well-formed chains from that side's root. -/
def BiInv (s0 : App) (st : BiState) : Prop :=
  GridEq s0 st.app ∧
  SideInv s0 s0.start st.forward_queue st.forward_visited ∧
  SideInv s0 s0.target st.backward_queue st.backward_visited

/-- Any found path of the bidirectional loop, from an invariant state,
splits at a meeting cell: start-rooted front part ending at the meeting
cell, which is absent from the rest, appears exactly once in the whole
path, and the path ends at the target. -/
theorem biRun_met {s0 : App} :
    ∀ (fuel : Nat) (st : BiState), BiInv s0 st →
      ∀ (p : List (Int × Int)) (app' : App),
        biRun fuel st = some (.found p, app') →
        ∃ m fpart bpart, p = fpart ++ bpart ∧ fpart.head? = some s0.start ∧
          fpart.getLast? = some m ∧ m ∉ bpart ∧ p.count m = 1 ∧
          p.getLast? = some s0.target := by
  intro fuel
  induction fuel with
  | zero =>
    intro st _ p app' h
    exact Option.noConfusion h
  | succ n ih =>
    intro st hinv p app' h
    simp only [biRun] at h
    by_cases hq : st.forward_queue.isEmpty || st.backward_queue.isEmpty
    · rw [if_pos hq] at h
      injection h with h'
      injection h' with h1 h2
      injection h1
    · rw [if_neg hq] at h
      cases hf : forwardPhase st.forward_queue st.forward_visited st.backward_visited
          st.app with
      | met pm appm =>
        rw [hf] at h
        injection h with h'
        injection h' with h1 h2
        injection h1 with hp
        subst hp
        obtain ⟨f, b, hcf, hndf, hcb, hndb, hbpos, hpe⟩ :=
          forwardPhase_met hinv.2.1 hinv.2.2.2 hf
        rw [hpe]
        exact met_path_shape hcf hndf hcb hndb hbpos
      | go fq fvis' appf =>
        rw [hf] at h
        have h2 : (match backwardPhase st.backward_queue st.backward_visited fvis' appf with
            | PhaseRes.met pm appm => some (SearchOutcome.found pm, appm)
            | PhaseRes.go bq bvis appb => biRun n ⟨fq, fvis', bq, bvis, appb⟩) =
            some (SearchOutcome.found p, app') := h
        obtain ⟨hFinv, hFg, hFext⟩ := forwardPhase_go hinv.1 hinv.2.1 hf
        cases hb : backwardPhase st.backward_queue st.backward_visited fvis' appf with
        | met pm appm =>
          rw [hb] at h2
          injection h2 with h'
          injection h' with h1 h3
          injection h1 with hp
          subst hp
          obtain ⟨f, b, hcf, hndf, hcb, hndb, hbpos, hpe⟩ :=
            backwardPhase_met hinv.2.2 hFinv.2 hb
          rw [hpe]
          exact met_path_shape hcf hndf hcb hndb hbpos
        | go bq bvis' appb =>
          rw [hb] at h2
          obtain ⟨hBinv, hBg, hBext⟩ := backwardPhase_go hFg hinv.2.2 hb
          exact ih ⟨fq, fvis', bq, bvis', appb⟩ ⟨hBg, hFinv, hBinv⟩ p app' h2

/-- One side's initial queue and visited map satisfy the side invariant. -/
theorem sideInit_inv (s0 : App) (r0 : Int × Int) :
    SideInv s0 r0 [Node.mk r0.1 r0.2 ⟨0, 0⟩ none]
      (fun c => if c = r0 then some (Node.mk r0.1 r0.2 ⟨0, 0⟩ none) else none) := by
  have hOK : SideNodeOK s0 r0
      (fun c => if c = r0 then some (Node.mk r0.1 r0.2 ⟨0, 0⟩ none) else none)
      (Node.mk r0.1 r0.2 ⟨0, 0⟩ none) := by
    refine ⟨Prod.mk.eta, List.nodup_singleton _, ?_⟩
    intro c hc
    have hc' : c ∈ [(r0.1, r0.2)] := hc
    simp only [List.mem_singleton] at hc'
    subst hc'
    have he : ((r0.1, r0.2) : Int × Int) = r0 := Prod.mk.eta
    show (if ((r0.1, r0.2) : Int × Int) = r0 then some (Node.mk r0.1 r0.2 ⟨0, 0⟩ none)
      else none) ≠ none
    rw [if_pos he]
    exact Option.some_ne_none _
  constructor
  · intro n hn
    simp only [List.mem_singleton] at hn
    subst hn
    exact hOK
  · intro c n hc
    have hc' : (if c = r0 then some (Node.mk r0.1 r0.2 ⟨0, 0⟩ none) else none) = some n := hc
    by_cases hce : c = r0
    · rw [if_pos hce] at hc'
      obtain rfl := Option.some.inj hc'
      refine ⟨?_, hOK⟩
      show ((r0.1, r0.2) : Int × Int) = c
      rw [hce]
    · rw [if_neg hce] at hc'
      exact Option.noConfusion hc'

/-- The entry state of the bidirectional loop satisfies the invariant. -/
theorem biInit_inv (s0 : App) :
    BiInv s0
      ⟨[Node.mk s0.start.1 s0.start.2 ⟨0, 0⟩ none],
        (fun c => if c = s0.start then some (Node.mk s0.start.1 s0.start.2 ⟨0, 0⟩ none)
          else none),
        [Node.mk s0.target.1 s0.target.2 ⟨0, 0⟩ none],
        (fun c => if c = s0.target then some (Node.mk s0.target.1 s0.target.2 ⟨0, 0⟩ none)
          else none),
        s0⟩ :=
  ⟨gridEq_refl s0, sideInit_inv s0 s0.start, sideInit_inv s0 s0.target⟩

/-- C6: in `bidirectional_search`, the meet test runs immediately after a
side pops a node and before that side inserts any neighbor, by checking the
popped cell against the opposite side's visited map: whenever that lookup
hits, the phase returns at once with the popped cell merely marked explored
(no queue, visited-map or frontier insertion) and the joined path
`forward_path ++ backward_path[::-1][1:]`; and every path a completed run
returns splits as a start-rooted forward part ending at a meeting cell,
followed by the reversed backward part which avoids that cell, so the
shared meeting cell appears exactly once, with the whole path running from
start to target. -/
theorem C6_bidirectional_meet_once (s : App) (fuel : Nat) :
    (∀ (cur : Node) (rest : List Node) (fvis bvis : (Int × Int) → Option Node)
        (app : App) (bnode : Node), bvis cur.pos = some bnode →
        forwardPhase (cur :: rest) fvis bvis app =
          .met (reconstruct_path cur ++ ((reconstruct_path bnode).reverse).tail)
            (exploredAdd app cur.pos)) ∧
    (∀ (cur : Node) (rest : List Node) (bvis fvis : (Int × Int) → Option Node)
        (app : App) (fnode : Node), fvis cur.pos = some fnode →
        backwardPhase (cur :: rest) bvis fvis app =
          .met (reconstruct_path fnode ++ ((reconstruct_path cur).reverse).tail)
            (exploredAdd app cur.pos)) ∧
    (∀ (p : List (Int × Int)) (app' : App),
        bidirectional_search s fuel = some (.found p, app') →
        ∃ m fpart bpart, p = fpart ++ bpart ∧ fpart.head? = some s.start ∧
          fpart.getLast? = some m ∧ m ∉ bpart ∧ p.count m = 1 ∧
          p.getLast? = some s.target) := by
  refine ⟨?_, ?_, ?_⟩
  · intro cur rest fvis bvis app bnode hbv
    simp only [forwardPhase]
    rw [hbv]
  · intro cur rest bvis fvis app fnode hfv
    simp only [backwardPhase]
    rw [hfv]
  · intro p app' h
    have h' : biRun fuel
        ⟨[Node.mk (clear_path s).start.1 (clear_path s).start.2 ⟨0, 0⟩ none],
          (fun c => if c = (clear_path s).start
            then some (Node.mk (clear_path s).start.1 (clear_path s).start.2 ⟨0, 0⟩ none)
            else none),
          [Node.mk (clear_path s).target.1 (clear_path s).target.2 ⟨0, 0⟩ none],
          (fun c => if c = (clear_path s).target
            then some (Node.mk (clear_path s).target.1 (clear_path s).target.2 ⟨0, 0⟩ none)
            else none),
          clear_path s⟩ = some (.found p, app') := h
    exact biRun_met fuel _ (biInit_inv (clear_path s)) p app' h'

/-- C6 example: a three-cell corridor on which the bidirectional run meets
in the middle after one round of each side. -/
def exApp6 : App :=
  { gridVal := fun c =>
      if c = (0, 0) then 2 else if c = (0, 1) then 0 else if c = (0, 2) then 3 else 1,
    start := (0, 0), target := (0, 2),
    dynamic_obstacles := [], frontier := [], explored := [],
    nodes_explored := 0, dynamic_obstacles_spawned := 0 }

/-- Forward root node of the corridor example. -/
def n6f0 : Node := Node.mk 0 0 ⟨0, 0⟩ none

/-- Forward node discovered at the middle cell. -/
def n6f1 : Node := Node.mk 0 1 ⟨1, 0⟩ (some n6f0)

/-- Backward root node of the corridor example. -/
def n6b0 : Node := Node.mk 0 2 ⟨0, 0⟩ none

/-- Backward node discovered at the middle cell. -/
def n6b1 : Node := Node.mk 0 1 ⟨1, 0⟩ (some n6b0)

/-- Forward visited map after the forward side's first expansion. -/
def fvis6 : (Int × Int) → Option Node := fun c =>
  if c = (0, 0) then some n6f0 else if c = (0, 1) then some n6f1 else none

/-- Backward visited map after the backward side's first expansion. -/
def bvis6 : (Int × Int) → Option Node := fun c =>
  if c = (0, 2) then some n6b0 else if c = (0, 1) then some n6b1 else none

/-- Final state of the corridor run: three cells explored, the middle cell
frontiered. -/
def exApp6Final : App :=
  { exApp6 with
      explored := [(0, 1), (0, 2), (0, 0)], frontier := [(0, 1)], nodes_explored := 3 }

theorem C6_bidirectional_meet_once_witness :
    forwardPhase [n6f1] fvis6 bvis6 exApp6 =
      .met (reconstruct_path n6f1 ++ ((reconstruct_path n6b1).reverse).tail)
        (exploredAdd exApp6 n6f1.pos) ∧
    backwardPhase [n6b1] bvis6 fvis6 exApp6 =
      .met (reconstruct_path n6f1 ++ ((reconstruct_path n6b1).reverse).tail)
        (exploredAdd exApp6 n6b1.pos) ∧
    (∃ m fpart bpart, ([(0, 0), (0, 1), (0, 2)] : List (Int × Int)) = fpart ++ bpart ∧
      fpart.head? = some exApp6.start ∧ fpart.getLast? = some m ∧ m ∉ bpart ∧
      ([(0, 0), (0, 1), (0, 2)] : List (Int × Int)).count m = 1 ∧
      ([(0, 0), (0, 1), (0, 2)] : List (Int × Int)).getLast? = some exApp6.target) :=
  ⟨(C6_bidirectional_meet_once exApp6 4).1 n6f1 [] fvis6 bvis6 exApp6 n6b1 (by rfl),
   (C6_bidirectional_meet_once exApp6 4).2.1 n6b1 [] bvis6 fvis6 exApp6 n6f1 (by rfl),
   (C6_bidirectional_meet_once exApp6 4).2.2 [(0, 0), (0, 1), (0, 2)] exApp6Final (by rfl)⟩

/-! ## Claim C1: BFS finds a shortest path (by hop count) -/

/-- A traversable cell is inside the grid bounds. -/
theorem is_valid_bounds {s : App} {r c : Int} (h : is_valid s r c = true) :
    0 ≤ r ∧ r < GRID_SIZE ∧ 0 ≤ c ∧ c < GRID_SIZE := by
  unfold is_valid at h
  split at h
  · simp at h
  · rename_i hcond
    simp only [Bool.or_eq_true, decide_eq_true_eq, not_or] at hcond
    unfold GRID_SIZE at hcond ⊢
    omega

/-- Every legal move out of a node's cell is realised by a generated
neighbor: `get_neighbors` covers the movement relation. -/
theorem adjStep_covered {s t : App} (hg : GridEq s t) (n : Node) (z : Int × Int)
    (h : AdjStep s n.pos z) : ∃ nb ∈ get_neighbors t n, nb.pos = z := by
  obtain ⟨hm, hv⟩ := h
  have e1 : n.row + (z.1 - n.pos.1) = z.1 := by rw [Node.pos_fst]; ring
  have e2 : n.col + (z.2 - n.pos.2) = z.2 := by rw [Node.pos_snd]; ring
  refine ⟨Node.mk (n.row + (z.1 - n.pos.1)) (n.col + (z.2 - n.pos.2))
      (n.cost.add (if (z.1 - n.pos.1).natAbs + (z.2 - n.pos.2).natAbs == 2
        then ⟨0, 1⟩ else ⟨1, 0⟩)) (some n), ?_, ?_⟩
  · rw [mem_get_neighbors]
    refine ⟨(z.1 - n.pos.1, z.2 - n.pos.2), hm, ?_, rfl⟩
    rw [e1, e2, is_valid_congr hg]
    exact hv
  · show (n.row + (z.1 - n.pos.1), n.col + (z.2 - n.pos.2)) = z
    rw [e1, e2]

/-- A start-rooted walk: nonempty cell list beginning at the start whose
consecutive cells are legal moves. -/
def SChain (s : App) (p : List (Int × Int)) : Prop :=
  p.head? = some s.start ∧ p.Chain' (AdjStep s)

/-- Parent chains have at least one node. -/
theorem chainLen_pos (n : Node) : 1 ≤ n.chainLen := by
  cases n with
  | mk r c k pr =>
    cases pr with
    | none => exact Nat.le_refl 1
    | some p =>
      show 1 ≤ p.chainLen + 1
      omega

/-- If the visited set is contained in the explored set and the explored
set is closed under legal moves, every start-rooted walk stays inside the
visited set. -/
theorem chain_all_visited {s0 : App} {V E : List (Int × Int)}
    (hVE : ∀ c ∈ V, c ∈ E)
    (hclosed : ∀ c ∈ E, ∀ z, AdjStep s0 c z → z ∈ V) :
    ∀ (p : List (Int × Int)) (x : Int × Int), p.head? = some x → x ∈ V →
      p.Chain' (AdjStep s0) → ∀ c ∈ p, c ∈ V := by
  intro p
  induction p with
  | nil => intro x _ _ _ c hc; exact absurd hc (List.not_mem_nil c)
  | cons a t ih =>
    intro x hh hx hch c hc
    simp only [List.head?_cons, Option.some.injEq] at hh
    subst hh
    rcases List.mem_cons.mp hc with rfl | hct
    · exact hx
    · cases t with
      | nil => exact absurd hct (List.not_mem_nil c)
      | cons b t' =>
        rw [List.chain'_cons] at hch
        have hb : b ∈ V := hclosed a (hVE a hx) b hch.1
        exact ih b (by simp) hb hch.2 c hct

/-- Peeling the last cell off a start-rooted walk of at least two cells
leaves a start-rooted walk whose last cell steps to the removed one. -/
theorem schain_dropLast {s0 : App} {p : List (Int × Int)} {z : Int × Int}
    (hs : SChain s0 p) (hl : p.getLast? = some z) (hlen : 2 ≤ p.length) :
    SChain s0 p.dropLast ∧
      ∃ y, p.dropLast.getLast? = some y ∧ AdjStep s0 y z := by
  have hne : p ≠ [] := by
    intro hn
    rw [hn] at hl
    exact Option.noConfusion hl
  have hze : p.getLast hne = z := by
    have hgl := List.getLast?_eq_getLast p hne
    rw [hgl] at hl
    exact Option.some.inj hl
  have hpe : p.dropLast ++ [z] = p := by
    rw [← hze]
    exact List.dropLast_append_getLast hne
  have hdlen : p.dropLast.length = p.length - 1 := List.length_dropLast p
  have hdne : p.dropLast ≠ [] := by
    intro hn
    rw [hn] at hdlen
    simp at hdlen
    omega
  have hch : (p.dropLast ++ [z]).Chain' (AdjStep s0) := by
    rw [hpe]
    exact hs.2
  rw [List.chain'_append] at hch
  have hh : p.dropLast.head? = some s0.start := by
    have hh1 : (p.dropLast ++ [z]).head? = some s0.start := by
      rw [hpe]
      exact hs.1
    rw [List.head?_append_of_ne_nil _ hdne] at hh1
    exact hh1
  have hy : p.dropLast.getLast? = some (p.dropLast.getLast hdne) :=
    List.getLast?_eq_getLast _ hdne
  refine ⟨⟨hh, hch.1⟩, p.dropLast.getLast hdne, hy, ?_⟩
  exact hch.2.2 _ hy _ rfl

/-- A duplicate-free visited list whose cells are the start or in-bounds
cells has at most `626 = 25 * 25 + 1` entries. -/
theorem visited_card_le {s0 : App} {V : List (Int × Int)} (hnd : V.Nodup)
    (hb : ∀ c ∈ V, c = s0.start ∨
      (0 ≤ c.1 ∧ c.1 < GRID_SIZE ∧ 0 ≤ c.2 ∧ c.2 < GRID_SIZE)) :
    V.length ≤ 626 := by
  have hsub : V.toFinset ⊆
      insert s0.start ((Finset.Icc (0 : Int) 24) ×ˢ (Finset.Icc (0 : Int) 24)) := by
    intro c hc
    rw [List.mem_toFinset] at hc
    rcases hb c hc with h1 | h2
    · rw [h1]
      exact Finset.mem_insert_self _ _
    · refine Finset.mem_insert_of_mem ?_
      rw [Finset.mem_product, Finset.mem_Icc, Finset.mem_Icc]
      unfold GRID_SIZE at h2
      omega
  have h1 : V.toFinset.card = V.length := List.toFinset_card_of_nodup hnd
  have h2 := Finset.card_le_card hsub
  have h3 := Finset.card_insert_le s0.start
    ((Finset.Icc (0 : Int) 24) ×ˢ (Finset.Icc (0 : Int) 24))
  have h4 : ((Finset.Icc (0 : Int) 24) ×ˢ (Finset.Icc (0 : Int) 24)).card = 625 := by
    rw [Finset.card_product, Int.card_Icc]
    rfl
  omega

/-- Invariant of the BFS loop: the working state matches the reference
grid; queue nodes carry start-rooted move chains whose cells are visited;
the visited list is duplicate-free, bounded, and covered by the explored
set and the queue; explored cells are fully expanded; the target is never
explored before being returned; every queue node's chain is no longer than
any start-rooted walk reaching its cell; and the queue splits into two
blocks of consecutive chain lengths with every unvisited cell at least one
move beyond the current block's length. -/
structure BfsInv (s0 : App) (st : BfsState) : Prop where
  grid : GridEq s0 st.app
  chains : ∀ n ∈ st.queue, ChainFrom s0 s0.start n
  qvis : ∀ n ∈ st.queue, n.pos ∈ st.visited
  startv : s0.start ∈ st.visited
  nodup : st.visited.Nodup
  bounded : ∀ c ∈ st.visited, c = s0.start ∨
    (0 ≤ c.1 ∧ c.1 < GRID_SIZE ∧ 0 ≤ c.2 ∧ c.2 < GRID_SIZE)
  cover : ∀ c ∈ st.visited, c ∈ st.app.explored ∨ ∃ n ∈ st.queue, n.pos = c
  closed : ∀ c ∈ st.app.explored, ∀ z, AdjStep s0 c z → z ∈ st.visited
  tne : s0.target ∉ st.app.explored
  discovery : ∀ n ∈ st.queue, ∀ p, SChain s0 p → p.getLast? = some n.pos →
    n.chainLen ≤ p.length
  layers : st.queue = [] ∨ ∃ ℓ A B, st.queue = A ++ B ∧ A ≠ [] ∧
    (∀ n ∈ A, n.chainLen = ℓ) ∧ (∀ n ∈ B, n.chainLen = ℓ + 1) ∧
    (∀ p z, SChain s0 p → p.getLast? = some z → z ∉ st.visited → ℓ + 1 ≤ p.length)

/-- When a BFS iteration returns a found path, that path is a traversable
start-to-target path no longer than any start-to-target walk. -/
theorem bfsStep_found {s0 : App} {cur : Node} {rest : List Node}
    {V : List (Int × Int)} {app : App} {p : List (Int × Int)} {a : App}
    (hinv : BfsInv s0 ⟨cur :: rest, V, app⟩)
    (h : bfsStep cur rest V app = .found p a) :
    GridPath s0 p ∧ ∀ q, GridPath s0 q → p.length ≤ q.length := by
  unfold bfsStep at h
  by_cases hc : cur.pos = (exploredAdd app cur.pos).target
  · rw [if_pos hc] at h
    injection h with h1 h2
    subst h1
    have hctar : cur.pos = s0.target := by
      rw [hc]
      exact hinv.grid.2.2.1
    have hchain := hinv.chains cur (List.mem_cons_self _ _)
    refine ⟨chain_reconstruct_gridPath hchain hctar, ?_⟩
    intro q hq
    rw [reconstruct_path_eq_rootPath, rootPath_length]
    refine hinv.discovery cur (List.mem_cons_self _ _) q ⟨hq.1, hq.2.2⟩ ?_
    rw [hctar]
    exact hq.2.1
  · rw [if_neg hc] at h
    injection h

/-- When a BFS iteration continues, the invariant is preserved and the
queue and visited lists grow by the same number of fresh nodes. -/
theorem bfsStep_cont {s0 : App} {cur : Node} {rest : List Node}
    {V : List (Int × Int)} {app : App} {st' : BfsState}
    (hinv : BfsInv s0 ⟨cur :: rest, V, app⟩)
    (h : bfsStep cur rest V app = .cont st') :
    BfsInv s0 st' ∧ ∃ k, st'.queue.length = rest.length + k ∧
      st'.visited.length = V.length + k := by
  unfold bfsStep at h
  by_cases hc : cur.pos = (exploredAdd app cur.pos).target
  · rw [if_pos hc] at h
    injection h
  · rw [if_neg hc] at h
    injection h with h1
    subst h1
    obtain ⟨hQ, hV, hGV, hST, hTG, hDO, hEX, hNE⟩ :=
      bfs_fold_char (get_neighbors (exploredAdd app cur.pos) cur) rest V
        (exploredAdd app cur.pos) (get_neighbors_pos_nodup _ _)
    set app1 := exploredAdd app cur.pos with happ1
    set NN := (get_neighbors app1 cur).filter (fun nb => decide (nb.pos ∉ V)) with hNN
    set acc := (get_neighbors app1 cur).foldl bfsPush (rest, V, app1) with hacc
    have hg1 : GridEq s0 app1 := GridEq.exploredAdd hinv.grid cur.pos
    have hmemNN : ∀ nb ∈ NN, nb ∈ get_neighbors app1 cur ∧ nb.pos ∉ V := by
      intro nb hnb
      rw [hNN] at hnb
      simp only [List.mem_filter, decide_eq_true_eq] at hnb
      exact hnb
    have hchainNN : ∀ nb ∈ NN, ChainFrom s0 s0.start nb := fun nb hnb =>
      ChainFrom.neighbor hg1 (hinv.chains cur (List.mem_cons_self _ _)) (hmemNN nb hnb).1
    have hlenNN : ∀ nb ∈ NN, nb.chainLen = cur.chainLen + 1 := by
      intro nb hnb
      have hng := (hmemNN nb hnb).1
      rw [mem_get_neighbors] at hng
      obtain ⟨m, hm, hv2, rfl⟩ := hng
      rfl
    have hbndNN : ∀ nb ∈ NN,
        0 ≤ nb.pos.1 ∧ nb.pos.1 < GRID_SIZE ∧ 0 ≤ nb.pos.2 ∧ nb.pos.2 < GRID_SIZE := by
      intro nb hnb
      have hvald := (get_neighbors_sound _ _ _ (hmemNN nb hnb).1).1
      rw [is_valid_congr hg1] at hvald
      rw [Node.pos_fst, Node.pos_snd]
      exact is_valid_bounds hvald
    have hcov : ∀ z, AdjStep s0 cur.pos z → z ∈ acc.2.1 := by
      intro z hz
      obtain ⟨nb, hng, rfl⟩ := adjStep_covered hg1 cur z hz
      rw [hV]
      by_cases hzv : nb.pos ∈ V
      · exact List.mem_append_right _ hzv
      · refine List.mem_append_left _ ?_
        rw [List.mem_reverse, List.mem_map]
        refine ⟨nb, ?_, rfl⟩
        rw [hNN]
        simp only [List.mem_filter, decide_eq_true_eq]
        exact ⟨hng, hzv⟩
    have hndNC : (NN.map Node.pos).Nodup := by
      rw [hNN]
      exact List.Nodup.sublist (List.Sublist.map Node.pos (List.filter_sublist _))
        (get_neighbors_pos_nodup _ _)
    have hdisj : ∀ x ∈ NN.map Node.pos, x ∉ V := by
      intro x hx
      rw [List.mem_map] at hx
      obtain ⟨nb, hnb, rfl⟩ := hx
      exact (hmemNN nb hnb).2
    have hndV' : ((NN.map Node.pos).reverse ++ V).Nodup := by
      rw [List.nodup_append]
      refine ⟨List.nodup_reverse.mpr hndNC, hinv.nodup, ?_⟩
      intro x hx hxV
      rw [List.mem_reverse] at hx
      exact hdisj x hx hxV
    have htar : app1.target = s0.target := hinv.grid.2.2.1
    have hctar : cur.pos ≠ s0.target := by
      intro he
      exact hc (by rw [he, htar])
    obtain ⟨ℓ, A, B, hAB, hAne, hA, hB, hK2a⟩ :=
      hinv.layers.resolve_left (by simp)
    obtain ⟨a, A2, hAeq⟩ := List.exists_cons_of_ne_nil hAne
    rw [hAeq, List.cons_append] at hAB
    injection hAB with hac hrest
    subst hac
    have hcurlen : cur.chainLen = ℓ := hA cur (by rw [hAeq]; exact List.mem_cons_self _ _)
    refine ⟨⟨?_, ?_, ?_, ?_, ?_, ?_, ?_, ?_, ?_, ?_, ?_⟩, ?_⟩
    · -- grid fields
      exact ⟨hGV.trans hinv.grid.1, hST.trans hinv.grid.2.1,
        hTG.trans hinv.grid.2.2.1, hDO.trans hinv.grid.2.2.2⟩
    · -- chains
      show ∀ n ∈ acc.1, ChainFrom s0 s0.start n
      intro n hn
      rw [hQ] at hn
      rcases List.mem_append.mp hn with hn | hn
      · exact hinv.chains n (List.mem_cons_of_mem _ hn)
      · exact hchainNN n hn
    · -- queue cells visited
      show ∀ n ∈ acc.1, n.pos ∈ acc.2.1
      intro n hn
      rw [hQ] at hn
      rw [hV]
      rcases List.mem_append.mp hn with hn | hn
      · exact List.mem_append_right _ (hinv.qvis n (List.mem_cons_of_mem _ hn))
      · refine List.mem_append_left _ ?_
        rw [List.mem_reverse, List.mem_map]
        exact ⟨n, hn, rfl⟩
    · -- start visited
      show s0.start ∈ acc.2.1
      rw [hV]
      exact List.mem_append_right _ hinv.startv
    · -- visited duplicate-free
      show acc.2.1.Nodup
      rw [hV]
      exact hndV'
    · -- visited bounded
      show ∀ c ∈ acc.2.1, c = s0.start ∨
        (0 ≤ c.1 ∧ c.1 < GRID_SIZE ∧ 0 ≤ c.2 ∧ c.2 < GRID_SIZE)
      intro c hcm
      rw [hV] at hcm
      rcases List.mem_append.mp hcm with hcm | hcm
      · rw [List.mem_reverse, List.mem_map] at hcm
        obtain ⟨nb, hnb, rfl⟩ := hcm
        exact Or.inr (hbndNN nb hnb)
      · exact hinv.bounded c hcm
    · -- cover
      show ∀ c ∈ acc.2.1, c ∈ acc.2.2.explored ∨ ∃ n ∈ acc.1, n.pos = c
      intro c hcm
      rw [hV] at hcm
      rcases List.mem_append.mp hcm with hcm | hcm
      · rw [List.mem_reverse, List.mem_map] at hcm
        obtain ⟨nb, hnb, rfl⟩ := hcm
        refine Or.inr ⟨nb, ?_, rfl⟩
        rw [hQ]
        exact List.mem_append_right _ hnb
      · rcases hinv.cover c hcm with hce | ⟨n, hn, rfl⟩
        · refine Or.inl ?_
          rw [hEX]
          show c ∈ setAdd app.explored cur.pos
          exact (mem_setAdd _ _ _).mpr (Or.inr hce)
        · rcases List.mem_cons.mp hn with rfl | hn
          · refine Or.inl ?_
            rw [hEX]
            exact self_mem_setAdd _ _
          · refine Or.inr ⟨n, ?_, rfl⟩
            rw [hQ]
            exact List.mem_append_left _ hn
    · -- explored closed
      show ∀ c ∈ acc.2.2.explored, ∀ z, AdjStep s0 c z → z ∈ acc.2.1
      intro c hce z hz
      rw [hEX] at hce
      rcases (mem_setAdd _ _ _).mp hce with rfl | hce
      · exact hcov z hz
      · rw [hV]
        exact List.mem_append_right _ (hinv.closed c hce z hz)
    · -- target unexplored
      show s0.target ∉ acc.2.2.explored
      intro hmem
      rw [hEX] at hmem
      rcases (mem_setAdd _ _ _).mp hmem with he | hmem
      · exact hctar he.symm
      · exact hinv.tne hmem
    · -- discovery
      show ∀ n ∈ acc.1, ∀ p, SChain s0 p → p.getLast? = some n.pos →
        n.chainLen ≤ p.length
      intro n hn p hp hl
      rw [hQ] at hn
      rcases List.mem_append.mp hn with hn | hn
      · exact hinv.discovery n (List.mem_cons_of_mem _ hn) p hp hl
      · have hle := hK2a p n.pos hp hl (hmemNN n hn).2
        rw [hlenNN n hn, hcurlen]
        exact hle
    · -- layers
      by_cases hA2 : A2 = []
      · subst hA2
        simp only [List.nil_append] at hrest
        by_cases hBN : B ++ NN = []
        · refine Or.inl ?_
          show acc.1 = []
          rw [hQ, hrest, hBN]
        · refine Or.inr ⟨ℓ + 1, B ++ NN, [], ?_, hBN, ?_, ?_, ?_⟩
          · show acc.1 = (B ++ NN) ++ []
            rw [hQ, hrest, List.append_nil]
          · intro n hn
            rcases List.mem_append.mp hn with hn | hn
            · exact hB n hn
            · rw [hlenNN n hn, hcurlen]
          · intro n hn
            exact absurd hn (List.not_mem_nil n)
          · -- level shift: unvisited cells now need at least two more moves
            show ∀ p z, SChain s0 p → p.getLast? = some z → z ∉ acc.2.1 →
              ℓ + 1 + 1 ≤ p.length
            intro p z hp hl hzv'
            have hzv : z ∉ V := by
              intro hzin
              exact hzv' (by rw [hV]; exact List.mem_append_right _ hzin)
            have hold := hK2a p z hp hl hzv
            by_contra hlt
            push_neg at hlt
            have hplen : p.length = ℓ + 1 := by omega
            have h2le : 2 ≤ p.length := by
              have := chainLen_pos cur
              omega
            obtain ⟨hp', y, hy, hyz⟩ := schain_dropLast hp hl h2le
            have hylen : p.dropLast.length = ℓ := by
              rw [List.length_dropLast]
              omega
            by_cases hyv : y ∈ V
            · rcases hinv.cover y hyv with hye | ⟨n, hn, hnpos⟩
              · exact hzv (hinv.closed y hye z hyz)
              · have hnle : n.chainLen ≤ ℓ := by
                  have hd := hinv.discovery n hn p.dropLast hp' (by rw [hy, hnpos])
                  omega
                have hnA : n ∈ A := by
                  rcases List.mem_cons.mp hn with rfl | hn2
                  · rw [hAeq]
                    exact List.mem_cons_self _ _
                  · rw [hrest] at hn2
                    have := hB n hn2
                    omega
                have hncur : n = cur := by
                  rw [hAeq] at hnA
                  simpa using hnA
                have hycur : y = cur.pos := by rw [← hnpos, hncur]
                rw [hycur] at hyz
                exact hzv' (hcov z hyz)
            · have := hK2a p.dropLast y hp' hy hyv
              omega
      · refine Or.inr ⟨ℓ, A2, B ++ NN, ?_, hA2, ?_, ?_, ?_⟩
        · show acc.1 = A2 ++ (B ++ NN)
          rw [hQ, hrest, List.append_assoc]
        · intro n hn
          exact hA n (by rw [hAeq]; exact List.mem_cons_of_mem _ hn)
        · intro n hn
          rcases List.mem_append.mp hn with hn | hn
          · exact hB n hn
          · rw [hlenNN n hn, hcurlen]
        · show ∀ p z, SChain s0 p → p.getLast? = some z → z ∉ acc.2.1 →
            ℓ + 1 ≤ p.length
          intro p z hp hl hzv'
          refine hK2a p z hp hl ?_
          intro hzin
          exact hzv' (by rw [hV]; exact List.mem_append_right _ hzin)
    · -- queue and visited grow together
      refine ⟨NN.length, ?_, ?_⟩
      · show acc.1.length = rest.length + NN.length
        rw [hQ, List.length_append]
      · show acc.2.1.length = V.length + NN.length
        rw [hV, List.length_append, List.length_reverse, List.length_map]
        omega

/-- Soundness and hop-optimality of any completed BFS loop run from an
invariant state: a found result is a shortest traversable start-to-target
path, and a no-path result really means no traversable path exists. -/
theorem bfsRun_correct {s0 : App} : ∀ (fuel : Nat) (st : BfsState), BfsInv s0 st →
    ∀ (r : SearchOutcome) (app' : App), bfsRun fuel st = some (r, app') →
      (∀ p, r = .found p → GridPath s0 p ∧ ∀ q, GridPath s0 q → p.length ≤ q.length) ∧
      (r = .noPath → ∀ q, ¬ GridPath s0 q) := by
  intro fuel
  induction fuel with
  | zero =>
    intro st _ r app' h
    exact Option.noConfusion h
  | succ n ih =>
    intro st hinv r app' h
    obtain ⟨q, V, app⟩ := st
    cases q with
    | nil =>
      simp only [bfsRun] at h
      injection h with h'
      injection h' with h1 h2
      subst h1
      constructor
      · intro p hp
        exact SearchOutcome.noConfusion hp
      · intro _ qp hqp
        have hVE : ∀ c ∈ V, c ∈ app.explored := by
          intro c hc
          rcases hinv.cover c hc with hce | ⟨n, hn, -⟩
          · exact hce
          · exact absurd hn (List.not_mem_nil n)
        have hall := chain_all_visited hVE hinv.closed qp s0.start hqp.1
          hinv.startv hqp.2.2
        have htv : s0.target ∈ V :=
          hall s0.target (List.mem_of_mem_getLast? hqp.2.1)
        exact hinv.tne (hVE s0.target htv)
    | cons cur rest =>
      simp only [bfsRun] at h
      cases hs : bfsStep cur rest V app with
      | found p a =>
        rw [hs] at h
        injection h with h'
        injection h' with h1 h2
        subst h1
        constructor
        · intro p' hp'
          injection hp' with hpp
          subst hpp
          exact bfsStep_found hinv hs
        · intro hnp
          exact SearchOutcome.noConfusion hnp
      | cont stc =>
        rw [hs] at h
        exact ih stc (bfsStep_cont hinv hs).1 r app' h

/-- With fuel at least the standard BFS measure, the loop completes. -/
theorem bfsRun_total {s0 : App} : ∀ (fuel : Nat) (st : BfsState), BfsInv s0 st →
    2 * (626 - st.visited.length) + st.queue.length + 1 ≤ fuel →
    (bfsRun fuel st).isSome = true := by
  intro fuel
  induction fuel with
  | zero =>
    intro st _ hm
    exact absurd hm (by omega)
  | succ n ih =>
    intro st hinv hm
    obtain ⟨q, V, app⟩ := st
    cases q with
    | nil => rfl
    | cons cur rest =>
      show (match bfsStep cur rest V app with
        | StepRes.found p a => some (SearchOutcome.found p, a)
        | StepRes.cont s' => bfsRun n s').isSome = true
      cases hs : bfsStep cur rest V app with
      | found p a =>
        rfl
      | cont stc =>
        obtain ⟨hinv', k, hk1, hk2⟩ := bfsStep_cont hinv hs
        have hV : V.length ≤ 626 := visited_card_le hinv.nodup hinv.bounded
        have hV' : stc.visited.length ≤ 626 :=
          visited_card_le hinv'.nodup hinv'.bounded
        have hm' : 2 * (626 - V.length) + (rest.length + 1) + 1 ≤ n + 1 := hm
        refine ih stc hinv' ?_
        omega

/-- The initial BFS state, on a state with a cleared explored set,
satisfies the invariant. -/
theorem bfsInit_inv (s0 : App) (hE : s0.explored = []) :
    BfsInv s0 ⟨[Node.mk s0.start.1 s0.start.2 ⟨0, 0⟩ none], [s0.start], s0⟩ := by
  have hpos : (Node.mk s0.start.1 s0.start.2 (⟨0, 0⟩ : Cost) none).pos = s0.start := rfl
  refine ⟨gridEq_refl s0, ?_, ?_, ?_, ?_, ?_, ?_, ?_, ?_, ?_, ?_⟩
  · intro n hn
    simp only [List.mem_singleton] at hn
    subst hn
    show (s0.start.1, s0.start.2) = s0.start
    rfl
  · intro n hn
    simp only [List.mem_singleton] at hn
    subst hn
    rw [hpos]
    exact List.mem_singleton.mpr rfl
  · exact List.mem_singleton.mpr rfl
  · exact List.nodup_singleton _
  · intro c hc
    rw [List.mem_singleton] at hc
    exact Or.inl hc
  · intro c hc
    rw [List.mem_singleton] at hc
    subst hc
    exact Or.inr ⟨Node.mk s0.start.1 s0.start.2 ⟨0, 0⟩ none, List.mem_singleton.mpr rfl, hpos⟩
  · intro c hc
    rw [hE] at hc
    exact absurd hc (List.not_mem_nil c)
  · rw [hE]
    exact List.not_mem_nil _
  · intro n hn p hp hl
    simp only [List.mem_singleton] at hn
    subst hn
    show 1 ≤ p.length
    cases p with
    | nil => exact Option.noConfusion hl
    | cons x t => simp
  · refine Or.inr ⟨1, [Node.mk s0.start.1 s0.start.2 ⟨0, 0⟩ none], [], rfl,
      List.cons_ne_nil _ _, ?_, ?_, ?_⟩
    · intro n hn
      simp only [List.mem_singleton] at hn
      subst hn
      rfl
    · intro n hn
      exact absurd hn (List.not_mem_nil n)
    · intro p z hp hl hzv
      cases p with
      | nil => exact Option.noConfusion hl
      | cons x t =>
        cases t with
        | nil =>
          have hx : x = s0.start := by
            have hh : some x = some s0.start := hp.1
            exact Option.some.inj hh
          have hz : z = x := by
            have hll : some x = some z := hl
            exact (Option.some.inj hll).symm
          subst hz
          rw [hx] at hzv
          exact absurd (List.mem_singleton.mpr rfl) hzv
        | cons x1 t1 =>
          simp only [List.length_cons]
          omega

/-- C1: when the target is traversable-reachable from the start, BFS
completes, and every completed run returns a found path that is a
traversable start-to-target path of minimal length — equivalently, of
minimal hop count, since every traversable path is nonempty. -/
theorem C1_bfs_shortest_path (s : App)
    (hreach : ∃ q, GridPath (clear_path s) q) :
    (∃ fuel res, bfs s fuel = some res) ∧
    ∀ fuel r app', bfs s fuel = some (r, app') →
      ∃ p, r = .found p ∧ GridPath (clear_path s) p ∧
        ∀ q, GridPath (clear_path s) q → p.length ≤ q.length := by
  have hinv0 := bfsInit_inv (clear_path s) rfl
  constructor
  · have htot := bfsRun_total 1254
      ⟨[Node.mk (clear_path s).start.1 (clear_path s).start.2 ⟨0, 0⟩ none],
        [(clear_path s).start], clear_path s⟩ hinv0 (by norm_num)
    obtain ⟨res, hres⟩ := Option.isSome_iff_exists.mp htot
    exact ⟨1254, res, hres⟩
  · intro fuel r app' h
    have h' : bfsRun fuel
        ⟨[Node.mk (clear_path s).start.1 (clear_path s).start.2 ⟨0, 0⟩ none],
          [(clear_path s).start], clear_path s⟩ = some (r, app') := h
    have hco := bfsRun_correct fuel _ hinv0 r app' h'
    cases r with
    | found p => exact ⟨p, rfl, hco.1 p rfl⟩
    | noPath =>
      obtain ⟨q, hq⟩ := hreach
      exact absurd hq (hco.2 rfl q)

/-! ## Claim C2: UCS finds a minimum-cost path -/

/-- The cost of one move between adjacent cells, per the source's neighbor
generation: `math.sqrt(2)` when both coordinates change, else `1.0`. -/
def stepCost (c z : Int × Int) : Cost :=
  if (z.1 - c.1).natAbs + (z.2 - c.2).natAbs == 2 then ⟨0, 1⟩ else ⟨1, 0⟩

/-- Total cost of a cell path: the sum of its step costs. -/
def pathCost : List (Int × Int) → Cost
  | [] => ⟨0, 0⟩
  | [_] => ⟨0, 0⟩
  | c :: z :: t => (stepCost c z).add (pathCost (z :: t))

/-- Appending one cell adds one step cost. -/
theorem pathCost_append_last :
    ∀ (p : List (Int × Int)) (y z : Int × Int), p.getLast? = some y →
      pathCost (p ++ [z]) = (pathCost p).add (stepCost y z) := by
  intro p
  induction p with
  | nil => intro y z hy; exact Option.noConfusion hy
  | cons c t ih =>
    intro y z hy
    cases t with
    | nil =>
      have hcy : c = y := Option.some.inj hy
      subst hcy
      show (stepCost c z).add (pathCost [z]) = (pathCost [c]).add (stepCost c z)
      show (stepCost c z).add ⟨0, 0⟩ = (Cost.mk 0 0).add (stepCost c z)
      unfold Cost.add
      simp [Prod.ext_iff]
    | cons c1 t1 =>
      have hy' : (c1 :: t1).getLast? = some y := by
        rw [List.getLast?_cons_cons] at hy
        exact hy
      show (stepCost c c1).add (pathCost ((c1 :: t1) ++ [z])) =
        ((stepCost c c1).add (pathCost (c1 :: t1))).add (stepCost y z)
      rw [ih y z hy']
      unfold Cost.add
      simp
      omega

/-- A path costs at least any of its prefixes. -/
theorem pathCost_prefix_le :
    ∀ (p q : List (Int × Int)), (pathCost p).toReal ≤ (pathCost (p ++ q)).toReal := by
  intro p
  induction p with
  | nil =>
    intro q
    show (Cost.mk 0 0).toReal ≤ _
    have h0 : (Cost.mk 0 0).toReal = 0 := by
      unfold Cost.toReal
      simp
    rw [h0]
    exact Cost.toReal_nonneg _
  | cons c t ih =>
    intro q
    cases t with
    | nil =>
      show (Cost.mk 0 0).toReal ≤ (pathCost ([c] ++ q)).toReal
      have h0 : (Cost.mk 0 0).toReal = 0 := by
        unfold Cost.toReal
        simp
      rw [h0]
      exact Cost.toReal_nonneg _
    | cons c1 t1 =>
      show ((stepCost c c1).add (pathCost (c1 :: t1))).toReal ≤
        ((stepCost c c1).add (pathCost ((c1 :: t1) ++ q))).toReal
      rw [Cost.toReal_add, Cost.toReal_add]
      have := ih q
      linarith

/-- A nonempty prefix of a start-rooted walk is a start-rooted walk. -/
theorem schain_prefix {s0 : App} {p q : List (Int × Int)}
    (h : SChain s0 (p ++ q)) (hne : p ≠ []) : SChain s0 p := by
  refine ⟨?_, (List.chain'_append.mp h.2).1⟩
  have := h.1
  rw [List.head?_append_of_ne_nil _ hne] at this
  exact this

/-- A generated neighbor's accumulated cost is its parent's plus the step
cost of the move. -/
theorem neighbor_cost {s : App} {n nb : Node} (h : nb ∈ get_neighbors s n) :
    nb.cost = n.cost.add (stepCost n.pos nb.pos) := by
  rw [mem_get_neighbors] at h
  obtain ⟨m, hm, hv, rfl⟩ := h
  show n.cost.add _ = n.cost.add _
  have e1 : n.row + m.1 - n.pos.1 = m.1 := by rw [Node.pos_fst]; ring
  have e2 : n.col + m.2 - n.pos.2 = m.2 := by rw [Node.pos_snd]; ring
  unfold stepCost
  rw [Node.pos_mk]
  show n.cost.add _ = n.cost.add
    (if ((n.row + m.1, n.col + m.2).1 - n.pos.1).natAbs +
        ((n.row + m.1, n.col + m.2).2 - n.pos.2).natAbs == 2 then ⟨0, 1⟩ else ⟨1, 0⟩)
  rw [show (n.row + m.1, n.col + m.2).1 - n.pos.1 = m.1 from e1,
    show (n.row + m.1, n.col + m.2).2 - n.pos.2 = m.2 from e2]

/-- At most six neighbors are ever generated. -/
theorem get_neighbors_len_le (s : App) (n : Node) : (get_neighbors s n).length ≤ 6 := by
  rw [get_neighbors_eq]
  rw [List.length_map]
  have h := List.length_filter_le
    (fun m => is_valid s (n.row + m.1) (n.col + m.2)) DIRECTIONS
  exact le_trans h (by rfl)

/-- A chain node's cell is the start or an in-bounds cell. -/
theorem chainFrom_pos_bound {s0 : App} {root : Int × Int} {n : Node}
    (h : ChainFrom s0 root n) :
    n.pos = root ∨ (0 ≤ n.pos.1 ∧ n.pos.1 < GRID_SIZE ∧ 0 ≤ n.pos.2 ∧ n.pos.2 < GRID_SIZE) := by
  cases n with
  | mk r c k pr =>
    cases pr with
    | none =>
      have h' : (r, c) = root := h
      exact Or.inl h'
    | some p =>
      have h' : AdjStep s0 p.pos (r, c) ∧ ChainFrom s0 root p := h
      exact Or.inr (is_valid_bounds h'.1.2)

/-- `Cost.leB` is reflexive. -/
theorem Cost.leB_refl (a : Cost) : Cost.leB a a = true :=
  (Cost.leB_iff a a).mpr (le_refl _)

/-- `Cost.leB` is transitive. -/
theorem Cost.leB_trans {a b c : Cost} (h1 : Cost.leB a b = true)
    (h2 : Cost.leB b c = true) : Cost.leB a c = true := by
  rw [Cost.leB_iff] at h1 h2 ⊢
  linarith

/-- `Cost.leB` is total. -/
theorem Cost.leB_of_not_leB {a b : Cost} (h : ¬ Cost.leB a b = true) :
    Cost.leB b a = true := by
  rw [Cost.leB_iff] at h ⊢
  linarith [not_le.mp h]

/-- An empty pop means an empty container. -/
theorem popMin_none : ∀ (l : List Node), popMin l = none ↔ l = [] := by
  intro l
  cases l with
  | nil => simp [popMin]
  | cons n ns =>
    constructor
    · intro h
      unfold popMin at h
      cases hp : popMin ns with
      | none =>
        rw [hp] at h
        exact Option.noConfusion h
      | some r =>
        obtain ⟨m, rest⟩ := r
        rw [hp] at h
        have h2 : (if Cost.leB n.cost m.cost = true then some (n, ns)
            else some (m, n :: rest)) = (none : Option (Node × List Node)) := h
        by_cases hle : Cost.leB n.cost m.cost = true
        · rw [if_pos hle] at h2
          exact Option.noConfusion h2
        · rw [if_neg hle] at h2
          exact Option.noConfusion h2
    · intro h
      exact List.noConfusion h

/-- What `heapq.heappop` guarantees: the popped node belongs to the
container, every element is the popped node or survives, the rest are
container elements, the popped cost is minimal, and one element is
removed. -/
theorem popMin_spec : ∀ (l : List Node) (cur : Node) (rest : List Node),
    popMin l = some (cur, rest) →
    cur ∈ l ∧ (∀ n ∈ l, n = cur ∨ n ∈ rest) ∧ (∀ n ∈ rest, n ∈ l) ∧
    (∀ n ∈ l, Cost.leB cur.cost n.cost = true) ∧ l.length = rest.length + 1 := by
  intro l
  induction l with
  | nil => intro cur rest h; exact Option.noConfusion h
  | cons n ns ih =>
    intro cur rest h
    unfold popMin at h
    cases hp : popMin ns with
    | none =>
      rw [hp] at h
      injection h with h'
      injection h' with h1 h2
      subst h1
      subst h2
      have hns : ns = [] := (popMin_none ns).mp hp
      subst hns
      refine ⟨List.mem_singleton.mpr rfl, ?_, ?_, ?_, rfl⟩
      · intro m hm
        exact Or.inl (List.mem_singleton.mp hm)
      · intro m hm
        exact absurd hm (List.not_mem_nil m)
      · intro m hm
        rw [List.mem_singleton.mp hm]
        exact Cost.leB_refl _
    | some r =>
      obtain ⟨m, r'⟩ := r
      rw [hp] at h
      have h3 : (if Cost.leB n.cost m.cost = true then some (n, ns)
          else some (m, n :: r')) = some (cur, rest) := h
      obtain ⟨hmem, hall, hrest, hmin, hlen⟩ := ih m r' hp
      by_cases hle : Cost.leB n.cost m.cost = true
      · rw [if_pos hle] at h3
        injection h3 with h'
        injection h' with h1 h2
        subst h1
        subst h2
        refine ⟨List.mem_cons_self _ _, ?_, ?_, ?_, ?_⟩
        · intro x hx
          rcases List.mem_cons.mp hx with rfl | hx
          · exact Or.inl rfl
          · exact Or.inr hx
        · intro x hx
          exact List.mem_cons_of_mem _ hx
        · intro x hx
          rcases List.mem_cons.mp hx with rfl | hx
          · exact Cost.leB_refl _
          · exact Cost.leB_trans hle (hmin x hx)
        · rfl
      · rw [if_neg hle] at h3
        injection h3 with h'
        injection h' with h1 h2
        subst h1
        subst h2
        have hmn := Cost.leB_of_not_leB hle
        refine ⟨List.mem_cons_of_mem _ hmem, ?_, ?_, ?_, ?_⟩
        · intro x hx
          rcases List.mem_cons.mp hx with rfl | hx
          · exact Or.inr (List.mem_cons_self _ _)
          · rcases hall x hx with rfl | hx2
            · exact Or.inl rfl
            · exact Or.inr (List.mem_cons_of_mem _ hx2)
        · intro x hx
          rcases List.mem_cons.mp hx with rfl | hx
          · exact List.mem_cons_self _ _
          · exact List.mem_cons_of_mem _ (hrest x hx)
        · intro x hx
          rcases List.mem_cons.mp hx with rfl | hx
          · exact hmn
          · exact hmin x hx
        · show ns.length + 1 = r'.length + 1 + 1
          omega

/-- The UCS neighbor fold appends exactly the neighbors passing the push
condition, records their costs in the dict, leaves other dict entries
unchanged, and touches no `App` field but the frontier. -/
theorem ucs_fold_char : ∀ (ns : List Node) (rest : List Node)
    (v : (Int × Int) → Option Cost) (a : App), (ns.map Node.pos).Nodup →
    (ns.foldl ucsPush (rest, v, a)).1 =
        rest ++ ns.filter (fun nb => ucsPushB v nb) ∧
    (∀ c, c ∉ (ns.filter (fun nb => ucsPushB v nb)).map Node.pos →
        (ns.foldl ucsPush (rest, v, a)).2.1 c = v c) ∧
    (∀ nb ∈ ns, ucsPushB v nb = true →
        (ns.foldl ucsPush (rest, v, a)).2.1 nb.pos = some nb.cost) ∧
    (ns.foldl ucsPush (rest, v, a)).2.2.gridVal = a.gridVal ∧
    (ns.foldl ucsPush (rest, v, a)).2.2.start = a.start ∧
    (ns.foldl ucsPush (rest, v, a)).2.2.target = a.target ∧
    (ns.foldl ucsPush (rest, v, a)).2.2.dynamic_obstacles = a.dynamic_obstacles ∧
    (ns.foldl ucsPush (rest, v, a)).2.2.explored = a.explored := by
  intro ns
  induction ns with
  | nil =>
    intro rest v a _
    exact ⟨(List.append_nil rest).symm, fun c _ => rfl, fun nb hnb => absurd hnb
      (List.not_mem_nil nb), rfl, rfl, rfl, rfl, rfl⟩
  | cons nb t ih =>
    intro rest v a hnd
    simp only [List.map_cons, List.nodup_cons, List.mem_map] at hnd
    obtain ⟨hhead, htnd⟩ := hnd
    have hposne : ∀ x ∈ t, x.pos ≠ nb.pos := by
      intro x hx he
      exact hhead ⟨x, hx, he⟩
    by_cases hpb : ucsPushB v nb = true
    · have hstep : ucsPush (rest, v, a) nb =
          (rest ++ [nb], fun x => if x = nb.pos then some nb.cost else v x,
            { a with frontier := setAdd a.frontier nb.pos }) := by
        rw [ucsPush_eq, if_pos hpb]
      have hcong : t.filter (fun x => ucsPushB
          (fun x => if x = nb.pos then some nb.cost else v x) x) =
          t.filter (fun x => ucsPushB v x) := by
        refine List.filter_congr ?_
        intro x hx
        unfold ucsPushB
        have hbeta : (fun z => if z = nb.pos then some nb.cost else v z) x.pos = v x.pos :=
          if_neg (hposne x hx)
        rw [hbeta]
      have hfil : (nb :: t).filter (fun x => ucsPushB v x) =
          nb :: t.filter (fun x => ucsPushB v x) := by
        rw [List.filter_cons, if_pos hpb]
      obtain ⟨ih1, ih2, ih3, ih4, ih5, ih6, ih7, ih8⟩ := ih (rest ++ [nb])
        (fun x => if x = nb.pos then some nb.cost else v x)
        { a with frontier := setAdd a.frontier nb.pos } htnd
      rw [List.foldl_cons, hstep]
      refine ⟨?_, ?_, ?_, ih4, ih5, ih6, ih7, ih8⟩
      · rw [ih1, hcong, hfil, List.append_assoc]
        rfl
      · intro c hc
        rw [hfil, List.map_cons, List.mem_cons, not_or] at hc
        rw [ih2 c (by rw [hcong]; exact hc.2)]
        rw [if_neg hc.1]
      · intro x hx hxp
        rcases List.mem_cons.mp hx with rfl | hx
        · have hnotin : x.pos ∉ (t.filter (fun y => ucsPushB
              (fun z => if z = x.pos then some x.cost else v z) y)).map Node.pos := by
            intro hmem
            rw [List.mem_map] at hmem
            obtain ⟨y, hy, hye⟩ := hmem
            exact hposne y (List.filter_sublist t |>.subset hy) hye
          rw [ih2 x.pos hnotin]
          rw [if_pos rfl]
        · have hxp' : ucsPushB (fun z => if z = nb.pos then some nb.cost else v z) x = true := by
            unfold ucsPushB
            have hbeta : (fun z => if z = nb.pos then some nb.cost else v z) x.pos = v x.pos :=
              if_neg (hposne x hx)
            rw [hbeta]
            exact hxp
          exact ih3 x hx hxp'
    · have hstep : ucsPush (rest, v, a) nb = (rest, v, a) := by
        rw [ucsPush_eq, if_neg hpb]
      have hfil : (nb :: t).filter (fun x => ucsPushB v x) =
          t.filter (fun x => ucsPushB v x) := by
        rw [List.filter_cons, if_neg hpb]
      obtain ⟨ih1, ih2, ih3, ih4, ih5, ih6, ih7, ih8⟩ := ih rest v a htnd
      rw [List.foldl_cons, hstep]
      refine ⟨?_, ?_, ?_, ih4, ih5, ih6, ih7, ih8⟩
      · rw [ih1, hfil]
      · intro c hc
        rw [hfil] at hc
        exact ih2 c hc
      · intro x hx hxp
        rcases List.mem_cons.mp hx with rfl | hx
        · exact absurd hxp hpb
        · exact ih3 x hx hxp

/-- The UCS neighbor fold only lowers recorded dict costs and never drops
a key. -/
theorem ucs_fold_dict_le (ns : List Node) (rest : List Node)
    (v : (Int × Int) → Option Cost) (a : App) (hnd : (ns.map Node.pos).Nodup) :
    ∀ c k, v c = some k →
      ∃ k', (ns.foldl ucsPush (rest, v, a)).2.1 c = some k' ∧ k'.toReal ≤ k.toReal := by
  obtain ⟨-, h2, h3, -⟩ := ucs_fold_char ns rest v a hnd
  intro c k hk
  by_cases hmem : c ∈ (ns.filter (fun nb => ucsPushB v nb)).map Node.pos
  · rw [List.mem_map] at hmem
    obtain ⟨x, hx, rfl⟩ := hmem
    rw [List.mem_filter] at hx
    refine ⟨x.cost, h3 x hx.1 hx.2, ?_⟩
    have hdec : ucsPushB v x = true := hx.2
    unfold ucsPushB at hdec
    rw [hk] at hdec
    have hdec' : Cost.ltB x.cost k = true := hdec
    exact le_of_lt ((Cost.ltB_iff x.cost k).mp hdec')
  · exact ⟨k, by rw [h2 c hmem]; exact hk, le_refl _⟩

/-- Invariant of the UCS loop: the working state matches the reference
grid; heap nodes carry start-rooted chains whose recorded cost is their
chain's path cost; the start is a dict key; the target is never explored
before being returned; the explored list is duplicate-free, bounded, and
reachable; every dict entry is explored or matched by a heap entry of that
exact cost; explored cells are relaxed against every walk reaching them;
and every walk to an unexplored cell passes a heap entry no costlier than
the walk's prefix up to that entry's cell. -/
structure UcsInv (s0 : App) (st : UcsState) : Prop where
  grid : GridEq s0 st.app
  nodes : ∀ n ∈ st.heap, ChainFrom s0 s0.start n ∧ n.cost = pathCost n.rootPath
  startk : ∃ k, st.visited s0.start = some k
  tne : s0.target ∉ st.app.explored
  enodup : st.app.explored.Nodup
  ebound : ∀ c ∈ st.app.explored, c = s0.start ∨
    (0 ≤ c.1 ∧ c.1 < GRID_SIZE ∧ 0 ≤ c.2 ∧ c.2 < GRID_SIZE)
  ereach : ∀ c ∈ st.app.explored, ∃ P, SChain s0 P ∧ P.getLast? = some c
  dict : ∀ c k, st.visited c = some k → c ∈ st.app.explored ∨
    ∃ n ∈ st.heap, n.pos = c ∧ n.cost = k
  settled : ∀ P c, SChain s0 P → P.getLast? = some c → c ∈ st.app.explored →
    ∀ z, AdjStep s0 c z → z ∈ st.app.explored ∨
      ∃ k, st.visited z = some k ∧
        k.toReal ≤ (pathCost P).toReal + (stepCost c z).toReal
  frontierLB : ∀ P z, SChain s0 P → P.getLast? = some z → z ∉ st.app.explored →
    ∃ n P1 P2, n ∈ st.heap ∧ P = P1 ++ P2 ∧ P1.getLast? = some n.pos ∧
      n.cost.toReal ≤ (pathCost P1).toReal

/-- Crossing an explored region: a walk that enters the explored set and
ends outside it passes a heap entry no costlier than the corresponding
walk prefix. -/
theorem ucs_walk {s0 : App} {H : List Node} {v : (Int × Int) → Option Cost}
    {E : List (Int × Int)}
    (hset : ∀ P c, SChain s0 P → P.getLast? = some c → c ∈ E →
      ∀ z, AdjStep s0 c z → z ∈ E ∨ ∃ k, v z = some k ∧
        k.toReal ≤ (pathCost P).toReal + (stepCost c z).toReal)
    (hdict : ∀ c k, v c = some k → c ∈ E ∨ ∃ n ∈ H, n.pos = c ∧ n.cost = k) :
    ∀ (P2 P1 : List (Int × Int)) (c z : Int × Int),
      SChain s0 (P1 ++ P2) → P1 ≠ [] → P1.getLast? = some c → c ∈ E →
      (P1 ++ P2).getLast? = some z → z ∉ E →
      ∃ n Q1 Q2, n ∈ H ∧ P1 ++ P2 = Q1 ++ Q2 ∧ Q1.getLast? = some n.pos ∧
        n.cost.toReal ≤ (pathCost Q1).toReal := by
  intro P2
  induction P2 with
  | nil =>
    intro P1 c z hs hne hc hcE hz hzE
    rw [List.append_nil] at hz
    rw [hc] at hz
    obtain rfl := Option.some.inj hz
    exact absurd hcE hzE
  | cons w P2' ih =>
    intro P1 c z hs hne hc hcE hz hzE
    have hlink : AdjStep s0 c w := by
      have hch := hs.2
      rw [List.chain'_append] at hch
      exact hch.2.2 c hc w rfl
    have hsP1 : SChain s0 P1 := schain_prefix hs hne
    have hassoc : P1 ++ w :: P2' = (P1 ++ [w]) ++ P2' := by
      rw [List.append_assoc]
      rfl
    have hlast' : (P1 ++ [w]).getLast? = some w := by
      rw [List.getLast?_append_of_ne_nil _ (List.cons_ne_nil w [])]
      rfl
    rcases hset P1 c hsP1 hc hcE w hlink with hwE | ⟨k, hk, hkle⟩
    · obtain ⟨n, Q1, Q2, hn, he, hq1, hle⟩ := ih (P1 ++ [w]) w z
        (by rw [← hassoc]; exact hs) (by simp) hlast' hwE
        (by rw [← hassoc]; exact hz) hzE
      exact ⟨n, Q1, Q2, hn, by rw [hassoc]; exact he, hq1, hle⟩
    · rcases hdict w k hk with hwE | ⟨n, hn, hpos, hcost⟩
      · obtain ⟨n, Q1, Q2, hn, he, hq1, hle⟩ := ih (P1 ++ [w]) w z
          (by rw [← hassoc]; exact hs) (by simp) hlast' hwE
          (by rw [← hassoc]; exact hz) hzE
        exact ⟨n, Q1, Q2, hn, by rw [hassoc]; exact he, hq1, hle⟩
      · refine ⟨n, P1 ++ [w], P2', hn, hassoc, by rw [hlast', hpos], ?_⟩
        rw [hcost, pathCost_append_last P1 c w hc, Cost.toReal_add]
        exact hkle

/-- A popped cell already in the explored set is discarded: the state is
unchanged apart from the removed heap entry — no explored mark, no target
test, no neighbor generation. -/
theorem ucsStep_stale (cur : Node) (rest : List Node)
    (v : (Int × Int) → Option Cost) (a : App) (h : cur.pos ∈ a.explored) :
    ucsStep cur rest v a = .cont ⟨rest, v, a⟩ := by
  unfold ucsStep
  rw [if_pos h]

/-- A stale pop preserves the UCS invariant. -/
theorem ucs_stale_inv {s0 : App} {H rest : List Node} {cur : Node}
    {v : (Int × Int) → Option Cost} {app : App}
    (hinv : UcsInv s0 ⟨H, v, app⟩) (hpop : popMin H = some (cur, rest))
    (hE : cur.pos ∈ app.explored) : UcsInv s0 ⟨rest, v, app⟩ := by
  obtain ⟨hcur, hall, hrest, hmin, hlen⟩ := popMin_spec H cur rest hpop
  have hdict' : ∀ c k, v c = some k → c ∈ app.explored ∨
      ∃ n ∈ rest, n.pos = c ∧ n.cost = k := by
    intro c k hk
    rcases hinv.dict c k hk with hE' | ⟨n, hn, hpos, hcost⟩
    · exact Or.inl hE'
    · rcases hall n hn with rfl | hn2
      · exact Or.inl (hpos ▸ hE)
      · exact Or.inr ⟨n, hn2, hpos, hcost⟩
  refine ⟨hinv.grid, ?_, hinv.startk, hinv.tne, hinv.enodup, hinv.ebound,
    hinv.ereach, hdict', hinv.settled, ?_⟩
  · intro n hn
    exact hinv.nodes n (hrest n hn)
  · intro P z hs hz hzE
    obtain ⟨n, P1, P2, hn, he, hq1, hle⟩ := hinv.frontierLB P z hs hz hzE
    rcases hall n hn with rfl | hn2
    · have hP1ne : P1 ≠ [] := by
        intro h0
        rw [h0] at hq1
        exact Option.noConfusion hq1
      subst he
      exact ucs_walk hinv.settled hdict' P2 P1 n.pos z hs hP1ne hq1 hE hz hzE
    · exact ⟨n, P1, P2, hn2, he, hq1, hle⟩

/-- A found UCS result is a traversable start-to-target path of minimal
total cost. -/
theorem ucsStep_found_opt {s0 : App} {H rest : List Node} {cur : Node}
    {v : (Int × Int) → Option Cost} {app : App} {p : List (Int × Int)} {a : App}
    (hinv : UcsInv s0 ⟨H, v, app⟩) (hpop : popMin H = some (cur, rest))
    (h : ucsStep cur rest v app = .found p a) :
    GridPath s0 p ∧ ∀ q, GridPath s0 q →
      (pathCost p).toReal ≤ (pathCost q).toReal := by
  obtain ⟨hcur, hall, hrest, hmin, hlen⟩ := popMin_spec H cur rest hpop
  unfold ucsStep at h
  by_cases hE : cur.pos ∈ app.explored
  · rw [if_pos hE] at h
    injection h
  · rw [if_neg hE] at h
    by_cases htg : cur.pos = (exploredAdd app cur.pos).target
    · rw [if_pos htg] at h
      injection h with h1 h2
      subst h1
      have hctar : cur.pos = s0.target := by
        rw [htg]
        exact hinv.grid.2.2.1
      obtain ⟨hchain, hcost⟩ := hinv.nodes cur hcur
      refine ⟨chain_reconstruct_gridPath hchain hctar, ?_⟩
      intro q hq
      have hpc : pathCost (reconstruct_path cur) = cur.cost := by
        rw [reconstruct_path_eq_rootPath]
        exact hcost.symm
      rw [hpc]
      have hlastq : q.getLast? = some cur.pos := by
        rw [hctar]
        exact hq.2.1
      obtain ⟨n, P1, P2, hn, he, hq1, hle⟩ :=
        hinv.frontierLB q cur.pos ⟨hq.1, hq.2.2⟩ hlastq hE
      have hmin' := (Cost.leB_iff _ _).mp (hmin n hn)
      have hpre : (pathCost P1).toReal ≤ (pathCost q).toReal := by
        rw [he]
        exact pathCost_prefix_le P1 P2
      linarith
    · rw [if_neg htg] at h
      injection h

/-- Expanding a freshly popped cell preserves the UCS invariant, grows the
explored list by one, and grows the heap by at most six entries. -/
theorem ucs_expand_inv {s0 : App} {H rest : List Node} {cur : Node}
    {v : (Int × Int) → Option Cost} {app : App} {st' : UcsState}
    (hinv : UcsInv s0 ⟨H, v, app⟩) (hpop : popMin H = some (cur, rest))
    (hE : cur.pos ∉ app.explored)
    (h : ucsStep cur rest v app = .cont st') :
    UcsInv s0 st' ∧ st'.app.explored.length = app.explored.length + 1 ∧
      st'.heap.length ≤ rest.length + 6 := by
  obtain ⟨hcur, hall, hrestH, hmin, hlen⟩ := popMin_spec H cur rest hpop
  unfold ucsStep at h
  rw [if_neg hE] at h
  by_cases htg : cur.pos = (exploredAdd app cur.pos).target
  · rw [if_pos htg] at h
    injection h
  · rw [if_neg htg] at h
    injection h with h1
    subst h1
    obtain ⟨hF1, hF2, hF3, hFg, hFs, hFt, hFd, hFe⟩ :=
      ucs_fold_char (get_neighbors (exploredAdd app cur.pos) cur) rest v
        (exploredAdd app cur.pos) (get_neighbors_pos_nodup _ _)
    set app1 := exploredAdd app cur.pos with happ1
    set NN := (get_neighbors app1 cur).filter (fun nb => ucsPushB v nb) with hNN
    set acc := (get_neighbors app1 cur).foldl ucsPush (rest, v, app1) with hacc
    have hg1 : GridEq s0 app1 := GridEq.exploredAdd hinv.grid cur.pos
    obtain ⟨hcurchain, hcurcost⟩ := hinv.nodes cur hcur
    have hEX : app1.explored = cur.pos :: app.explored := by
      show setAdd app.explored cur.pos = _
      unfold setAdd
      rw [if_neg hE]
    have hopt : ∀ P, SChain s0 P → P.getLast? = some cur.pos →
        cur.cost.toReal ≤ (pathCost P).toReal := by
      intro P hs hl
      obtain ⟨n, P1, P2, hn, he, hq1, hle⟩ := hinv.frontierLB P cur.pos hs hl hE
      have hmin' := (Cost.leB_iff _ _).mp (hmin n hn)
      have hpre : (pathCost P1).toReal ≤ (pathCost P).toReal := by
        rw [he]
        exact pathCost_prefix_le P1 P2
      linarith
    have hset' : ∀ P c, SChain s0 P → P.getLast? = some c → c ∈ app1.explored →
        ∀ z, AdjStep s0 c z → z ∈ app1.explored ∨
          ∃ k, acc.2.1 z = some k ∧
            k.toReal ≤ (pathCost P).toReal + (stepCost c z).toReal := by
      intro P c hs hl hcE z hz
      rw [hEX] at hcE
      rcases List.mem_cons.mp hcE with rfl | hcE
      · obtain ⟨nb, hnb, rfl⟩ := adjStep_covered hg1 cur z hz
        by_cases hzE : nb.pos ∈ app1.explored
        · exact Or.inl hzE
        · refine Or.inr ?_
          have hble : nb.cost.toReal ≤
              (pathCost P).toReal + (stepCost cur.pos nb.pos).toReal := by
            rw [neighbor_cost hnb, Cost.toReal_add]
            have := hopt P hs hl
            linarith
          by_cases hpb : ucsPushB v nb = true
          · exact ⟨nb.cost, hF3 nb hnb hpb, hble⟩
          · have hnotin : nb.pos ∉ NN.map Node.pos := by
              intro hmem
              rw [hNN, List.mem_map] at hmem
              obtain ⟨y, hy, hye⟩ := hmem
              rw [List.mem_filter] at hy
              have hyn : y = nb := List.inj_on_of_nodup_map
                (get_neighbors_pos_nodup app1 cur) hy.1 hnb hye
              rw [hyn] at hy
              exact hpb hy.2
            have hd2 := hF2 nb.pos hnotin
            unfold ucsPushB at hpb
            cases hv : v nb.pos with
            | none =>
              rw [hv] at hpb
              exact absurd rfl hpb
            | some k =>
              rw [hv] at hpb
              have hpb' : ¬ Cost.ltB nb.cost k = true := hpb
              have hkle : k.toReal ≤ nb.cost.toReal := by
                rw [Cost.ltB_iff] at hpb'
                linarith [not_lt.mp hpb']
              refine ⟨k, ?_, by linarith⟩
              rw [hd2]
              exact hv
      · rcases hinv.settled P c hs hl hcE z hz with hzE | ⟨k, hk, hkle⟩
        · exact Or.inl (by rw [hEX]; exact List.mem_cons_of_mem _ hzE)
        · obtain ⟨k', hk', hk'le⟩ := ucs_fold_dict_le _ rest v app1
            (get_neighbors_pos_nodup _ _) z k hk
          exact Or.inr ⟨k', hk', by linarith⟩
    have hdict' : ∀ c k, acc.2.1 c = some k → c ∈ app1.explored ∨
        ∃ n ∈ acc.1, n.pos = c ∧ n.cost = k := by
      intro c k hk
      by_cases hmem : c ∈ NN.map Node.pos
      · rw [hNN, List.mem_map] at hmem
        obtain ⟨nb, hnb, rfl⟩ := hmem
        rw [List.mem_filter] at hnb
        have h3 := hF3 nb hnb.1 hnb.2
        refine Or.inr ⟨nb, ?_, rfl, ?_⟩
        · rw [hF1]
          refine List.mem_append_right _ ?_
          rw [hNN, List.mem_filter]
          exact hnb
        · exact Option.some.inj (h3.symm.trans hk)
      · have h2 := hF2 c hmem
        rw [h2] at hk
        rcases hinv.dict c k hk with hcE | ⟨n, hn, hpos, hcost⟩
        · exact Or.inl (by rw [hEX]; exact List.mem_cons_of_mem _ hcE)
        · rcases hall n hn with rfl | hn2
          · refine Or.inl ?_
            rw [← hpos, hEX]
            exact List.mem_cons_self _ _
          · exact Or.inr ⟨n, by rw [hF1]; exact List.mem_append_left _ hn2, hpos, hcost⟩
    have hNNmem : ∀ nb ∈ NN, nb ∈ get_neighbors app1 cur := by
      intro nb hnb
      rw [hNN, List.mem_filter] at hnb
      exact hnb.1
    have htar : cur.pos ≠ s0.target := by
      intro he
      refine htg ?_
      rw [he]
      exact hinv.grid.2.2.1.symm
    refine ⟨⟨?_, ?_, ?_, ?_, ?_, ?_, ?_, ?_, ?_, ?_⟩, ?_, ?_⟩
    · exact ⟨hFg.trans hg1.1, hFs.trans hg1.2.1, hFt.trans hg1.2.2.1,
        hFd.trans hg1.2.2.2⟩
    · show ∀ n ∈ acc.1, ChainFrom s0 s0.start n ∧ n.cost = pathCost n.rootPath
      intro n hn
      rw [hF1] at hn
      rcases List.mem_append.mp hn with hn | hn
      · exact hinv.nodes n (hrestH n hn)
      · have hng := hNNmem n hn
        refine ⟨ChainFrom.neighbor hg1 hcurchain hng, ?_⟩
        have hshape : n.rootPath = cur.rootPath ++ [n.pos] := by
          rw [mem_get_neighbors] at hng
          obtain ⟨m, hm, hv2, rfl⟩ := hng
          rfl
        rw [hshape, pathCost_append_last cur.rootPath cur.pos n.pos (rootPath_getLast cur),
          ← hcurcost, neighbor_cost hng]
    · show ∃ k, acc.2.1 s0.start = some k
      obtain ⟨k, hk⟩ := hinv.startk
      obtain ⟨k', hk', -⟩ := ucs_fold_dict_le _ rest v app1
        (get_neighbors_pos_nodup _ _) s0.start k hk
      exact ⟨k', hk'⟩
    · show s0.target ∉ acc.2.2.explored
      rw [hFe, hEX]
      intro hmem
      rcases List.mem_cons.mp hmem with he | hmem
      · exact htar he.symm
      · exact hinv.tne hmem
    · show acc.2.2.explored.Nodup
      rw [hFe, hEX, List.nodup_cons]
      exact ⟨hE, hinv.enodup⟩
    · show ∀ c ∈ acc.2.2.explored, c = s0.start ∨
        (0 ≤ c.1 ∧ c.1 < GRID_SIZE ∧ 0 ≤ c.2 ∧ c.2 < GRID_SIZE)
      rw [hFe, hEX]
      intro c hc
      rcases List.mem_cons.mp hc with rfl | hc
      · exact chainFrom_pos_bound hcurchain
      · exact hinv.ebound c hc
    · show ∀ c ∈ acc.2.2.explored, ∃ P, SChain s0 P ∧ P.getLast? = some c
      rw [hFe, hEX]
      intro c hc
      rcases List.mem_cons.mp hc with rfl | hc
      · exact ⟨cur.rootPath, ⟨rootPath_head cur hcurchain, rootPath_chain cur hcurchain⟩,
          rootPath_getLast cur⟩
      · exact hinv.ereach c hc
    · show ∀ c k, acc.2.1 c = some k → c ∈ acc.2.2.explored ∨
        ∃ n ∈ acc.1, n.pos = c ∧ n.cost = k
      rw [hFe]
      exact hdict'
    · show ∀ P c, SChain s0 P → P.getLast? = some c → c ∈ acc.2.2.explored →
        ∀ z, AdjStep s0 c z → z ∈ acc.2.2.explored ∨
          ∃ k, acc.2.1 z = some k ∧
            k.toReal ≤ (pathCost P).toReal + (stepCost c z).toReal
      rw [hFe]
      exact hset'
    · show ∀ P z, SChain s0 P → P.getLast? = some z → z ∉ acc.2.2.explored →
        ∃ n P1 P2, n ∈ acc.1 ∧ P = P1 ++ P2 ∧ P1.getLast? = some n.pos ∧
          n.cost.toReal ≤ (pathCost P1).toReal
      rw [hFe]
      intro P z hs hz hzE1
      have hzE : z ∉ app.explored := by
        intro hzin
        exact hzE1 (by rw [hEX]; exact List.mem_cons_of_mem _ hzin)
      obtain ⟨n, P1, P2, hn, he, hq1, hle⟩ := hinv.frontierLB P z hs hz hzE
      rcases hall n hn with rfl | hn2
      · have hP1ne : P1 ≠ [] := by
          intro h0
          rw [h0] at hq1
          exact Option.noConfusion hq1
        have hcE1 : n.pos ∈ app1.explored := by
          rw [hEX]
          exact List.mem_cons_self _ _
        subst he
        exact ucs_walk hset' hdict' P2 P1 n.pos z hs hP1ne hq1 hcE1 hz hzE1
      · exact ⟨n, P1, P2, by rw [hF1]; exact List.mem_append_left _ hn2, he, hq1, hle⟩
    · show acc.2.2.explored.length = app.explored.length + 1
      rw [hFe, hEX]
      rfl
    · show acc.1.length ≤ rest.length + 6
      rw [hF1, List.length_append]
      have h1 : NN.length ≤ (get_neighbors app1 cur).length := by
        rw [hNN]
        exact List.length_filter_le _ _
      have h2 := get_neighbors_len_le app1 cur
      omega

/-- Soundness and cost-optimality of any completed UCS loop run from an
invariant state. -/
theorem ucsRun_correct {s0 : App} : ∀ (fuel : Nat) (st : UcsState), UcsInv s0 st →
    ∀ (r : SearchOutcome) (app' : App), ucsRun fuel st = some (r, app') →
      (∀ p, r = .found p → GridPath s0 p ∧ ∀ q, GridPath s0 q →
        (pathCost p).toReal ≤ (pathCost q).toReal) ∧
      (r = .noPath → ∀ q, ¬ GridPath s0 q) := by
  intro fuel
  induction fuel with
  | zero =>
    intro st _ r app' h
    exact Option.noConfusion h
  | succ n ih =>
    intro st hinv r app' h
    obtain ⟨Hp, vv, app⟩ := st
    simp only [ucsRun] at h
    cases hpm : popMin Hp with
    | none =>
      rw [hpm] at h
      injection h with h'
      injection h' with h1 h2
      subst h1
      constructor
      · intro p hp
        exact SearchOutcome.noConfusion hp
      · intro _ qp hqp
        have hHnil : Hp = [] := (popMin_none Hp).mp hpm
        have hkeyE : ∀ c k, vv c = some k → c ∈ app.explored := by
          intro c k hk
          rcases hinv.dict c k hk with hcE | ⟨m, hm, -⟩
          · exact hcE
          · rw [hHnil] at hm
            exact absurd hm (List.not_mem_nil m)
        have hstartE : s0.start ∈ app.explored := by
          obtain ⟨k, hk⟩ := hinv.startk
          exact hkeyE s0.start k hk
        have hclosed : ∀ c ∈ app.explored, ∀ z, AdjStep s0 c z → z ∈ app.explored := by
          intro c hc z hz
          obtain ⟨P, hsP, hlP⟩ := hinv.ereach c hc
          rcases hinv.settled P c hsP hlP hc z hz with hzE | ⟨k, hk, -⟩
          · exact hzE
          · exact hkeyE z k hk
        have hall := chain_all_visited (fun c hc => hc) hclosed qp s0.start hqp.1
          hstartE hqp.2.2
        have htv : s0.target ∈ app.explored :=
          hall s0.target (List.mem_of_mem_getLast? hqp.2.1)
        exact hinv.tne htv
    | some pr =>
      obtain ⟨cur, rest⟩ := pr
      rw [hpm] at h
      have h2 : (match ucsStep cur rest vv app with
          | StepRes.found p a => some (SearchOutcome.found p, a)
          | StepRes.cont s' => ucsRun n s') = some (r, app') := h
      cases hs : ucsStep cur rest vv app with
      | found p a =>
        rw [hs] at h2
        injection h2 with h'
        injection h' with h1 h3
        subst h1
        constructor
        · intro p' hp'
          injection hp' with hpp
          subst hpp
          exact ucsStep_found_opt hinv hpm hs
        · intro hnp
          exact SearchOutcome.noConfusion hnp
      | cont stc =>
        rw [hs] at h2
        by_cases hE : cur.pos ∈ app.explored
        · have hst : StepRes.cont stc = StepRes.cont (⟨rest, vv, app⟩ : UcsState) :=
            hs.symm.trans (ucsStep_stale cur rest vv app hE)
          injection hst with hst'
          rw [hst'] at h2
          exact ih ⟨rest, vv, app⟩ (ucs_stale_inv hinv hpm hE) r app' h2
        · exact ih stc (ucs_expand_inv hinv hpm hE hs).1 r app' h2

/-- With fuel at least the UCS measure, the loop completes. -/
theorem ucsRun_total {s0 : App} : ∀ (fuel : Nat) (st : UcsState), UcsInv s0 st →
    7 * (626 - st.app.explored.length) + st.heap.length + 1 ≤ fuel →
    (ucsRun fuel st).isSome = true := by
  intro fuel
  induction fuel with
  | zero =>
    intro st _ hm
    exact absurd hm (by omega)
  | succ n ih =>
    intro st hinv hm
    obtain ⟨Hp, vv, app⟩ := st
    show (match popMin Hp with
      | none => some (SearchOutcome.noPath, app)
      | some (cur, rest) =>
        match ucsStep cur rest vv app with
        | StepRes.found p a => some (SearchOutcome.found p, a)
        | StepRes.cont s' => ucsRun n s').isSome = true
    cases hpm : popMin Hp with
    | none => rfl
    | some pr =>
      obtain ⟨cur, rest⟩ := pr
      obtain ⟨hcur, hall, hrest, hmin, hlen⟩ := popMin_spec Hp cur rest hpm
      show (match ucsStep cur rest vv app with
        | StepRes.found p a => some (SearchOutcome.found p, a)
        | StepRes.cont s' => ucsRun n s').isSome = true
      cases hs : ucsStep cur rest vv app with
      | found p a => rfl
      | cont stc =>
        have hm' : 7 * (626 - app.explored.length) + (rest.length + 1) + 1 ≤ n + 1 := by
          have hm2 : 7 * (626 - app.explored.length) + Hp.length + 1 ≤ n + 1 := hm
          omega
        by_cases hE : cur.pos ∈ app.explored
        · have hst : StepRes.cont stc = StepRes.cont (⟨rest, vv, app⟩ : UcsState) :=
            hs.symm.trans (ucsStep_stale cur rest vv app hE)
          injection hst with hst'
          rw [hst']
          refine ih ⟨rest, vv, app⟩ (ucs_stale_inv hinv hpm hE) ?_
          show 7 * (626 - app.explored.length) + rest.length + 1 ≤ n
          omega
        · obtain ⟨hinv', hElen, hHlen⟩ := ucs_expand_inv hinv hpm hE hs
          have hEb : app.explored.length ≤ 626 :=
            visited_card_le hinv.enodup hinv.ebound
          have hEb' : stc.app.explored.length ≤ 626 :=
            visited_card_le hinv'.enodup hinv'.ebound
          refine ih stc hinv' ?_
          omega

/-- The initial UCS state, on a state with a cleared explored set,
satisfies the invariant. -/
theorem ucsInit_inv (s0 : App) (hE : s0.explored = []) :
    UcsInv s0 ⟨[Node.mk s0.start.1 s0.start.2 ⟨0, 0⟩ none],
      (fun c => if c = s0.start then some ⟨0, 0⟩ else none), s0⟩ := by
  have hpos : (Node.mk s0.start.1 s0.start.2 (⟨0, 0⟩ : Cost) none).pos = s0.start := rfl
  refine ⟨gridEq_refl s0, ?_, ?_, ?_, ?_, ?_, ?_, ?_, ?_, ?_⟩
  · intro n hn
    simp only [List.mem_singleton] at hn
    subst hn
    exact ⟨rfl, rfl⟩
  · refine ⟨⟨0, 0⟩, ?_⟩
    show (if s0.start = s0.start then some (⟨0, 0⟩ : Cost) else none) = some ⟨0, 0⟩
    rw [if_pos rfl]
  · rw [hE]
    exact List.not_mem_nil _
  · rw [hE]
    exact List.nodup_nil
  · intro c hc
    rw [hE] at hc
    exact absurd hc (List.not_mem_nil c)
  · intro c hc
    rw [hE] at hc
    exact absurd hc (List.not_mem_nil c)
  · intro c k hk
    have hk' : (if c = s0.start then some (⟨0, 0⟩ : Cost) else none) = some k := hk
    by_cases hce : c = s0.start
    · rw [if_pos hce] at hk'
      subst hce
      refine Or.inr ⟨Node.mk s0.start.1 s0.start.2 ⟨0, 0⟩ none,
        List.mem_singleton.mpr rfl, hpos, Option.some.inj hk'⟩
    · rw [if_neg hce] at hk'
      exact Option.noConfusion hk'
  · intro P c _ _ hcE
    rw [hE] at hcE
    exact absurd hcE (List.not_mem_nil c)
  · intro P z hs hz _
    cases P with
    | nil => exact Option.noConfusion hz
    | cons x t =>
      have hx : x = s0.start := Option.some.inj hs.1
      subst hx
      refine ⟨Node.mk s0.start.1 s0.start.2 ⟨0, 0⟩ none, [s0.start], t,
        List.mem_singleton.mpr rfl, rfl, rfl, ?_⟩
      show (Cost.mk 0 0).toReal ≤ (pathCost [s0.start]).toReal
      exact le_refl _

/-- C2: when the target is traversable-reachable, UCS completes and every
completed run returns a found path that is a traversable start-to-target
path of minimal total cost, where each orthogonal move costs 1.0 and each
diagonal move costs √2; the push step appends to the heap without removing
the cell's existing entries (so duplicate entries for one cell may coexist
in the heap) while recording the new best cost; and a popped entry whose
cell is already explored is discarded without expansion. -/
theorem C2_ucs_minimal_cost (s : App)
    (hreach : ∃ q, GridPath (clear_path s) q) :
    ((∃ fuel res, ucs s fuel = some res) ∧
      ∀ fuel r app', ucs s fuel = some (r, app') →
        ∃ p, r = .found p ∧ GridPath (clear_path s) p ∧
          ∀ q, GridPath (clear_path s) q →
            (pathCost p).toReal ≤ (pathCost q).toReal) ∧
    (∀ (hp : List Node) (v : (Int × Int) → Option Cost) (a : App) (nb : Node)
        (k : Cost), v nb.pos = some k → Cost.ltB nb.cost k = true →
        ucsPush (hp, v, a) nb =
          (hp ++ [nb], fun x => if x = nb.pos then some nb.cost else v x,
            { a with frontier := setAdd a.frontier nb.pos }) ∧
        (ucsPush (hp, v, a) nb).1.countP (fun m => decide (m.pos = nb.pos)) =
          hp.countP (fun m => decide (m.pos = nb.pos)) + 1) ∧
    (∀ (cur : Node) (rest : List Node) (v : (Int × Int) → Option Cost) (a : App),
        cur.pos ∈ a.explored → ucsStep cur rest v a = .cont ⟨rest, v, a⟩) := by
  refine ⟨⟨?_, ?_⟩, ?_, ucsStep_stale⟩
  · have htot := ucsRun_total 4400
      ⟨[Node.mk (clear_path s).start.1 (clear_path s).start.2 ⟨0, 0⟩ none],
        (fun c => if c = (clear_path s).start then some ⟨0, 0⟩ else none),
        clear_path s⟩ (ucsInit_inv (clear_path s) rfl)
        (by show 7 * (626 - (0 : Nat)) + 1 + 1 ≤ 4400; norm_num)
    obtain ⟨res, hres⟩ := Option.isSome_iff_exists.mp htot
    exact ⟨4400, res, hres⟩
  · intro fuel r app' h
    have h' : ucsRun fuel
        ⟨[Node.mk (clear_path s).start.1 (clear_path s).start.2 ⟨0, 0⟩ none],
          (fun c => if c = (clear_path s).start then some ⟨0, 0⟩ else none),
          clear_path s⟩ = some (r, app') := h
    have hco := ucsRun_correct fuel _ (ucsInit_inv (clear_path s) rfl) r app' h'
    cases r with
    | found p => exact ⟨p, rfl, hco.1 p rfl⟩
    | noPath =>
      obtain ⟨q, hq⟩ := hreach
      exact absurd hq (hco.2 rfl q)
  · intro hp v a nb k hv hlt
    have hpb : ucsPushB v nb = true := by
      unfold ucsPushB
      rw [hv]
      exact hlt
    have heq : ucsPush (hp, v, a) nb =
        (hp ++ [nb], fun x => if x = nb.pos then some nb.cost else v x,
          { a with frontier := setAdd a.frontier nb.pos }) := by
      rw [ucsPush_eq, if_pos hpb]
    refine ⟨heq, ?_⟩
    rw [heq]
    show (hp ++ [nb]).countP (fun m => decide (m.pos = nb.pos)) =
      hp.countP (fun m => decide (m.pos = nb.pos)) + 1
    rw [List.countP_append]
    simp

/-- A stale heap entry for the duplicate-coexistence demonstration: the
cell `(1, 1)` is recorded at cost `2.0`, and a new entry arrives at cost
`√2`. -/
def dupOld : Node := Node.mk 1 1 ⟨2, 0⟩ none

/-- The cheaper rediscovery of the same cell. -/
def dupNew : Node := Node.mk 1 1 ⟨0, 1⟩ none

/-- Dict recording the old best pushed cost of `(1, 1)`. -/
def dupVis : (Int × Int) → Option Cost := fun c =>
  if c = (1, 1) then some ⟨2, 0⟩ else none

theorem C2_ucs_minimal_cost_witness :
    ((∃ fuel res, ucs exApp6 fuel = some res) ∧
      ∀ fuel r app', ucs exApp6 fuel = some (r, app') →
        ∃ p, r = .found p ∧ GridPath (clear_path exApp6) p ∧
          ∀ q, GridPath (clear_path exApp6) q →
            (pathCost p).toReal ≤ (pathCost q).toReal) ∧
    (ucsPush ([dupOld], dupVis, exApp6) dupNew =
        ([dupOld] ++ [dupNew], fun x => if x = dupNew.pos then some dupNew.cost else dupVis x,
          { exApp6 with frontier := setAdd exApp6.frontier dupNew.pos }) ∧
      (ucsPush ([dupOld], dupVis, exApp6) dupNew).1.countP
          (fun m => decide (m.pos = dupNew.pos)) =
        ([dupOld] : List Node).countP (fun m => decide (m.pos = dupNew.pos)) + 1) ∧
    ucsStep dupOld [] dupVis { exApp6 with explored := [(1, 1)] } =
      .cont ⟨[], dupVis, { exApp6 with explored := [(1, 1)] }⟩ :=
  ⟨(C2_ucs_minimal_cost exApp6 ⟨[(0, 0), (0, 1), (0, 2)], by decide⟩).1,
   (C2_ucs_minimal_cost exApp6 ⟨[(0, 0), (0, 1), (0, 2)], by decide⟩).2.1
     [dupOld] dupVis exApp6 dupNew ⟨2, 0⟩ (by rfl) (by rfl),
   (C2_ucs_minimal_cost exApp6 ⟨[(0, 0), (0, 1), (0, 2)], by decide⟩).2.2
     dupOld [] dupVis { exApp6 with explored := [(1, 1)] } (by decide)⟩

theorem C1_bfs_shortest_path_witness :
    (∃ fuel res, bfs exApp6 fuel = some res) ∧
    (∀ fuel r app', bfs exApp6 fuel = some (r, app') →
      ∃ p, r = .found p ∧ GridPath (clear_path exApp6) p ∧
        ∀ q, GridPath (clear_path exApp6) q → p.length ≤ q.length) :=
  C1_bfs_shortest_path exApp6 ⟨[(0, 0), (0, 1), (0, 2)], by decide⟩

end AIPathfinder
